import Mathlib

/-!
Verification development for the findminhs minimum-hitting-set solver.

The Rust sources `instance.rs`, `solve.rs` and `lower_bound.rs` are embedded
shallowly: machine integers become `Nat`, fallible construction returns
`Except`, and the in-place mutation of the hypergraph instance becomes
explicit state passing.  The auxiliary containers (`ContiguousIdxVec`,
`SkipVec`), the subset/superset reducer, the activity tracker and a few
`Instance` queries are not part of the given sources; they are modelled from
the specification, as indicated by their doc comments.
-/

namespace FindMinHS

/-- Sentinel id used by the index types of the program (the maximum u32). -/
def INVALID : Nat := 2 ^ 32 - 1

/-- Update the element at index `k` of a list with `f`; out-of-range indices
leave the list unchanged. -/
def updAt {α : Type} (l : List α) (k : Nat) (f : α → α) : List α :=
  match l[k]? with
  | some a => l.set k (f a)
  | none => l

/-- Stable insertion of `a` into `l`, placing `a` before the first element
`b` with `le a b`. -/
def insSorted {α : Type} (le : α → α → Bool) (a : α) : List α → List α
  | [] => [a]
  | b :: l => if le a b then a :: b :: l else b :: insSorted le a l

/-- Stable insertion sort with respect to the boolean relation `le`. -/
def sortByB {α : Type} (le : α → α → Bool) (l : List α) : List α :=
  l.foldr (insSorted le) []

/-- Modelled from the spec (section 4.1, `ContiguousIdxVec`, not in src):
an ordered live set of small ids with O(1) reversible removal.  A dense array
of ids plus a position map; `delete` swaps the deleted id with the last live
id and shrinks the live prefix, `restore` regrows the prefix and swaps back
using the stored position. -/
structure Civ where
  data : List Nat
  pos : List Nat
  liveLen : Nat
deriving DecidableEq, Repr, Inhabited

namespace Civ

/-- Construct with ids `0..n-1` live. -/
def init (n : Nat) : Civ := ⟨List.range n, List.range n, n⟩

/-- Currently live ids: the live prefix of the dense array. -/
def liveList (c : Civ) : List Nat := c.data.take c.liveLen

/-- Mark id `i` deleted: swap it with the last live id, shrink the prefix,
and record the original position of `i` in the position map. -/
def delete (c : Civ) (i : Nat) : Civ :=
  let p := c.pos.getD i 0
  let last := c.liveLen - 1
  let j := c.data.getD last 0
  ⟨(c.data.set p j).set last i, (c.pos.set j p).set i p, last⟩

/-- Re-insert id `i`; correct when restores mirror deletes in LIFO order. -/
def restore (c : Civ) (i : Nat) : Civ :=
  let p := c.pos.getD i 0
  let j := c.data.getD p 0
  ⟨(c.data.set p i).set c.liveLen j, (c.pos.set i p).set j c.liveLen, c.liveLen + 1⟩

/-- Validity of the dense-array-plus-position-map representation: the
position map inverts the dense array on the live prefix, and live entries
stay inside the arrays. -/
def Valid (c : Civ) : Prop :=
  c.liveLen ≤ c.data.length ∧ c.pos.length = c.data.length ∧
    (∀ k, k < c.liveLen → c.data.getD k 0 < c.data.length ∧
      c.pos.getD (c.data.getD k 0) 0 = k)

instance (c : Civ) : Decidable c.Valid := by
  unfold Valid
  exact inferInstance

end Civ

/-- Modelled from the spec (section 4.2, `SkipVec`, not in src): a
fixed-capacity sparse sequence whose slots are deleted and restored in LIFO
order and whose iteration yields the live slots in ascending slot order.
Each slot is its value paired with a liveness flag; the doubly-linked free
list of the implementation hint realises exactly this observable behaviour
in O(1). -/
structure SkipVec where
  entries : List ((Nat × Nat) × Bool)
deriving DecidableEq, Repr, Inhabited

namespace SkipVec

/-- Build with `n` live slots holding `fill`. -/
def with_len (n : Nat) (fill : Nat × Nat) : SkipVec := ⟨List.replicate n (fill, true)⟩

/-- Set the liveness flag of slot `j`. -/
def setFlag (sv : SkipVec) (j : Nat) (b : Bool) : SkipVec :=
  ⟨updAt sv.entries j (fun p => (p.1, b))⟩

/-- Mark slot `j` deleted. -/
def delete (sv : SkipVec) (j : Nat) : SkipVec := sv.setFlag j false

/-- Mark slot `j` live again. -/
def restore (sv : SkipVec) (j : Nat) : SkipVec := sv.setFlag j true

/-- The live slots in ascending slot order, with their values. -/
def liveSlots (sv : SkipVec) : List (Nat × (Nat × Nat)) :=
  sv.entries.enum.filterMap (fun p => if p.2.2 then some (p.1, p.2.1) else none)

/-- Number of live slots. -/
def len (sv : SkipVec) : Nat := sv.liveSlots.length

/-- Value stored in slot `j` (the sentinel pair when out of range). -/
def valueAt (sv : SkipVec) (j : Nat) : Nat × Nat :=
  (sv.entries.getD j ((INVALID, INVALID), false)).1

/-- Liveness flag of slot `j` (false when out of range). -/
def flagAt (sv : SkipVec) (j : Nat) : Bool :=
  (sv.entries.getD j ((INVALID, INVALID), false)).2

end SkipVec

/-- The hypergraph instance of `instance.rs`: live vertex and edge sets plus
the two cross-linked incidence stores. -/
structure Instance where
  nodes : Civ
  edges : Civ
  node_incidences : List SkipVec
  edge_incidences : List SkipVec
deriving DecidableEq, Repr, Inhabited

namespace Instance

/-- Incidence list of vertex `v`. -/
def ni (inst : Instance) (v : Nat) : SkipVec := inst.node_incidences.getD v ⟨[]⟩

/-- Incidence list of edge `e`. -/
def ei (inst : Instance) (e : Nat) : SkipVec := inst.edge_incidences.getD e ⟨[]⟩

/-- Live vertices, in the order of the reversible index vector. -/
def liveNodes (inst : Instance) : List Nat := inst.nodes.liveList

/-- Live edges, in the order of the reversible index vector. -/
def liveEdges (inst : Instance) : List Nat := inst.edges.liveList

/-- Source `Instance::node`: edge ids incident to a vertex, in slot order. -/
def nodeEdges (inst : Instance) (v : Nat) : List Nat :=
  (inst.ni v).liveSlots.map (fun p => p.2.1)

/-- Source `Instance::edge`: vertex ids incident to an edge, in slot order. -/
def edgeNodes (inst : Instance) (e : Nat) : List Nat :=
  (inst.ei e).liveSlots.map (fun p => p.2.1)

/-- Source `Instance::node_degree`. -/
def node_degree (inst : Instance) (v : Nat) : Nat := (inst.ni v).len

/-- Source `Instance::edge_degree`. -/
def edge_degree (inst : Instance) (e : Nat) : Nat := (inst.ei e).len

/-- Source `Instance::delete_node`: delete the cross-side slot of every live
incidence of `v`, then remove `v` from the live vertex set.  The incidence
list of `v` itself is kept intact. -/
def delete_node (inst : Instance) (v : Nat) : Instance :=
  let eis := (inst.ni v).liveSlots.foldl
    (fun eis p => updAt eis p.2.1 (fun sv => sv.delete p.2.2)) inst.edge_incidences
  { inst with edge_incidences := eis, nodes := inst.nodes.delete v }

/-- Source `Instance::delete_edge`. -/
def delete_edge (inst : Instance) (e : Nat) : Instance :=
  let nis := (inst.ei e).liveSlots.foldl
    (fun nis p => updAt nis p.2.1 (fun sv => sv.delete p.2.2)) inst.node_incidences
  { inst with node_incidences := nis, edges := inst.edges.delete e }

/-- Source `Instance::restore_node`: restore the cross-side slots recorded in
the retained incidence list of `v`, then revive `v`. -/
def restore_node (inst : Instance) (v : Nat) : Instance :=
  let eis := (inst.ni v).liveSlots.foldl
    (fun eis p => updAt eis p.2.1 (fun sv => sv.restore p.2.2)) inst.edge_incidences
  { inst with edge_incidences := eis, nodes := inst.nodes.restore v }

/-- Source `Instance::restore_edge`. -/
def restore_edge (inst : Instance) (e : Nat) : Instance :=
  let nis := (inst.ei e).liveSlots.foldl
    (fun nis p => updAt nis p.2.1 (fun sv => sv.restore p.2.2)) inst.node_incidences
  { inst with node_incidences := nis, edges := inst.edges.restore e }

/-- Source `Instance::delete_incident_edges`: temporarily detach the
incidence list of the (already deleted) vertex `v`, delete each of its live
edges in ascending order, and re-attach the list. -/
def delete_incident_edges (inst : Instance) (v : Nat) : Instance :=
  let inc := inst.ni v
  let inst1 := { inst with node_incidences := updAt inst.node_incidences v (fun _ => ⟨[]⟩) }
  let inst2 := inc.liveSlots.foldl (fun ist p => ist.delete_edge p.2.1) inst1
  { inst2 with node_incidences := updAt inst2.node_incidences v (fun _ => inc) }

/-- Source `Instance::restore_incident_edges`: the reverse of
`delete_incident_edges`, restoring the retained edges in reverse order. -/
def restore_incident_edges (inst : Instance) (v : Nat) : Instance :=
  let inc := inst.ni v
  let inst1 := { inst with node_incidences := updAt inst.node_incidences v (fun _ => ⟨[]⟩) }
  let inst2 := inc.liveSlots.reverse.foldl (fun ist p => ist.restore_edge p.2.1) inst1
  { inst2 with node_incidences := updAt inst2.node_incidences v (fun _ => inc) }

/-- Replace the vertex-side incidence store (used to reason about the
detach/re-attach of `delete_incident_edges`). -/
def withNis (inst : Instance) (nis : List SkipVec) : Instance :=
  ⟨inst.nodes, inst.edges, nis, inst.edge_incidences⟩

/-- Swap the vertex and edge sides of an instance; `delete_edge` is the
transpose of `delete_node`, which lets every edge-side lemma follow from
its vertex-side twin. -/
def transpose (inst : Instance) : Instance :=
  ⟨inst.edges, inst.nodes, inst.edge_incidences, inst.node_incidences⟩

/-- Modelled from the spec (section 4.4 queries, not in the given src):
number of live edges. -/
def num_edges (inst : Instance) : Nat := inst.liveEdges.length

/-- Modelled from the spec (section 4.4 queries, not in the given src):
maximal degree over the live vertices. -/
def max_node_degree (inst : Instance) : Nat :=
  (inst.liveNodes.map inst.node_degree).foldl max 0

/-- Modelled from the spec (section 4.4 queries, not in the given src):
original number of vertices, for buffer sizing. -/
def num_nodes_total (inst : Instance) : Nat := inst.node_incidences.length

/-- Modelled from the spec (section 4.4 queries, not in the given src):
original number of edges, for buffer sizing. -/
def num_edges_total (inst : Instance) : Nat := inst.edge_incidences.length

/-- Modelled from the spec (section 4.4 queries, not in the given src): any
edge currently of degree 1 together with its single live vertex, if any. -/
def degree_1_edge (inst : Instance) : Option (Nat × Nat) :=
  (inst.liveEdges.find? (fun e => inst.edge_degree e == 1)).map
    (fun e => (e, (inst.edgeNodes e).headD INVALID))

end Instance

/-- Liveness flag of slot `j` of list `e` in an incidence store. -/
def flagOf (eis : List SkipVec) (e j : Nat) : Bool := (eis.getD e ⟨[]⟩).flagAt j

/-- Value of slot `j` of list `e` in an incidence store. -/
def valOf (eis : List SkipVec) (e j : Nat) : Nat × Nat := (eis.getD e ⟨[]⟩).valueAt j

/-- Number of slots of list `e` in an incidence store. -/
def slotsOf (eis : List SkipVec) (e : Nat) : Nat := (eis.getD e ⟨[]⟩).entries.length

/-- Set the liveness flag of the cross-side slot of every incidence in `S`
to `b`; the common shape of the four delete/restore loops of
`instance.rs`. -/
def setFold (eis : List SkipVec) (S : List (Nat × (Nat × Nat))) (b : Bool) : List SkipVec :=
  S.foldl (fun x p => updAt x p.2.1 (fun sv => sv.setFlag p.2.2 b)) eis

namespace Instance

/-- Structural linkage: every slot on one side points to a slot on the
other side that points back; values are inside the arrays. -/
def Linked (inst : Instance) : Prop :=
  (∀ v, v < inst.num_nodes_total → ∀ i, i < slotsOf inst.node_incidences v →
    (valOf inst.node_incidences v i).1 < inst.num_edges_total ∧
    (valOf inst.node_incidences v i).2 <
      slotsOf inst.edge_incidences (valOf inst.node_incidences v i).1 ∧
    valOf inst.edge_incidences (valOf inst.node_incidences v i).1
      (valOf inst.node_incidences v i).2 = (v, i)) ∧
  (∀ e, e < inst.num_edges_total → ∀ j, j < slotsOf inst.edge_incidences e →
    (valOf inst.edge_incidences e j).1 < inst.num_nodes_total ∧
    (valOf inst.edge_incidences e j).2 <
      slotsOf inst.node_incidences (valOf inst.edge_incidences e j).1 ∧
    valOf inst.node_incidences (valOf inst.edge_incidences e j).1
      (valOf inst.edge_incidences e j).2 = (e, j))

/-- Liveness linkage: a live slot of a live edge points to a live vertex
whose corresponding slot is live, and symmetrically. -/
def LiveLinked (inst : Instance) : Prop :=
  (∀ e ∈ inst.liveEdges, ∀ j, j < slotsOf inst.edge_incidences e →
    flagOf inst.edge_incidences e j = true →
    (valOf inst.edge_incidences e j).1 ∈ inst.liveNodes ∧
    flagOf inst.node_incidences (valOf inst.edge_incidences e j).1
      (valOf inst.edge_incidences e j).2 = true) ∧
  (∀ v ∈ inst.liveNodes, ∀ i, i < slotsOf inst.node_incidences v →
    flagOf inst.node_incidences v i = true →
    (valOf inst.node_incidences v i).1 ∈ inst.liveEdges ∧
    flagOf inst.edge_incidences (valOf inst.node_incidences v i).1
      (valOf inst.node_incidences v i).2 = true)

/-- Each incidence list mentions each partner id at most once. -/
def NodupInc (inst : Instance) : Prop :=
  (∀ v, v < inst.num_nodes_total →
    (((inst.ni v).entries.map (fun en => en.1.1)).Nodup)) ∧
  (∀ e, e < inst.num_edges_total →
    (((inst.ei e).entries.map (fun en => en.1.1)).Nodup))

/-- The live sets index exactly the incidence stores. -/
def Sized (inst : Instance) : Prop :=
  inst.nodes.data.length = inst.num_nodes_total ∧
  inst.edges.data.length = inst.num_edges_total

/-- The full well-formedness invariant of an instance. -/
def Good (inst : Instance) : Prop :=
  inst.nodes.Valid ∧ inst.edges.Valid ∧ inst.Sized ∧ inst.Linked ∧
    inst.LiveLinked ∧ inst.NodupInc

/-- Every live edge has at least one live vertex. -/
def LiveNonempty (inst : Instance) : Prop :=
  ∀ e ∈ inst.liveEdges, inst.edgeNodes e ≠ []

instance (inst : Instance) : Decidable inst.Sized := by
  unfold Sized
  exact inferInstance

instance (inst : Instance) : Decidable inst.Linked := by
  unfold Linked
  exact inferInstance

instance (inst : Instance) : Decidable inst.LiveLinked := by
  unfold LiveLinked
  exact inferInstance

instance (inst : Instance) : Decidable inst.NodupInc := by
  unfold NodupInc
  exact inferInstance

instance (inst : Instance) : Decidable inst.Good := by
  unfold Good
  exact inferInstance

instance (inst : Instance) : Decidable inst.LiveNonempty := by
  unfold LiveNonempty
  exact inferInstance

end Instance

/-- The list `hs` hits the vertex collection `C`. -/
def hitsList (hs C : List Nat) : Prop := ∃ v ∈ hs, v ∈ C

/-- The list `hs` is a hitting set of the edge contents `E0`. -/
def IsHS (hs : List Nat) (E0 : List (List Nat)) : Prop := ∀ C ∈ E0, hitsList hs C

/-- Search soundness invariant: each original edge content of `E0` is
already hit by the partial solution or still contains the live content of
some live edge. -/
def Covers (inst : Instance) (hs : List Nat) (E0 : List (List Nat)) : Prop :=
  ∀ C ∈ E0, hitsList hs C ∨ ∃ f ∈ inst.liveEdges, ∀ u ∈ inst.edgeNodes f, u ∈ C

instance (hs C : List Nat) : Decidable (hitsList hs C) := by
  unfold hitsList
  exact inferInstance

instance (hs : List Nat) (E0 : List (List Nat)) : Decidable (IsHS hs E0) := by
  unfold IsHS
  exact inferInstance

instance (inst : Instance) (hs : List Nat) (E0 : List (List Nat)) :
    Decidable (Covers inst hs E0) := by
  unfold Covers
  exact inferInstance

/-- A balanced, LIFO-nested sequence of matched delete/restore pairs on an
instance: each constructor wraps an inner balanced sequence between a
delete and the matching restore. -/
inductive Ops
  | nil
  | seq (a b : Ops)
  | node (v : Nat) (inner : Ops)
  | edge (e : Nat) (inner : Ops)
  | incident (v : Nat) (inner : Ops)
deriving DecidableEq, Repr

/-- Run a balanced sequence on an instance. -/
def runOps : Ops → Instance → Instance
  | .nil, s => s
  | .seq a b, s => runOps b (runOps a s)
  | .node v i, s => (runOps i (s.delete_node v)).restore_node v
  | .edge e i, s => (runOps i (s.delete_edge e)).restore_edge e
  | .incident v i, s => (runOps i (s.delete_incident_edges v)).restore_incident_edges v

/-- Precondition of `delete_incident_edges v` (the source debug-asserts the
first part): the vertex is already deleted, and its retained live entries
point at live edges whose back-slots are already deleted. -/
def vSafeB (inst : Instance) (v : Nat) : Bool :=
  !(inst.liveNodes.contains v) &&
    (inst.ni v).liveSlots.all (fun p =>
      inst.liveEdges.contains p.2.1 && !(flagOf inst.edge_incidences p.2.1 p.2.2))

/-- Applicability of a balanced sequence: every delete targets a live id
(and `incident` respects its precondition) in the state where it runs. -/
def applicableB : Ops → Instance → Bool
  | .nil, _ => true
  | .seq a b, s => applicableB a s && applicableB b (runOps a s)
  | .node v i, s => s.liveNodes.contains v && applicableB i (s.delete_node v)
  | .edge e i, s => s.liveEdges.contains e && applicableB i (s.delete_edge e)
  | .incident v i, s => vSafeB s v && applicableB i (s.delete_incident_edges v)

/-- A token of the textual input: `some n` when the token parses as a u32
(a numeral that does not fit in 32 bits is modelled as an unparseable
token), `none` when it does not parse as an integer. -/
abbrev Token := Option Nat

/-- Parsing a token, mirroring the `str::parse` error propagated by `?`. -/
def parseTok : Token → Except String Nat
  | some n => Except.ok n
  | none => Except.error "invalid digit found in string"

/-- Parse a list of tokens in order, failing on the first unparseable one
(the zip loop of `Instance::load` parses exactly the consumed tokens). -/
def parseVals : List Token → Except String (List Nat)
  | [] => Except.ok []
  | t :: rest => do
    let v ← parseTok t
    let vs ← parseVals rest
    Except.ok (v :: vs)

/-- One edge line of `Instance::load`: read the degree, reject degree 0,
then fill the first slots of a fresh incidence list with the vertex ids that
are present (at most `degree` of them); missing slots keep the INVALID
sentinel fill. -/
def loadEdgeLine (line : List Token) : Except String SkipVec := do
  let dTok ← match line.get? 0 with
    | none => Except.error "empty edge line in input, expected degree"
    | some t => pure t
  let d ← parseTok dTok
  if d = 0 then Except.error "edges may not be empty" else
  let vals ← parseVals ((line.drop 1).take d)
  pure ⟨vals.map (fun v => ((v, INVALID), true)) ++
        List.replicate (d - vals.length) ((INVALID, INVALID), true)⟩

/-- The edge-line loop of `Instance::load`, reading `count` lines starting
at line index `idx` (a line past the end of the input reads as empty). -/
def loadEdgesAux (input : List (List Token)) :
    Nat → Nat → List SkipVec → Except String (List SkipVec)
  | 0, _, acc => Except.ok acc.reverse
  | k + 1, idx, acc => do
    let sv ← loadEdgeLine (input.getD idx [])
    loadEdgesAux input k (idx + 1) (sv :: acc)

/-- Sort key of the flat incidence list in `Instance::load`: the stored
(vertex id, entry) pair, then the edge id. -/
def incKey (eis : List SkipVec) (p : Nat × Nat) : (Nat × Nat) × Nat :=
  ((eis.getD p.1 ⟨[]⟩).valueAt p.2, p.1)

/-- Lexicographic comparison of incidence sort keys. -/
def keyLe (a b : (Nat × Nat) × Nat) : Bool :=
  decide (a.1.1 < b.1.1) ||
    (decide (a.1.1 = b.1.1) &&
      (decide (a.1.2 < b.1.2) ||
        (decide (a.1.2 = b.1.2) && decide (a.2 ≤ b.2))))

/-- Write `i` into the entry component of slot `j` of edge `e` (the
back-patching step of `Instance::load`). -/
def setEntrySecond (eis : List SkipVec) (e j i : Nat) : List SkipVec :=
  updAt eis e (fun sv => ⟨updAt sv.entries j (fun en => ((en.1.1, i), en.2))⟩)

/-- Back-patch a run of incidences of one vertex: slot `i` of the vertex
list is linked from entry `(e, j)`. -/
def patchRun (eis : List SkipVec) (run : List (Nat × Nat)) : List SkipVec :=
  run.enum.foldl (fun eis p => setEntrySecond eis p.2.1 p.2.2 p.1) eis

/-- The per-vertex loop of `Instance::load`: split the sorted incidence list
into runs, build each vertex incidence list from its run, and back-patch the
edge side. -/
def buildNodes :
    List Nat → List (Nat × Nat) → List SkipVec → List SkipVec × List SkipVec
  | [], _, eis => ([], eis)
  | v :: rest, rem, eis =>
    let run := rem.takeWhile (fun p => ((eis.getD p.1 ⟨[]⟩).valueAt p.2).1 == v)
    let eis1 := patchRun eis run
    let res := buildNodes rest (rem.drop run.length) eis1
    (⟨run.map (fun p => (p, true))⟩ :: res.1, res.2)

/-- Source `Instance::load`, on the token-level model of the input text. -/
def load (input : List (List Token)) : Except String Instance := do
  let line0 := input.headD []
  let nTok ← match line0.get? 0 with
    | none => Except.error "Missing node count"
    | some t => pure t
  let num_nodes ← parseTok nTok
  let mTok ← match line0.get? 1 with
    | none => Except.error "Missing edge count"
    | some t => pure t
  let num_edges ← parseTok mTok
  if 2 < line0.length then Except.error "Too many numbers in first input line" else
  let eis0 ← loadEdgesAux input num_edges 1 []
  let all := eis0.enum.flatMap (fun p => p.2.liveSlots.map (fun q => (p.1, q.1)))
  let allSorted := sortByB (fun a b => keyLe (incKey eis0 a) (incKey eis0 b)) all
  let built := buildNodes (List.range num_nodes) allSorted eis0
  pure ⟨Civ.init num_nodes, Civ.init num_edges, built.1, built.2⟩

/-- The parts of an incidence entry that back-patching does not touch: the
stored partner id and the liveness flag. -/
def entryShape (en : (Nat × Nat) × Bool) : Nat × Bool := (en.1.1, en.2)

/-- Partner ids and liveness flags of one incidence list, in slot order. -/
def eisShape (eis : List SkipVec) (e : Nat) : List (Nat × Bool) :=
  ((eis.getD e ⟨[]⟩).entries).map entryShape

/-- Last element of `l` attaining the maximal value of `f`, mirroring the
Rust `Iterator::max_by_key` convention (the sentinel when `l` is empty,
where the source would panic via `expect`). -/
def maxByKeyLast (l : List Nat) (f : Nat → Nat) : Nat :=
  l.foldl (fun b a => if f b ≤ f a then a else b) (l.headD INVALID)

/-- Lexicographic boolean order on pairs, as the Rust `Ord` for tuples. -/
def pairLe (a b : Nat × Nat) : Bool :=
  decide (a.1 < b.1) || (decide (a.1 = b.1) && decide (a.2 ≤ b.2))

/-- The counting take-while of `lower_bound::calculate`: number of leading
degrees consumed while the accumulated cover is still below the target. -/
def consumeCount : List Nat → Nat → Nat → Nat
  | [], _, _ => 0
  | d :: rest, covered, target =>
    if covered < target then 1 + consumeCount rest (covered + d) target else 0

/-- Source `lower_bound::pack_edges_without_local_search`: sort the live
edges by their keys, then keep an edge iff it is still free, marking every
edge incident to one of its vertices as blocked. -/
def pack_edges_without_local_search (inst : Instance) (keys : List (Nat × Nat)) :
    List Nat :=
  let sorted := sortByB (fun a b => pairLe (keys.getD a (0, 0)) (keys.getD b (0, 0)))
    inst.liveEdges
  (sorted.foldl (fun acc e =>
      if acc.2.getD e true then
        (acc.1 ++ [e],
          (inst.edgeNodes e).foldl
            (fun fr v => (inst.nodeEdges v).foldl (fun fr f => fr.set f false) fr) acc.2)
      else acc)
    (([] : List Nat), List.replicate inst.num_edges_total true)).1

/-- Source `lower_bound::pack_edges` (with the `local-search` feature off):
compute the (degree sum, degree max) key of every live edge, then run the
greedy packing. -/
def pack_edges (inst : Instance) : List Nat × List (Nat × Nat) :=
  let keys := inst.liveEdges.foldl (fun ks e =>
      ks.set e ((inst.edgeNodes e).foldl (fun sm v =>
        let d := inst.node_degree v
        (sm.1 + d, max sm.2 d)) (0, 0)))
    (List.replicate inst.num_edges_total (0, 0))
  (pack_edges_without_local_search inst keys, keys)

/-- Source `lower_bound::calculate`: the degree-sum refinement of the
packing bound. -/
def calculate (inst : Instance) (packing : List Nat) (part_size : Nat) : Nat :=
  let degree0 := inst.liveNodes.foldl (fun deg v => deg.set v (inst.node_degree v))
    (List.replicate inst.num_nodes_total 0)
  let res := packing.foldl (fun acc pe =>
      let mdn := maxByKeyLast (inst.edgeNodes pe) inst.node_degree
      let deg := (inst.edgeNodes pe).foldl (fun d v => d.set v (d.getD v 0 - 1)) acc.1
      (deg.set mdn 0, acc.2 + inst.node_degree mdn))
    (degree0, 0)
  let sorted := sortByB (fun a b => decide (a ≤ b)) res.1
  part_size + packing.length + consumeCount sorted.reverse res.2 inst.num_edges

/-- Transcription of the spec text of section 4.6 phase C, used to check
`calculate` against the specification: the maximal-degree vertex of each
packed edge is assigned to it and its degree counts as covered; every packed
vertex loses one residual degree and assigned vertices drop to zero; the
largest residual degrees are then consumed until the live edge count is
covered. -/
def residualSpec (inst : Instance) (packing : List Nat) (v : Nat) : Nat :=
  if packing.any (fun p => maxByKeyLast (inst.edgeNodes p) inst.node_degree == v) then 0
  else
    (if inst.liveNodes.contains v then inst.node_degree v else 0) -
      packing.countP (fun p => (inst.edgeNodes p).contains v)

/-- Phase C of section 4.6 as written in the spec; compare with
`calculate`. -/
def calculateSpec (inst : Instance) (packing : List Nat) (part_size : Nat) : Nat :=
  let covered := (packing.map
    (fun p => inst.node_degree (maxByKeyLast (inst.edgeNodes p) inst.node_degree))).sum
  let residuals := (List.range inst.num_nodes_total).map (residualSpec inst packing)
  part_size + packing.length +
    consumeCount (sortByB (fun a b => decide (b ≤ a)) residuals) covered inst.num_edges

/-- Modelled from the spec (section 4.7): activity scores are real numbers;
we represent them as exact unnormalised fractions with positive denominator,
which supports the additive bumps, the multiplicative decay by the constant
0.95 and the comparisons used by `highest`. -/
structure Frac where
  num : Int
  den : Int
deriving DecidableEq, Repr, Inhabited

/-- The zero score. -/
def fzero : Frac := ⟨0, 1⟩

/-- The unit bump (feature `relative-activity` off). -/
def fone : Frac := ⟨1, 1⟩

/-- Score addition. -/
def fadd (a b : Frac) : Frac := ⟨a.num * b.den + b.num * a.den, a.den * b.den⟩

/-- Multiplication by the decay factor 0.95 = 19/20. -/
def fdecay (a : Frac) : Frac := ⟨a.num * 19, a.den * 20⟩

/-- Strict comparison of scores (both denominators positive by
construction). -/
def fltB (a b : Frac) : Bool := decide (a.num * b.den < b.num * a.den)

/-- Larger of two scores. -/
def fmax (a b : Frac) : Frac := if fltB a b then b else a

/-- Strictly ascending insertion into a duplicate-free sorted list. -/
def insNat (v : Nat) : List Nat → List Nat
  | [] => [v]
  | x :: l => if v < x then v :: x :: l else if v = x then x :: l else x :: insNat v l

/-- Canonical strictly ascending list of the members of `l`. -/
def canonList (l : List Nat) : List Nat := l.foldr insNat []

/-- Modelled from the spec (section 4.7, `Activities`, not in src): one
include-side and one discard-side score per vertex, plus a mirror of the
live vertex set (kept as a canonical sorted list). -/
structure Activities where
  inc : List Frac
  dis : List Frac
  live : List Nat
deriving DecidableEq, Repr, Inhabited

namespace Activities

/-- Modelled from the spec: all scores start at zero for every vertex
(capacity `num_nodes_total`); the live mirror starts at the live vertex set
of the instance. -/
def init (inst : Instance) : Activities :=
  ⟨List.replicate inst.num_nodes_total fzero,
   List.replicate inst.num_nodes_total fzero,
   canonList inst.liveNodes⟩

/-- Mirror a vertex deletion. -/
def delete (a : Activities) (v : Nat) : Activities :=
  { a with live := a.live.erase v }

/-- Mirror a vertex restore. -/
def restore (a : Activities) (v : Nat) : Activities :=
  { a with live := insNat v a.live }

/-- Add to the include-side and discard-side scores of `v`. -/
def bump (a : Activities) (v : Nat) (bi bd : Frac) : Activities :=
  { a with inc := updAt a.inc v (fun s => fadd s bi),
           dis := updAt a.dis v (fun s => fadd s bd) }

/-- Multiply all scores by the decay factor. -/
def decay (a : Activities) : Activities :=
  { a with inc := a.inc.map fdecay, dis := a.dis.map fdecay }

/-- Combined ranking of a vertex: the maximum of its two scores. -/
def combined (a : Activities) (v : Nat) : Frac :=
  fmax (a.inc.getD v fzero) (a.dis.getD v fzero)

/-- Live vertex of maximal combined score, ties broken towards the smaller
vertex id. -/
def highest (a : Activities) : Nat :=
  match a.live with
  | [] => 0
  | x :: rest => rest.foldl (fun b v => if fltB (a.combined b) (a.combined v) then v else b) x

end Activities

/-- One recorded deletion of the reducer. -/
inductive RedEvent
  | node (v : Nat)
  | edge (e : Nat)
deriving DecidableEq, Repr

/-- Undo a single recorded deletion. -/
def redRestore1 (ist : Instance) (ev : RedEvent) : Instance :=
  match ev with
  | .node v => ist.restore_node v
  | .edge e => ist.restore_edge e

/-- Modelled from the spec (section 4.5): the reduction record, an ordered
list of deletion events kept most recent first. -/
structure Reduction where
  events : List RedEvent
deriving DecidableEq, Repr, Inhabited

namespace Reduction

/-- The vertex ids removed by the reduction. -/
def nodeList (r : Reduction) : List Nat :=
  r.events.filterMap (fun ev => match ev with | .node v => some v | .edge _ => none)

/-- Replay the recorded events in reverse order of application. -/
def restore (r : Reduction) (inst : Instance) : Instance :=
  r.events.foldl redRestore1 inst

end Reduction

/-- Boolean set inclusion of id lists. -/
def subListB (a b : List Nat) : Bool := a.all (fun x => b.contains x)

/-- Boolean strict set inclusion of id lists. -/
def strictSubListB (a b : List Nat) : Bool := subListB a b && !subListB b a

/-- Modelled from the spec (edge-superset rule of section 4.5): a live edge
whose live vertex set strictly contains that of another live edge, if any. -/
def findSupersetEdge (inst : Instance) : Option Nat :=
  inst.liveEdges.find? (fun e2 => inst.liveEdges.any (fun e1 =>
    e1 != e2 && strictSubListB (inst.edgeNodes e1) (inst.edgeNodes e2)))

/-- Modelled from the spec (vertex-subset rule of section 4.5): a live
vertex whose live incident edge set is contained in that of another live
vertex, if any. -/
def findDominatedNode (inst : Instance) : Option Nat :=
  inst.liveNodes.find? (fun v1 => inst.liveNodes.any (fun v2 =>
    v2 != v1 && subListB (inst.nodeEdges v1) (inst.nodeEdges v2)))

/-- One reduction step: prefer the edge-superset rule, then the
vertex-subset rule. -/
def pruneStep (inst : Instance) : Option (RedEvent × Instance) :=
  match findSupersetEdge inst with
  | some e2 => some (.edge e2, inst.delete_edge e2)
  | none =>
    match findDominatedNode inst with
    | some v1 => some (.node v1, inst.delete_node v1)
    | none => none

/-- Apply reduction steps until none applies (or the fuel runs out). -/
def pruneAux : Nat → Instance → List RedEvent → Instance × Reduction
  | 0, inst, acc => (inst, ⟨acc⟩)
  | fuel + 1, inst, acc =>
    match pruneStep inst with
    | none => (inst, ⟨acc⟩)
    | some (ev, inst2) => pruneAux fuel inst2 (ev :: acc)

/-- Modelled from the spec (section 4.5, `subsuperset::prune`, not in src):
apply the two dominance rules to fixpoint, recording each deletion. -/
def subsuperset_prune (inst : Instance) : Instance × Reduction :=
  pruneAux (inst.num_nodes_total + inst.num_edges_total) inst []

/-- The search state of `solve.rs` (wall-clock statistics are omitted; the
random generator is a stream of pre-drawn booleans, exhausted to false). -/
structure SimState where
  rng : List Bool
  incomplete_hs : List Nat
  discarded : List Nat
  best_known : List Nat
  activities : Activities
  iterations : Nat
deriving DecidableEq, Repr, Inhabited

/-- Draw one boolean from the generator. -/
def genBool (st : SimState) : Bool × SimState :=
  match st.rng with
  | [] => (false, st)
  | b :: r => (b, { st with rng := r })

/-- The result record of `solve.rs` (timings omitted). -/
structure SolveResult where
  hs_size : Nat
  greedy_size : Nat
  iterations : Nat
deriving DecidableEq, Repr, Inhabited

/-- Source `solve::can_prune`: the pruning test of the driver, using the
max-degree covering bound. -/
def can_prune (inst : Instance) (st : SimState) : Bool :=
  decide (st.best_known.length ≤
    st.incomplete_hs.length +
      (inst.num_edges + inst.max_node_degree - 1) / inst.max_node_degree)

/-- The activity update performed on the pruning path of
`solve_recursive` (features `relative-activity` and `disable-activity`
off): bump the include side of the chosen vertices and the discard side of
the discarded ones, then decay. -/
def bumpAndDecay (st : SimState) : SimState :=
  let acts := st.incomplete_hs.foldl (fun a v => a.bump v fone fzero) st.activities
  let acts := st.discarded.foldl (fun a v => a.bump v fzero fone) acts
  { st with activities := acts.decay }

/-- Vertex of maximal degree among the live vertices, with the Rust
`(degree, node)` tuple maximum (ties towards the larger id, the sentinel
when no live vertex has positive degree). -/
def greedyPick (inst : Instance) : Nat :=
  (inst.liveNodes.foldl (fun md v =>
      let c := (inst.node_degree v, v)
      if decide (md.1 < c.1) || (decide (md.1 = c.1) && decide (md.2 ≤ c.2)) then c else md)
    (0, INVALID)).2

/-- The loop of `solve::greedy_approx`: pick a maximal-degree vertex,
delete it and its incident edges, repeat until no edges remain. -/
def greedyAux : Nat → Instance → List Nat → List Nat × Instance
  | 0, ist, hs => (hs, ist)
  | fuel + 1, ist, hs =>
    if ist.liveEdges.isEmpty then (hs, ist)
    else
      let v := greedyPick ist
      greedyAux fuel ((ist.delete_node v).delete_incident_edges v) (hs ++ [v])

/-- Source `solve::greedy_approx`: run the greedy loop, then restore
everything in reverse. -/
def greedy_approx (inst : Instance) : List Nat × Instance :=
  let res := greedyAux (inst.nodes.liveLen + 1) inst []
  (res.1, res.1.reverse.foldl (fun ist v => (ist.restore_incident_edges v).restore_node v) res.2)

/-- Source `solve::branch_on`, parametrised by the recursive call: explore
the discard child and the include child of `node` in an order drawn from
the generator, bracketing deletes and restores exactly. -/
def branch_on (recur : Instance → SimState → Instance × SimState) (node : Nat)
    (inst : Instance) (st : SimState) : Instance × SimState :=
  let g := genBool st
  if g.1 then
    let inst1 := inst.delete_node node
    let st1 := { g.2 with activities := g.2.activities.delete node,
                          discarded := g.2.discarded ++ [node] }
    let r1 := recur inst1 st1
    let st2 := { r1.2 with discarded := r1.2.discarded.dropLast }
    let inst2 := r1.1.delete_incident_edges node
    let st3 := { st2 with incomplete_hs := st2.incomplete_hs ++ [node] }
    let r2 := recur inst2 st3
    let st4 := { r2.2 with incomplete_hs := r2.2.incomplete_hs.dropLast }
    ((r2.1.restore_incident_edges node).restore_node node,
     { st4 with activities := st4.activities.restore node })
  else
    let inst1 := inst.delete_node node
    let st1 := { g.2 with activities := g.2.activities.delete node }
    let inst2 := inst1.delete_incident_edges node
    let st2 := { st1 with incomplete_hs := st1.incomplete_hs ++ [node] }
    let r1 := recur inst2 st2
    let st3 := { r1.2 with incomplete_hs := r1.2.incomplete_hs.dropLast }
    let inst3 := r1.1.restore_incident_edges node
    let st4 := { st3 with discarded := st3.discarded ++ [node] }
    let r2 := recur inst3 st4
    let st5 := { r2.2 with discarded := r2.2.discarded.dropLast }
    (r2.1.restore_node node, { st5 with activities := st5.activities.restore node })

/-- Source `solve::solve_recursive` (fuel-indexed; under the hypotheses of
the theorems below the fuel never runs out).  Base case, iteration count,
reduction, pruning test, forced degree-1 move, branching, unwinding. -/
def solve_recursive : Nat → Instance → SimState → Instance × SimState
  | 0, inst, st => (inst, st)
  | fuel + 1, inst, st =>
    if inst.liveEdges.isEmpty then
      (inst,
        if st.incomplete_hs.length < st.best_known.length then
          { st with best_known := st.incomplete_hs }
        else st)
    else
      let st1 := { st with iterations := st.iterations + 1 }
      let pr := if 1 < st1.iterations then subsuperset_prune inst else (inst, ⟨[]⟩)
      let st2 := { st1 with
        activities := pr.2.nodeList.foldl (fun a v => a.delete v) st1.activities }
      let mid :=
        if can_prune pr.1 st2 then (pr.1, bumpAndDecay st2)
        else
          match pr.1.degree_1_edge with
          | some de =>
            let node := de.2
            let inst2 := (pr.1.delete_node node).delete_incident_edges node
            let stf := { st2 with activities := st2.activities.delete node,
                                  incomplete_hs := st2.incomplete_hs ++ [node] }
            let r := solve_recursive fuel inst2 stf
            ((r.1.restore_incident_edges node).restore_node node,
             { r.2 with incomplete_hs := r.2.incomplete_hs.dropLast,
                        activities := r.2.activities.restore node })
          | none => branch_on (solve_recursive fuel) st2.activities.highest pr.1 st2
      (pr.2.restore mid.1,
       { mid.2 with
         activities := pr.2.nodeList.foldl (fun a v => a.restore v) mid.2.activities })

/-- Source `solve::solve`: initial reduction (whose record is dropped, so
the instance stays reduced), greedy warm start, activity construction, and
the recursive search. -/
def solve (inst : Instance) (rng : List Bool) : Instance × SimState × SolveResult :=
  let pr := subsuperset_prune inst
  let ga := greedy_approx pr.1
  let st : SimState := ⟨rng, [], [], ga.1, Activities.init ga.2, 0⟩
  let res := solve_recursive (ga.2.nodes.liveLen + 1) ga.2 st
  (res.1, res.2, ⟨res.2.best_known.length, ga.1.length, res.2.iterations⟩)

/-- Search-invariant bundle used by the solver theorems: the instance is
well-formed with nonempty live edge contents, the activity tracker mirrors
the live vertex set, the partial solution covers `E0`, and the incumbent
hits `E0`. -/
def SolveHyp (inst : Instance) (st : SimState) (E0 : List (List Nat)) : Prop :=
  inst.Good ∧ inst.LiveNonempty ∧
  st.activities.live = canonList inst.liveNodes ∧
  Covers inst st.incomplete_hs E0 ∧ IsHS st.best_known E0

instance (inst : Instance) (st : SimState) (E0 : List (List Nat)) :
    Decidable (SolveHyp inst st E0) := by
  unfold SolveHyp
  exact inferInstance

/-- Frame-and-progress bundle of one solver call `r`: the instance and the
three stacks return to their entry values, the incumbent still hits `E0`
and never grows. -/
def SolveFrame (inst : Instance) (st : SimState) (E0 : List (List Nat))
    (r : Instance × SimState) : Prop :=
  r.1 = inst ∧ r.2.incomplete_hs = st.incomplete_hs ∧
  r.2.discarded = st.discarded ∧
  r.2.activities.live = st.activities.live ∧
  IsHS r.2.best_known E0 ∧ r.2.best_known.length ≤ st.best_known.length

/-- Concrete triangle input: 3 vertices, the three 2-element edges. -/
def triInput : List (List Token) :=
  [[some 3, some 3], [some 2, some 0, some 1], [some 2, some 1, some 2],
   [some 2, some 0, some 2]]

/-- The loaded triangle instance. -/
def triInst : Instance :=
  match load triInput with
  | .ok i => i
  | .error _ => default

/-- Concrete input separating the two lower bounds: a degree-3 hub vertex 0
in three edges, plus three disjoint singleton edges. -/
def c1Input : List (List Token) :=
  [[some 7, some 6], [some 2, some 0, some 1], [some 2, some 0, some 2],
   [some 2, some 0, some 3], [some 1, some 4], [some 1, some 5], [some 1, some 6]]

/-- The loaded hub-plus-singletons instance. -/
def c1Inst : Instance :=
  match load c1Input with
  | .ok i => i
  | .error _ => default

/-- A search state over `c1Inst` whose best known hitting set has the
optimal size 4. -/
def c1State : SimState := ⟨[], [], [], [0, 4, 5, 6], Activities.init c1Inst, 0⟩

/-! ### Helper lemmas about list updates -/

theorem updAt_oor {α : Type} {l : List α} {k : Nat} (f : α → α) (h : l.length ≤ k) :
    updAt l k f = l := by
  unfold updAt
  rw [List.getElem?_eq_none h]

theorem updAt_lt {α : Type} {l : List α} {k : Nat} (f : α → α) (h : k < l.length) :
    updAt l k f = l.set k (f l[k]) := by
  unfold updAt
  rw [List.getElem?_eq_getElem h]

theorem updAt_length {α : Type} (l : List α) (k : Nat) (f : α → α) :
    (updAt l k f).length = l.length := by
  rcases Nat.lt_or_ge k l.length with h | h
  · rw [updAt_lt f h, List.length_set]
  · rw [updAt_oor f h]

theorem getD_updAt_self {α : Type} {l : List α} {k : Nat} (f : α → α) (d : α)
    (h : k < l.length) : (updAt l k f).getD k d = f (l.getD k d) := by
  rw [updAt_lt f h, List.getD_eq_getElem?_getD, List.getElem?_set_self h,
    List.getD_eq_getElem l d h]
  rfl

theorem getD_updAt_ne {α : Type} {l : List α} {k k' : Nat} (f : α → α) (d : α)
    (h : k ≠ k') : (updAt l k f).getD k' d = l.getD k' d := by
  rcases Nat.lt_or_ge k l.length with hk | hk
  · rw [updAt_lt f hk, List.getD_eq_getElem?_getD, List.getElem?_set_ne h,
      List.getD_eq_getElem?_getD]
  · rw [updAt_oor f hk]

theorem getD_set_self {α : Type} {l : List α} {k : Nat} (a d : α) (h : k < l.length) :
    (l.set k a).getD k d = a := by
  rw [List.getD_eq_getElem?_getD, List.getElem?_set_self h]
  rfl

theorem getD_set_ne {α : Type} {l : List α} {k k' : Nat} (a d : α) (h : k ≠ k') :
    (l.set k a).getD k' d = l.getD k' d := by
  rw [List.getD_eq_getElem?_getD, List.getElem?_set_ne h, List.getD_eq_getElem?_getD]

theorem set_getD_self {α : Type} {l : List α} {k : Nat} {a d : α} (h : k < l.length)
    (heq : l.getD k d = a) : l.set k a = l := by
  apply List.ext_getElem
  · rw [List.length_set]
  · intro n h1 h2
    rw [List.getElem_set]
    split
    · rename_i hkn
      subst hkn
      rw [← heq, List.getD_eq_getElem l d h]
    · rfl

/-! ### Pointwise behaviour of SkipVec updates -/

theorem SkipVec.entries_length_setFlag (sv : SkipVec) (j0 : Nat) (b : Bool) :
    (sv.setFlag j0 b).entries.length = sv.entries.length := by
  unfold SkipVec.setFlag
  exact updAt_length _ _ _

theorem SkipVec.valueAt_setFlag (sv : SkipVec) (j0 : Nat) (b : Bool) (j : Nat) :
    (sv.setFlag j0 b).valueAt j = sv.valueAt j := by
  unfold SkipVec.setFlag SkipVec.valueAt
  rcases eq_or_ne j0 j with rfl | hne
  · rcases Nat.lt_or_ge j0 sv.entries.length with h | h
    · rw [getD_updAt_self _ _ h]
    · rw [updAt_oor _ h]
  · rw [getD_updAt_ne _ _ hne]

theorem SkipVec.flagAt_setFlag (sv : SkipVec) (j0 : Nat) (b : Bool) (j : Nat) :
    (sv.setFlag j0 b).flagAt j =
      if j0 = j ∧ j < sv.entries.length then b else sv.flagAt j := by
  unfold SkipVec.setFlag SkipVec.flagAt
  rcases eq_or_ne j0 j with rfl | hne
  · rcases Nat.lt_or_ge j0 sv.entries.length with h | h
    · rw [getD_updAt_self _ _ h, if_pos ⟨rfl, h⟩]
    · rw [updAt_oor _ h, if_neg (by omega)]
  · rw [getD_updAt_ne _ _ hne, if_neg (by tauto)]

theorem mem_liveSlots {sv : SkipVec} {p : Nat × (Nat × Nat)} :
    p ∈ sv.liveSlots ↔
      p.1 < sv.entries.length ∧ sv.flagAt p.1 = true ∧ sv.valueAt p.1 = p.2 := by
  unfold SkipVec.liveSlots
  rw [List.mem_filterMap]
  constructor
  · rintro ⟨a, ha, hf⟩
    rw [List.mem_iff_getElem] at ha
    obtain ⟨n, hn, rfl⟩ := ha
    have hn2 : n < sv.entries.length := by
      simpa using hn
    have : sv.entries.enum[n] = (n, sv.entries[n]) := by
      have := List.getElem?_enum sv.entries n
      rw [List.getElem?_eq_getElem hn, List.getElem?_eq_getElem hn2] at this
      simpa using this
    rw [this] at hf
    by_cases hflag : sv.entries[n].2 = true
    · simp only [hflag, if_true] at hf
      cases hf
      refine ⟨hn2, ?_, ?_⟩
      · unfold SkipVec.flagAt
        rw [List.getD_eq_getElem _ _ hn2]
        exact hflag
      · unfold SkipVec.valueAt
        rw [List.getD_eq_getElem _ _ hn2]
    · simp only [Bool.not_eq_true] at hflag
      simp [hflag] at hf
  · rintro ⟨hlt, hflag, hval⟩
    refine ⟨(p.1, sv.entries[p.1]), ?_, ?_⟩
    · rw [List.mem_iff_getElem]
      have hn : p.1 < sv.entries.enum.length := by simpa using hlt
      refine ⟨p.1, hn, ?_⟩
      have := List.getElem?_enum sv.entries p.1
      rw [List.getElem?_eq_getElem hn, List.getElem?_eq_getElem hlt] at this
      simpa using this
    · unfold SkipVec.flagAt at hflag
      unfold SkipVec.valueAt at hval
      rw [List.getD_eq_getElem _ _ hlt] at hflag hval
      simp only [hflag, if_true]
      rw [hval]

theorem skipvec_ext {a b : SkipVec} (hlen : a.entries.length = b.entries.length)
    (hval : ∀ j, a.valueAt j = b.valueAt j)
    (hflag : ∀ j, a.flagAt j = b.flagAt j) : a = b := by
  cases a with
  | mk ea =>
    cases b with
    | mk eb =>
      simp only [SkipVec.mk.injEq]
      apply List.ext_getElem hlen
      intro n h1 h2
      have hv := hval n
      have hf := hflag n
      unfold SkipVec.valueAt at hv
      unfold SkipVec.flagAt at hf
      simp only at hv hf
      rw [List.getD_eq_getElem _ _ h1, List.getD_eq_getElem _ _ h2] at hv hf
      exact Prod.ext hv hf

/-! ### Pointwise behaviour of incidence-store folds -/

theorem slotsOf_updAt_setFlag (x : List SkipVec) (a j0 : Nat) (bv : Bool) (e : Nat) :
    slotsOf (updAt x a (fun sv => sv.setFlag j0 bv)) e = slotsOf x e := by
  unfold slotsOf
  rcases eq_or_ne a e with rfl | hne
  · rcases Nat.lt_or_ge a x.length with h | h
    · rw [getD_updAt_self _ _ h, SkipVec.entries_length_setFlag]
    · rw [updAt_oor _ h]
  · rw [getD_updAt_ne _ _ hne]

theorem valOf_updAt_setFlag (x : List SkipVec) (a j0 : Nat) (bv : Bool) (e j : Nat) :
    valOf (updAt x a (fun sv => sv.setFlag j0 bv)) e j = valOf x e j := by
  unfold valOf
  rcases eq_or_ne a e with rfl | hne
  · rcases Nat.lt_or_ge a x.length with h | h
    · rw [getD_updAt_self _ _ h, SkipVec.valueAt_setFlag]
    · rw [updAt_oor _ h]
  · rw [getD_updAt_ne _ _ hne]

theorem flagOf_updAt_setFlag (x : List SkipVec) (a j0 : Nat) (bv : Bool) (e j : Nat) :
    flagOf (updAt x a (fun sv => sv.setFlag j0 bv)) e j =
      if a = e ∧ j0 = j ∧ j < slotsOf x e then bv else flagOf x e j := by
  unfold flagOf slotsOf
  rcases eq_or_ne a e with rfl | hne
  · rcases Nat.lt_or_ge a x.length with h | h
    · rw [getD_updAt_self _ _ h, SkipVec.flagAt_setFlag]
      by_cases hc : j0 = j ∧ j < (x.getD a ⟨[]⟩).entries.length
      · rw [if_pos hc, if_pos ⟨rfl, hc⟩]
      · rw [if_neg hc, if_neg (by tauto)]
    · rw [updAt_oor _ h, if_neg ?_]
      rintro ⟨-, -, hj⟩
      rw [List.getD_eq_default _ _ h] at hj
      simp at hj
  · rw [getD_updAt_ne _ _ hne, if_neg (by tauto)]

theorem length_setFold (eis : List SkipVec) (S : List (Nat × (Nat × Nat))) (b : Bool) :
    (setFold eis S b).length = eis.length := by
  induction S generalizing eis with
  | nil => rfl
  | cons q S ih =>
    unfold setFold at ih ⊢
    rw [List.foldl_cons, ih, updAt_length]

theorem slotsOf_setFold (eis : List SkipVec) (S : List (Nat × (Nat × Nat))) (b : Bool)
    (e : Nat) : slotsOf (setFold eis S b) e = slotsOf eis e := by
  induction S generalizing eis with
  | nil => rfl
  | cons q S ih =>
    unfold setFold at ih ⊢
    rw [List.foldl_cons, ih, slotsOf_updAt_setFlag]

theorem valOf_setFold (eis : List SkipVec) (S : List (Nat × (Nat × Nat))) (b : Bool)
    (e j : Nat) : valOf (setFold eis S b) e j = valOf eis e j := by
  induction S generalizing eis with
  | nil => rfl
  | cons q S ih =>
    unfold setFold at ih ⊢
    rw [List.foldl_cons, ih, valOf_updAt_setFlag]

theorem flagOf_setFold (eis : List SkipVec) (S : List (Nat × (Nat × Nat))) (b : Bool)
    (e j : Nat) :
    flagOf (setFold eis S b) e j =
      if (∃ p ∈ S, p.2 = (e, j)) ∧ j < slotsOf eis e then b else flagOf eis e j := by
  induction S generalizing eis with
  | nil => simp [setFold]
  | cons q S ih =>
    unfold setFold at ih ⊢
    rw [List.foldl_cons, ih, slotsOf_updAt_setFlag, flagOf_updAt_setFlag]
    have hC : (∃ p ∈ q :: S, p.2 = (e, j)) ↔ q.2 = (e, j) ∨ ∃ p ∈ S, p.2 = (e, j) := by
      constructor
      · rintro ⟨p, hp, hpe⟩
        rcases List.mem_cons.mp hp with rfl | hmem
        · exact Or.inl hpe
        · exact Or.inr ⟨p, hmem, hpe⟩
      · rintro (hq | ⟨p, hp, hpe⟩)
        · exact ⟨q, List.mem_cons_self q S, hq⟩
        · exact ⟨p, List.mem_cons_of_mem q hp, hpe⟩
    by_cases hj : j < slotsOf eis e
    · by_cases hS : ∃ p ∈ S, p.2 = (e, j)
      · rw [if_pos ⟨hS, hj⟩, if_pos ⟨hC.mpr (Or.inr hS), hj⟩]
      · rw [if_neg (fun h => hS h.1)]
        by_cases hq : q.2 = (e, j)
        · have hq1 : q.2.1 = e := by rw [hq]
          have hq2 : q.2.2 = j := by rw [hq]
          rw [if_pos ⟨hq1, hq2, hj⟩, if_pos ⟨hC.mpr (Or.inl hq), hj⟩]
        · have hq2 : ¬ (q.2.1 = e ∧ q.2.2 = j ∧ j < slotsOf eis e) := by
            rintro ⟨h1, h2, _⟩
            exact hq (Prod.ext h1 h2)
          have hc2 : ¬ ((∃ p ∈ q :: S, p.2 = (e, j)) ∧ j < slotsOf eis e) := by
            rintro ⟨hex, _⟩
            rcases hC.mp hex with h | h
            · exact hq h
            · exact hS h
          rw [if_neg hq2, if_neg hc2]
    · rw [if_neg (fun h => hj h.2), if_neg (fun h => hj h.2.2),
        if_neg (fun h => hj h.2)]

theorem store_ext {x y : List SkipVec} (hlen : x.length = y.length)
    (hval : ∀ e j, valOf x e j = valOf y e j)
    (hflag : ∀ e j, flagOf x e j = flagOf y e j)
    (hslots : ∀ e, slotsOf x e = slotsOf y e) : x = y := by
  apply List.ext_getElem hlen
  intro e h1 h2
  have hx : x.getD e ⟨[]⟩ = x[e] := List.getD_eq_getElem _ _ h1
  have hy : y.getD e ⟨[]⟩ = y[e] := List.getD_eq_getElem _ _ h2
  apply skipvec_ext
  · have := hslots e
    unfold slotsOf at this
    rw [hx, hy] at this
    exact this
  · intro j
    have := hval e j
    unfold valOf at this
    rw [hx, hy] at this
    exact this
  · intro j
    have := hflag e j
    unfold flagOf at this
    rw [hx, hy] at this
    exact this

/-! ### The reversible index vector -/

namespace Civ

theorem liveList_length {c : Civ} (hv : c.Valid) : c.liveList.length = c.liveLen := by
  unfold liveList
  rw [List.length_take]
  exact Nat.min_eq_left hv.1

theorem mem_liveList_char {c : Civ} {x : Nat} (hv : c.Valid) :
    x ∈ c.liveList ↔ ∃ k, k < c.liveLen ∧ c.data.getD k 0 = x := by
  unfold liveList
  rw [List.mem_take_iff_getElem]
  constructor
  · rintro ⟨m, hm, rfl⟩
    have hm2 : m < c.liveLen := lt_of_lt_of_le hm (min_le_left _ _)
    have hm3 : m < c.data.length := lt_of_lt_of_le hm (min_le_right _ _)
    exact ⟨m, hm2, by rw [List.getD_eq_getElem _ _ hm3]⟩
  · rintro ⟨k, hk, hdk⟩
    have hk2 : k < c.data.length := lt_of_lt_of_le hk hv.1
    refine ⟨k, lt_min hk hk2, ?_⟩
    rw [← List.getD_eq_getElem c.data 0 hk2]
    exact hdk

theorem valid_init (n : Nat) : (init n).Valid := by
  refine ⟨by simp [init], by simp [init], ?_⟩
  intro k hk
  simp only [init] at hk ⊢
  have hk2 : k < (List.range n).length := by simpa using hk
  rw [List.getD_eq_getElem _ _ hk2, List.getElem_range,
    List.getD_eq_getElem _ _ hk2, List.getElem_range]
  exact ⟨by simpa using hk, rfl⟩

theorem liveList_init (n : Nat) : (init n).liveList = List.range n := by
  unfold liveList init
  simp [List.take_range]

theorem pos_index {c : Civ} (hv : c.Valid) {i : Nat} (hi : i ∈ c.liveList) :
    ∃ k, k < c.liveLen ∧ c.data.getD k 0 = i ∧ c.pos.getD i 0 = k := by
  obtain ⟨k, hk, hdk⟩ := (mem_liveList_char hv).mp hi
  refine ⟨k, hk, hdk, ?_⟩
  have h2 := (hv.2.2 k hk).2
  rw [hdk] at h2
  exact h2

theorem live_index_inj {c : Civ} (hv : c.Valid) {k m : Nat} (hk : k < c.liveLen)
    (hm : m < c.liveLen) (heq : c.data.getD k 0 = c.data.getD m 0) : k = m := by
  have h1 := (hv.2.2 k hk).2
  have h2 := (hv.2.2 m hm).2
  rw [heq] at h1
  exact h1.symm.trans h2

theorem liveList_nodup {c : Civ} (hv : c.Valid) : c.liveList.Nodup := by
  rw [List.nodup_iff_getElem?_ne_getElem?]
  intro a b hab hb heq
  have hlen : c.liveList.length = c.liveLen := liveList_length hv
  have hb2 : b < c.liveLen := hlen ▸ hb
  have ha2 : a < c.liveLen := lt_trans hab hb2
  have hbd : b < c.data.length := lt_of_lt_of_le hb2 hv.1
  have had : a < c.data.length := lt_of_lt_of_le ha2 hv.1
  have ha3 : a < c.liveList.length := lt_trans hab hb
  rw [List.getElem?_eq_getElem hb, List.getElem?_eq_getElem ha3] at heq
  have heq2 : c.data.getD a 0 = c.data.getD b 0 := by
    rw [List.getD_eq_getElem _ _ had, List.getD_eq_getElem _ _ hbd]
    have h1 : c.liveList[a] = c.data[a] := List.getElem_take c.data
    have h2 : c.liveList[b] = c.data[b] := List.getElem_take c.data
    rw [← h1, ← h2]
    exact Option.some.inj heq
  have := live_index_inj hv ha2 hb2 heq2
  omega

theorem delete_liveLen (c : Civ) (i : Nat) : (c.delete i).liveLen = c.liveLen - 1 := rfl

theorem delete_data_length (c : Civ) (i : Nat) :
    (c.delete i).data.length = c.data.length := by
  simp [delete, List.length_set]

theorem delete_pos_length (c : Civ) (i : Nat) :
    (c.delete i).pos.length = c.pos.length := by
  simp [delete, List.length_set]

theorem restore_delete {c : Civ} {i : Nat} (hv : c.Valid) (hi : i ∈ c.liveList) :
    (c.delete i).restore i = c := by
  obtain ⟨k, hk, hdk, hpk⟩ := pos_index hv hi
  obtain ⟨hlen, hplen, hinv⟩ := hv
  set jj := c.data.getD (c.liveLen - 1) 0 with hjj
  have hn1 : 0 < c.liveLen := by omega
  have hlast : c.liveLen - 1 < c.liveLen := by omega
  have hlastd : c.liveLen - 1 < c.data.length := by omega
  have hkd : k < c.data.length := by omega
  have hjlt : jj < c.data.length := (hinv _ hlast).1
  have hpj : c.pos.getD jj 0 = c.liveLen - 1 := (hinv _ hlast).2
  have hilt : i < c.data.length := by
    have := (hinv k hk).1
    rwa [hdk] at this
  have hip : i < c.pos.length := by omega
  have hjp : jj < c.pos.length := by omega
  have hdel : c.delete i = ⟨(c.data.set k jj).set (c.liveLen - 1) i,
      (c.pos.set jj k).set i k, c.liveLen - 1⟩ := by
    simp only [delete]
    rw [hpk, ← hjj]
  rw [hdel]
  simp only [restore]
  have hp2 : ((c.pos.set jj k).set i k).getD i 0 = k :=
    getD_set_self k 0 (by rw [List.length_set]; exact hip)
  rw [hp2]
  have hj2 : ((c.data.set k jj).set (c.liveLen - 1) i).getD k 0 = jj := by
    rcases eq_or_ne k (c.liveLen - 1) with hkl | hkl
    · have hji : jj = i := by rw [hjj, ← hkl, hdk]
      rw [← hkl, List.set_set, getD_set_self i 0 hkd]
      exact hji.symm
    · rw [getD_set_ne _ _ (Ne.symm hkl), getD_set_self jj 0 hkd]
  rw [hj2]
  have hdata : ((((c.data.set k jj).set (c.liveLen - 1) i).set k i).set
      (c.liveLen - 1) jj) = c.data := by
    rcases eq_or_ne k (c.liveLen - 1) with hkl | hkl
    · have hji : jj = i := by rw [hjj, ← hkl, hdk]
      rw [← hkl, List.set_set, List.set_set, List.set_set, hji,
        set_getD_self hkd hdk]
    · rw [List.set_comm i i _ (Ne.symm hkl), List.set_set, List.set_set,
        set_getD_self hkd hdk, set_getD_self hlastd hjj.symm]
  have hpos : (((c.pos.set jj k).set i k).set i k).set jj (c.liveLen - 1) = c.pos := by
    rcases eq_or_ne i jj with hij | hij
    · have hkl : k = c.liveLen - 1 := by
        rw [← hpk, hij, hpj]
      rw [← hij, List.set_set, List.set_set, List.set_set, ← hkl,
        set_getD_self hip hpk]
    · rw [List.set_set, List.set_comm k (c.liveLen - 1) _ hij, List.set_set,
        set_getD_self hjp hpj, set_getD_self hip hpk]
  rw [hdata, hpos]
  have hlen2 : c.liveLen - 1 + 1 = c.liveLen := by omega
  rw [hlen2]

theorem valid_delete {c : Civ} {i : Nat} (hv : c.Valid) (hi : i ∈ c.liveList) :
    (c.delete i).Valid := by
  obtain ⟨k, hk, hdk, hpk⟩ := pos_index hv hi
  obtain ⟨hlen, hplen, hinv⟩ := hv
  set jj := c.data.getD (c.liveLen - 1) 0 with hjj
  have hlast : c.liveLen - 1 < c.liveLen := by omega
  have hlastd : c.liveLen - 1 < c.data.length := by omega
  have hkd : k < c.data.length := by omega
  have hjlt : jj < c.data.length := (hinv _ hlast).1
  have hpj : c.pos.getD jj 0 = c.liveLen - 1 := (hinv _ hlast).2
  have hilt : i < c.data.length := by
    have := (hinv k hk).1
    rwa [hdk] at this
  have hdel : c.delete i = ⟨(c.data.set k jj).set (c.liveLen - 1) i,
      (c.pos.set jj k).set i k, c.liveLen - 1⟩ := by
    simp only [delete]
    rw [hpk, ← hjj]
  rw [hdel]
  refine ⟨by simp only [List.length_set]; omega, by simp only [List.length_set]; omega, ?_⟩
  intro m hm
  replace hm : m < c.liveLen - 1 := hm
  have hmk : m < c.liveLen := by omega
  have hmd : m < c.data.length := by omega
  have hmne : m ≠ c.liveLen - 1 := by omega
  show ((c.data.set k jj).set (c.liveLen - 1) i).getD m 0 <
      ((c.data.set k jj).set (c.liveLen - 1) i).length ∧
    ((c.pos.set jj k).set i k).getD
      (((c.data.set k jj).set (c.liveLen - 1) i).getD m 0) 0 = m
  simp only [List.length_set]
  rcases eq_or_ne m k with hmEq | hmk2
  · have hgd : ((c.data.set k jj).set (c.liveLen - 1) i).getD m 0 = jj := by
      rw [← hmEq, getD_set_ne _ _ (Ne.symm hmne), getD_set_self jj 0 hmd]
    rw [hgd]
    have hji : jj ≠ i := by
      intro h
      have h2 : c.liveLen - 1 = k := by rw [← hpj, h, hpk]
      omega
    refine ⟨hjlt, ?_⟩
    rw [getD_set_ne _ _ (Ne.symm hji), getD_set_self k 0 (by omega), hmEq]
  · have hgd : ((c.data.set k jj).set (c.liveLen - 1) i).getD m 0 = c.data.getD m 0 := by
      rw [getD_set_ne _ _ (Ne.symm hmne), getD_set_ne _ _ (Ne.symm hmk2)]
    rw [hgd]
    have hmlt := (hinv m hmk).1
    have hmpos := (hinv m hmk).2
    have hui : c.data.getD m 0 ≠ i := by
      intro h
      rw [← hdk] at h
      exact hmk2 (live_index_inj ⟨hlen, hplen, hinv⟩ hmk hk h)
    have huj : c.data.getD m 0 ≠ jj := by
      intro h
      have h2 := hpj
      rw [← h] at h2
      rw [hmpos] at h2
      omega
    refine ⟨hmlt, ?_⟩
    rw [getD_set_ne _ _ (Ne.symm hui), getD_set_ne _ _ (Ne.symm huj)]
    exact hmpos

theorem mem_liveList_delete {c : Civ} {i : Nat} (hv : c.Valid) (hi : i ∈ c.liveList)
    (x : Nat) : x ∈ (c.delete i).liveList ↔ x ∈ c.liveList ∧ x ≠ i := by
  obtain ⟨k, hk, hdk, hpk⟩ := pos_index hv hi
  obtain ⟨hlen, hplen, hinv⟩ := hv
  set jj := c.data.getD (c.liveLen - 1) 0 with hjj
  have hlast : c.liveLen - 1 < c.liveLen := by omega
  have hji : k ≠ c.liveLen - 1 → jj ≠ i := by
    intro hkl h
    have h2 : c.liveLen - 1 = k := by rw [← (hinv _ hlast).2, ← hjj, h, hpk]
    omega
  have hdel : c.delete i = ⟨(c.data.set k jj).set (c.liveLen - 1) i,
      (c.pos.set jj k).set i k, c.liveLen - 1⟩ := by
    simp only [delete]
    rw [hpk, ← hjj]
  rw [mem_liveList_char (valid_delete ⟨hlen, hplen, hinv⟩ hi),
    mem_liveList_char ⟨hlen, hplen, hinv⟩, hdel]
  simp only
  constructor
  · rintro ⟨m, hm, hx⟩
    have hmlt : m < c.liveLen := by omega
    have hmd : m < c.data.length := by omega
    have hmne : m ≠ c.liveLen - 1 := by omega
    rcases eq_or_ne m k with rfl | hmk
    · rw [getD_set_ne _ _ (Ne.symm hmne), getD_set_self jj 0 hmd] at hx
      subst hx
      exact ⟨⟨c.liveLen - 1, hlast, hjj.symm⟩, hji (by omega)⟩
    · rw [getD_set_ne _ _ (Ne.symm hmne), getD_set_ne _ _ (Ne.symm hmk)] at hx
      refine ⟨⟨m, hmlt, hx⟩, ?_⟩
      intro h
      rw [h, ← hdk] at hx
      exact hmk (live_index_inj ⟨hlen, hplen, hinv⟩ hmlt hk hx)
  · rintro ⟨⟨m, hm, hx⟩, hxi⟩
    have hmd : m < c.data.length := by omega
    have hmk : m ≠ k := by
      intro h
      rw [h, hdk] at hx
      exact hxi hx.symm
    rcases eq_or_ne m (c.liveLen - 1) with rfl | hmne
    · have hkne : k ≠ c.liveLen - 1 := fun h => hmk h.symm
      have hklt : k < c.liveLen - 1 := by omega
      refine ⟨k, hklt, ?_⟩
      rw [getD_set_ne _ _ (Ne.symm hkne), getD_set_self jj 0 (by omega), ← hx, hjj]
    · refine ⟨m, by omega, ?_⟩
      rw [getD_set_ne _ _ (Ne.symm hmne), getD_set_ne _ _ (Ne.symm hmk)]
      exact hx

end Civ

/-! ### Instance operations, pointwise -/

namespace Instance

theorem delete_node_eq (inst : Instance) (v : Nat) :
    inst.delete_node v = Instance.mk (inst.nodes.delete v) inst.edges
      inst.node_incidences (setFold inst.edge_incidences (inst.ni v).liveSlots false) := rfl

theorem restore_node_eq (inst : Instance) (v : Nat) :
    inst.restore_node v = Instance.mk (inst.nodes.restore v) inst.edges
      inst.node_incidences (setFold inst.edge_incidences (inst.ni v).liveSlots true) := rfl

theorem delete_edge_transpose (inst : Instance) (e : Nat) :
    inst.delete_edge e = (inst.transpose.delete_node e).transpose := rfl

theorem restore_edge_transpose (inst : Instance) (e : Nat) :
    inst.restore_edge e = (inst.transpose.restore_node e).transpose := rfl

theorem transpose_transpose (inst : Instance) : inst.transpose.transpose = inst := rfl

theorem Good.transpose {inst : Instance} (h : inst.Good) : inst.transpose.Good :=
  ⟨h.2.1, h.1, ⟨h.2.2.1.2, h.2.2.1.1⟩, ⟨h.2.2.2.1.2, h.2.2.2.1.1⟩,
    ⟨h.2.2.2.2.1.2, h.2.2.2.2.1.1⟩, ⟨h.2.2.2.2.2.2, h.2.2.2.2.2.1⟩⟩

theorem mem_liveNodes_lt {inst : Instance} (hG : inst.Good) {v : Nat}
    (hv : v ∈ inst.liveNodes) : v < inst.num_nodes_total := by
  obtain ⟨k, hk, hdk⟩ := (Civ.mem_liveList_char hG.1).mp hv
  have := (hG.1.2.2 k hk).1
  rw [hdk] at this
  rw [← hG.2.2.1.1]
  exact this

theorem mem_liveEdges_lt {inst : Instance} (hG : inst.Good) {e : Nat}
    (he : e ∈ inst.liveEdges) : e < inst.num_edges_total :=
  mem_liveNodes_lt (Good.transpose hG) he

/-- Every live slot of the retained incidence list of a live vertex has a
live cross-side slot (invariant K2 in pointwise form). -/
theorem liveSlots_flag_true {inst : Instance} (hG : inst.Good) {v : Nat}
    (hv : v ∈ inst.liveNodes) :
    ∀ p ∈ (inst.ni v).liveSlots, flagOf inst.edge_incidences p.2.1 p.2.2 = true := by
  intro p hp
  rw [mem_liveSlots] at hp
  have hK := hG.2.2.2.2.1.2 v hv p.1 hp.1 hp.2.1
  have hval : valOf inst.node_incidences v p.1 = p.2 := hp.2.2
  rw [hval] at hK
  exact hK.2

/-- Double fold: clearing then re-setting the same set of originally set
flags is the identity. -/
theorem setFold_restore_delete {eis : List SkipVec} {S : List (Nat × (Nat × Nat))}
    (hflag : ∀ p ∈ S, flagOf eis p.2.1 p.2.2 = true) :
    setFold (setFold eis S false) S true = eis := by
  apply store_ext
  · rw [length_setFold, length_setFold]
  · intro e j
    rw [valOf_setFold, valOf_setFold]
  · intro e j
    rw [flagOf_setFold, flagOf_setFold, slotsOf_setFold]
    by_cases h : (∃ p ∈ S, p.2 = (e, j)) ∧ j < slotsOf eis e
    · rw [if_pos h]
      obtain ⟨⟨p, hp, hpe⟩, hj⟩ := h
      have h2 := hflag p hp
      rw [hpe] at h2
      exact h2.symm
    · rw [if_neg h, if_neg h]
  · intro e
    rw [slotsOf_setFold, slotsOf_setFold]

/-- Values of an incidence store are untouched by a flag fold. -/
theorem map_fst_setFold (eis : List SkipVec) (S : List (Nat × (Nat × Nat))) (b : Bool)
    (e : Nat) :
    ((setFold eis S b).getD e ⟨[]⟩).entries.map (fun en => en.1.1) =
      (eis.getD e ⟨[]⟩).entries.map (fun en => en.1.1) := by
  apply List.ext_getElem
  · simp only [List.length_map]
    exact slotsOf_setFold eis S b e
  · intro n h1 h2
    simp only [List.getElem_map]
    have hn1 : n < ((setFold eis S b).getD e ⟨[]⟩).entries.length := by
      simpa using h1
    have hn2 : n < (eis.getD e ⟨[]⟩).entries.length := by
      simpa using h2
    have hval := valOf_setFold eis S b e n
    unfold valOf SkipVec.valueAt at hval
    rw [List.getD_eq_getElem _ _ hn1, List.getD_eq_getElem _ _ hn2] at hval
    rw [hval]

/-- Pair lemma for vertices: restoring an immediately deleted live vertex is
the identity. -/
theorem restore_delete_node {inst : Instance} {v : Nat} (hG : inst.Good)
    (hv : v ∈ inst.liveNodes) : (inst.delete_node v).restore_node v = inst := by
  have e1 : (inst.delete_node v).restore_node v = Instance.mk
      ((inst.nodes.delete v).restore v) inst.edges inst.node_incidences
      (setFold (setFold inst.edge_incidences (inst.ni v).liveSlots false)
        (inst.ni v).liveSlots true) := rfl
  rw [e1, setFold_restore_delete (liveSlots_flag_true hG hv),
    Civ.restore_delete hG.1 hv]

/-- Pair lemma for edges, by transposition. -/
theorem restore_delete_edge {inst : Instance} {e : Nat} (hG : inst.Good)
    (he : e ∈ inst.liveEdges) : (inst.delete_edge e).restore_edge e = inst := by
  rw [delete_edge_transpose, restore_edge_transpose, transpose_transpose,
    restore_delete_node (Good.transpose hG) he, transpose_transpose]

theorem liveNodes_delete_node {inst : Instance} {v : Nat} (hG : inst.Good)
    (hv : v ∈ inst.liveNodes) (x : Nat) :
    x ∈ (inst.delete_node v).liveNodes ↔ x ∈ inst.liveNodes ∧ x ≠ v :=
  Civ.mem_liveList_delete hG.1 hv x

theorem liveEdges_delete_node (inst : Instance) (v : Nat) :
    (inst.delete_node v).liveEdges = inst.liveEdges := rfl

theorem liveNodes_delete_edge (inst : Instance) (e : Nat) :
    (inst.delete_edge e).liveNodes = inst.liveNodes := rfl

theorem liveEdges_delete_edge {inst : Instance} {e : Nat} (hG : inst.Good)
    (he : e ∈ inst.liveEdges) (x : Nat) :
    x ∈ (inst.delete_edge e).liveEdges ↔ x ∈ inst.liveEdges ∧ x ≠ e :=
  Civ.mem_liveList_delete hG.2.1 he x

/-- The membership condition of the cross-side fold of `delete_node v`
holds exactly at the slots whose value points back to a live slot of the
list of `v`. -/
theorem hit_char {inst : Instance} (hG : inst.Good) {v : Nat}
    (hv : v ∈ inst.liveNodes) {e j : Nat} :
    (∃ p ∈ (inst.ni v).liveSlots, p.2 = (e, j)) ↔
      e < inst.num_edges_total ∧ j < slotsOf inst.edge_incidences e ∧
        (valOf inst.edge_incidences e j).1 = v ∧
        flagOf inst.node_incidences v (valOf inst.edge_incidences e j).2 = true := by
  have hvlt : v < inst.num_nodes_total := mem_liveNodes_lt hG hv
  constructor
  · rintro ⟨p, hp, hpe⟩
    rw [mem_liveSlots] at hp
    obtain ⟨hp1, hp2, hp3⟩ := hp
    have hL := hG.2.2.2.1.1 v hvlt p.1 hp1
    have hval : valOf inst.node_incidences v p.1 = p.2 := hp3
    rw [hval, hpe] at hL
    refine ⟨hL.1, hL.2.1, ?_, ?_⟩
    · rw [hL.2.2]
    · rw [hL.2.2]
      exact hp2
  · rintro ⟨he, hj, hval1, hflag⟩
    have hL := hG.2.2.2.1.2 e he j hj
    refine ⟨((valOf inst.edge_incidences e j).2, (e, j)), ?_, rfl⟩
    rw [mem_liveSlots]
    rw [hval1] at hL
    exact ⟨hL.2.1, hflag, hL.2.2⟩

/-- Deleting a live vertex preserves the well-formedness invariant. -/
theorem Good.delete_node {inst : Instance} (hG : inst.Good) {v : Nat}
    (hv : v ∈ inst.liveNodes) : (inst.delete_node v).Good := by
  have hvlt : v < inst.num_nodes_total := mem_liveNodes_lt hG hv
  rw [delete_node_eq]
  refine ⟨Civ.valid_delete hG.1 hv, hG.2.1, ⟨?_, ?_⟩, ⟨?_, ?_⟩, ⟨?_, ?_⟩, ⟨?_, ?_⟩⟩
  · show (inst.nodes.delete v).data.length = inst.node_incidences.length
    rw [Civ.delete_data_length]
    exact hG.2.2.1.1
  · show inst.edges.data.length =
      (setFold inst.edge_incidences (inst.ni v).liveSlots false).length
    rw [length_setFold]
    exact hG.2.2.1.2
  · intro v2 hv2 i hi
    have hv2b : v2 < inst.num_nodes_total := hv2
    have hib : i < slotsOf inst.node_incidences v2 := hi
    have h := hG.2.2.2.1.1 v2 hv2b i hib
    show (valOf inst.node_incidences v2 i).1 <
        (setFold inst.edge_incidences (inst.ni v).liveSlots false).length ∧
      (valOf inst.node_incidences v2 i).2 <
        slotsOf (setFold inst.edge_incidences (inst.ni v).liveSlots false)
          (valOf inst.node_incidences v2 i).1 ∧
      valOf (setFold inst.edge_incidences (inst.ni v).liveSlots false)
        (valOf inst.node_incidences v2 i).1 (valOf inst.node_incidences v2 i).2 = (v2, i)
    rw [length_setFold, slotsOf_setFold, valOf_setFold]
    exact h
  · intro e he j hj
    have heb : e < inst.num_edges_total := by
      have h2 : e < (setFold inst.edge_incidences (inst.ni v).liveSlots false).length := he
      rw [length_setFold] at h2
      exact h2
    have hjb : j < slotsOf inst.edge_incidences e := by
      have h2 : j < slotsOf (setFold inst.edge_incidences
          (inst.ni v).liveSlots false) e := hj
      rw [slotsOf_setFold] at h2
      exact h2
    have h := hG.2.2.2.1.2 e heb j hjb
    show (valOf (setFold inst.edge_incidences (inst.ni v).liveSlots false) e j).1 <
        inst.node_incidences.length ∧
      (valOf (setFold inst.edge_incidences (inst.ni v).liveSlots false) e j).2 <
        slotsOf inst.node_incidences
          (valOf (setFold inst.edge_incidences (inst.ni v).liveSlots false) e j).1 ∧
      valOf inst.node_incidences
        (valOf (setFold inst.edge_incidences (inst.ni v).liveSlots false) e j).1
        (valOf (setFold inst.edge_incidences (inst.ni v).liveSlots false) e j).2 = (e, j)
    rw [valOf_setFold]
    exact h
  · intro e he j hj hflag
    have he2 : e ∈ inst.liveEdges := he
    have hj2 : j < slotsOf inst.edge_incidences e := by
      have h2 : j < slotsOf (setFold inst.edge_incidences
          (inst.ni v).liveSlots false) e := hj
      rw [slotsOf_setFold] at h2
      exact h2
    have hflag2 : flagOf (setFold inst.edge_incidences (inst.ni v).liveSlots false)
        e j = true := hflag
    rw [flagOf_setFold] at hflag2
    by_cases hcon : ∃ p ∈ (inst.ni v).liveSlots, p.2 = (e, j)
    · rw [if_pos ⟨hcon, hj2⟩] at hflag2
      cases hflag2
    · rw [if_neg (fun h2 => hcon h2.1)] at hflag2
      have hold := hG.2.2.2.2.1.1 e he2 j hj2 hflag2
      constructor
      · show (valOf (setFold inst.edge_incidences (inst.ni v).liveSlots false) e j).1 ∈
          (inst.nodes.delete v).liveList
        rw [valOf_setFold]
        rw [Civ.mem_liveList_delete hG.1 hv]
        refine ⟨hold.1, ?_⟩
        intro hveq
        apply hcon
        refine (hit_char hG hv).mpr ⟨mem_liveEdges_lt hG he2, hj2, hveq, ?_⟩
        rw [← hveq]
        exact hold.2
      · show flagOf inst.node_incidences
          (valOf (setFold inst.edge_incidences (inst.ni v).liveSlots false) e j).1
          (valOf (setFold inst.edge_incidences (inst.ni v).liveSlots false) e j).2 = true
        rw [valOf_setFold]
        exact hold.2
  · intro v2 hv2 i hi hflag
    have hv2b : v2 ∈ inst.liveNodes ∧ v2 ≠ v :=
      (Civ.mem_liveList_delete hG.1 hv v2).mp hv2
    have hi2 : i < slotsOf inst.node_incidences v2 := hi
    have hflag2 : flagOf inst.node_incidences v2 i = true := hflag
    have hold := hG.2.2.2.2.1.2 v2 hv2b.1 i hi2 hflag2
    refine ⟨hold.1, ?_⟩
    show flagOf (setFold inst.edge_incidences (inst.ni v).liveSlots false)
      (valOf inst.node_incidences v2 i).1 (valOf inst.node_incidences v2 i).2 = true
    rw [flagOf_setFold]
    have hL := hG.2.2.2.1.1 v2 (mem_liveNodes_lt hG hv2b.1) i hi2
    have hnohit : ¬ ∃ p ∈ (inst.ni v).liveSlots,
        p.2 = ((valOf inst.node_incidences v2 i).1,
          (valOf inst.node_incidences v2 i).2) := by
      intro hcon
      have hc := (hit_char hG hv).mp hcon
      rw [hL.2.2] at hc
      exact hv2b.2 hc.2.2.1
    rw [if_neg (fun h2 => hnohit h2.1)]
    exact hold.2
  · intro v2 hv2
    exact hG.2.2.2.2.2.1 v2 hv2
  · intro e he
    have heb : e < inst.num_edges_total := by
      have h2 : e < (setFold inst.edge_incidences (inst.ni v).liveSlots false).length := he
      rw [length_setFold] at h2
      exact h2
    have h := hG.2.2.2.2.2.2 e heb
    show (((setFold inst.edge_incidences (inst.ni v).liveSlots false).getD e
      ⟨[]⟩).entries.map (fun en => en.1.1)).Nodup
    rw [map_fst_setFold]
    exact h

/-- Deleting a live edge preserves the well-formedness invariant. -/
theorem Good.delete_edge {inst : Instance} (hG : inst.Good) {e : Nat}
    (he : e ∈ inst.liveEdges) : (inst.delete_edge e).Good := by
  rw [delete_edge_transpose]
  exact Good.transpose (Good.delete_node (Good.transpose hG) he)

theorem liveSlots_nodup (sv : SkipVec) : sv.liveSlots.Nodup := by
  unfold SkipVec.liveSlots
  apply List.Nodup.filterMap
  · intro a a' b hb hb'
    by_cases ha : a.2.2 = true
    · simp only [ha, if_true, Option.mem_def, Option.some.injEq] at hb
      by_cases ha' : a'.2.2 = true
      · simp only [ha', if_true, Option.mem_def, Option.some.injEq] at hb'
        have h1 : a = (a.1, (a.2.1, a.2.2)) := rfl
        have h2 : a' = (a'.1, (a'.2.1, a'.2.2)) := rfl
        rw [h1, h2, ha, ha']
        have hc := hb.trans hb'.symm
        rw [Prod.ext_iff] at hc
        exact Prod.ext hc.1 (Prod.ext hc.2 rfl)
      · simp only [Bool.not_eq_true] at ha'
        simp [ha'] at hb'
    · simp only [Bool.not_eq_true] at ha
      simp [ha] at hb
  · exact (List.enum_map_fst sv.entries ▸ List.nodup_range sv.entries.length).of_map _

/-- Membership characterisation of the vertex list of an edge. -/
theorem mem_edgeNodes {inst : Instance} {e x : Nat} :
    x ∈ inst.edgeNodes e ↔ ∃ j, j < slotsOf inst.edge_incidences e ∧
      flagOf inst.edge_incidences e j = true ∧ (valOf inst.edge_incidences e j).1 = x := by
  unfold edgeNodes
  rw [List.mem_map]
  constructor
  · rintro ⟨p, hp, rfl⟩
    rw [mem_liveSlots] at hp
    refine ⟨p.1, hp.1, hp.2.1, ?_⟩
    have h : valOf inst.edge_incidences e p.1 = p.2 := hp.2.2
    rw [h]
  · rintro ⟨j, hj, hflag, hval⟩
    refine ⟨(j, valOf inst.edge_incidences e j), ?_, hval⟩
    rw [mem_liveSlots]
    exact ⟨hj, hflag, rfl⟩

/-- Membership characterisation of the edge list of a vertex. -/
theorem mem_nodeEdges {inst : Instance} {v x : Nat} :
    x ∈ inst.nodeEdges v ↔ ∃ i, i < slotsOf inst.node_incidences v ∧
      flagOf inst.node_incidences v i = true ∧ (valOf inst.node_incidences v i).1 = x :=
  @mem_edgeNodes inst.transpose v x

theorem nodeEdges_delete_node (inst : Instance) (v u : Nat) :
    (inst.delete_node v).nodeEdges u = inst.nodeEdges u := rfl

theorem nodeEdges_restore_node (inst : Instance) (v u : Nat) :
    (inst.restore_node v).nodeEdges u = inst.nodeEdges u := rfl

theorem edgeNodes_delete_edge (inst : Instance) (e f : Nat) :
    (inst.delete_edge e).edgeNodes f = inst.edgeNodes f := rfl

theorem edgeNodes_restore_edge (inst : Instance) (e f : Nat) :
    (inst.restore_edge e).edgeNodes f = inst.edgeNodes f := rfl

/-- Deleting a vertex removes exactly that vertex from the live content of
every live edge. -/
theorem mem_edgeNodes_delete_node {inst : Instance} (hG : inst.Good) {v e : Nat}
    (hv : v ∈ inst.liveNodes) (he : e ∈ inst.liveEdges) (x : Nat) :
    x ∈ (inst.delete_node v).edgeNodes e ↔ x ∈ inst.edgeNodes e ∧ x ≠ v := by
  have hchar : ∀ j, flagOf (inst.delete_node v).edge_incidences e j =
      flagOf (setFold inst.edge_incidences (inst.ni v).liveSlots false) e j := by
    intro j
    rfl
  constructor
  · intro hx
    rw [mem_edgeNodes] at hx
    obtain ⟨j, hj, hflag, hval⟩ := hx
    rw [hchar] at hflag
    rw [flagOf_setFold] at hflag
    have hj2 : j < slotsOf inst.edge_incidences e := by
      have h2 := hj
      show j < slotsOf inst.edge_incidences e
      have h3 : slotsOf (inst.delete_node v).edge_incidences e =
          slotsOf (setFold inst.edge_incidences (inst.ni v).liveSlots false) e := rfl
      rw [h3, slotsOf_setFold] at h2
      exact h2
    by_cases hcon : ∃ p ∈ (inst.ni v).liveSlots, p.2 = (e, j)
    · rw [if_pos ⟨hcon, hj2⟩] at hflag
      cases hflag
    · rw [if_neg (fun h2 => hcon h2.1)] at hflag
      have hval2 := valOf_setFold inst.edge_incidences (inst.ni v).liveSlots false e j
      have hvaleq : (valOf inst.edge_incidences e j).1 = x := by
        rw [← hval2]
        exact hval
      refine ⟨mem_edgeNodes.mpr ⟨j, hj2, hflag, hvaleq⟩, ?_⟩
      intro hxv
      apply hcon
      refine (hit_char hG hv).mpr ⟨mem_liveEdges_lt hG he, hj2, ?_, ?_⟩
      · rw [hvaleq, hxv]
      · have hK := hG.2.2.2.2.1.1 e he j hj2 hflag
        have h4 : (valOf inst.edge_incidences e j).1 = v := by rw [hvaleq, hxv]
        rw [← h4]
        exact hK.2
  · rintro ⟨hx, hxv⟩
    rw [mem_edgeNodes] at hx
    obtain ⟨j, hj, hflag, hval⟩ := hx
    rw [mem_edgeNodes]
    refine ⟨j, ?_, ?_, ?_⟩
    · show j < slotsOf (setFold inst.edge_incidences (inst.ni v).liveSlots false) e
      rw [slotsOf_setFold]
      exact hj
    · show flagOf (setFold inst.edge_incidences (inst.ni v).liveSlots false) e j = true
      rw [flagOf_setFold]
      have hcon : ¬ ∃ p ∈ (inst.ni v).liveSlots, p.2 = (e, j) := by
        intro hcon
        have hc := (hit_char hG hv).mp hcon
        rw [hval] at hc
        exact hxv hc.2.2.1
      rw [if_neg (fun h2 => hcon h2.1)]
      exact hflag
    · show (valOf (setFold inst.edge_incidences (inst.ni v).liveSlots false) e j).1 = x
      rw [valOf_setFold]
      exact hval

/-- Deleting an edge removes exactly that edge from the live edge list of
every live vertex, by transposition. -/
theorem mem_nodeEdges_delete_edge {inst : Instance} (hG : inst.Good) {e v : Nat}
    (he : e ∈ inst.liveEdges) (hv : v ∈ inst.liveNodes) (x : Nat) :
    x ∈ (inst.delete_edge e).nodeEdges v ↔ x ∈ inst.nodeEdges v ∧ x ≠ e := by
  rw [delete_edge_transpose]
  exact mem_edgeNodes_delete_node (Good.transpose hG) he hv x

end Instance

/-! ### Detach and re-attach: delete_incident_edges as a plain fold -/

theorem ext_getD {α : Type} (d : α) {l1 l2 : List α} (hlen : l1.length = l2.length)
    (h : ∀ k, l1.getD k d = l2.getD k d) : l1 = l2 := by
  apply List.ext_getElem hlen
  intro n h1 h2
  have hk := h n
  rw [List.getD_eq_getElem _ _ h1, List.getD_eq_getElem _ _ h2] at hk
  exact hk

theorem getD_updAt {α : Type} (l : List α) (k : Nat) (f : α → α) (d : α) (m : Nat) :
    (updAt l k f).getD m d = if k = m ∧ m < l.length then f (l.getD m d) else l.getD m d := by
  rcases eq_or_ne k m with rfl | hne
  · rcases Nat.lt_or_ge k l.length with hlt | hge
    · rw [getD_updAt_self _ _ hlt, if_pos ⟨rfl, hlt⟩]
    · rw [updAt_oor _ hge, if_neg (by omega)]
  · rw [getD_updAt_ne _ _ hne, if_neg (by tauto)]

theorem updAt_comm {α : Type} [Inhabited α] {l : List α} {k k2 : Nat}
    (f g : α → α) (hne : k ≠ k2) :
    updAt (updAt l k f) k2 g = updAt (updAt l k2 g) k f := by
  apply ext_getD (default : α)
  · rw [updAt_length, updAt_length, updAt_length, updAt_length]
  · intro m
    rw [getD_updAt, getD_updAt, getD_updAt, getD_updAt, updAt_length, updAt_length]
    by_cases hk : k = m
    · by_cases hk2 : k2 = m
      · exact absurd (hk.trans hk2.symm) hne
      · by_cases hm : m < l.length <;> simp [hk, hk2, hm]
    · by_cases hk2 : k2 = m
      · by_cases hm : m < l.length <;> simp [hk, hk2, hm]
      · simp [hk, hk2]

theorem updAt_updAt {α : Type} [Inhabited α] (l : List α) (k : Nat) (f g : α → α) :
    updAt (updAt l k f) k g = updAt l k (fun a => g (f a)) := by
  apply ext_getD (default : α)
  · rw [updAt_length, updAt_length, updAt_length]
  · intro m
    rw [getD_updAt, getD_updAt, getD_updAt, updAt_length]
    by_cases hk : k = m
    · by_cases hm : m < l.length <;> simp [hk, hm]
    · simp [hk]

theorem updAt_const_getD {α : Type} [Inhabited α] (l : List α) (k : Nat) (d : α) :
    updAt l k (fun _ => l.getD k d) = l := by
  rcases Nat.lt_or_ge k l.length with hlt | hge
  · rw [updAt_lt _ hlt]
    exact set_getD_self hlt rfl
  · rw [updAt_oor _ hge]

theorem setFold_updAt_comm {nis : List SkipVec} {S : List (Nat × (Nat × Nat))}
    {v : Nat} (b : Bool) (g : SkipVec → SkipVec) (hav : ∀ p ∈ S, p.2.1 ≠ v) :
    setFold (updAt nis v g) S b = updAt (setFold nis S b) v g := by
  induction S generalizing nis with
  | nil => rfl
  | cons q T ih =>
    unfold setFold at ih ⊢
    rw [List.foldl_cons, List.foldl_cons,
      updAt_comm _ _ (Ne.symm (hav q (List.mem_cons_self q T))),
      ih (fun p hp => hav p (List.mem_cons_of_mem q hp))]

theorem getD_setFold_ne {nis : List SkipVec} {S : List (Nat × (Nat × Nat))} {v : Nat}
    (b : Bool) (hav : ∀ p ∈ S, p.2.1 ≠ v) :
    (setFold nis S b).getD v ⟨[]⟩ = nis.getD v ⟨[]⟩ := by
  induction S generalizing nis with
  | nil => rfl
  | cons q T ih =>
    unfold setFold at ih ⊢
    rw [List.foldl_cons, ih (fun p hp => hav p (List.mem_cons_of_mem q hp)),
      getD_updAt_ne _ _ (hav q (List.mem_cons_self q T))]

namespace Instance

theorem eis_delete_edge (inst : Instance) (e : Nat) :
    (inst.delete_edge e).edge_incidences = inst.edge_incidences := rfl

theorem eis_restore_edge (inst : Instance) (e : Nat) :
    (inst.restore_edge e).edge_incidences = inst.edge_incidences := rfl

theorem delete_edge_withNis (X : Instance) (v e2 : Nat) (g : SkipVec → SkipVec)
    (hav : ∀ q ∈ (X.ei e2).liveSlots, q.2.1 ≠ v) :
    (X.withNis (updAt X.node_incidences v g)).delete_edge e2 =
      (X.delete_edge e2).withNis (updAt (X.delete_edge e2).node_incidences v g) := by
  show Instance.mk X.nodes (X.edges.delete e2)
      (setFold (updAt X.node_incidences v g) (X.ei e2).liveSlots false)
      X.edge_incidences =
    Instance.mk X.nodes (X.edges.delete e2)
      (updAt (setFold X.node_incidences (X.ei e2).liveSlots false) v g)
      X.edge_incidences
  rw [setFold_updAt_comm false g hav]

theorem restore_edge_withNis (X : Instance) (v e2 : Nat) (g : SkipVec → SkipVec)
    (hav : ∀ q ∈ (X.ei e2).liveSlots, q.2.1 ≠ v) :
    (X.withNis (updAt X.node_incidences v g)).restore_edge e2 =
      (X.restore_edge e2).withNis (updAt (X.restore_edge e2).node_incidences v g) := by
  show Instance.mk X.nodes (X.edges.restore e2)
      (setFold (updAt X.node_incidences v g) (X.ei e2).liveSlots true)
      X.edge_incidences =
    Instance.mk X.nodes (X.edges.restore e2)
      (updAt (setFold X.node_incidences (X.ei e2).liveSlots true) v g)
      X.edge_incidences
  rw [setFold_updAt_comm true g hav]

theorem fold_delete_edge_eis (S : List (Nat × (Nat × Nat))) (X : Instance) :
    (S.foldl (fun ist p => ist.delete_edge p.2.1) X).edge_incidences =
      X.edge_incidences := by
  induction S generalizing X with
  | nil => rfl
  | cons q T ih =>
    rw [List.foldl_cons, ih]
    rfl

theorem fold_restore_edge_eis (S : List (Nat × (Nat × Nat))) (X : Instance) :
    (S.foldl (fun ist p => ist.restore_edge p.2.1) X).edge_incidences =
      X.edge_incidences := by
  induction S generalizing X with
  | nil => rfl
  | cons q T ih =>
    rw [List.foldl_cons, ih]
    rfl

theorem fold_delete_edge_withNis (S : List (Nat × (Nat × Nat))) (X : Instance)
    (v : Nat) (g : SkipVec → SkipVec)
    (hS : ∀ p ∈ S, ∀ q ∈ (X.ei p.2.1).liveSlots, q.2.1 ≠ v) :
    S.foldl (fun ist p => ist.delete_edge p.2.1)
        (X.withNis (updAt X.node_incidences v g)) =
      (S.foldl (fun ist p => ist.delete_edge p.2.1) X).withNis
        (updAt (S.foldl (fun ist p => ist.delete_edge p.2.1) X).node_incidences v g) := by
  induction S generalizing X with
  | nil => rfl
  | cons q T ih =>
    rw [List.foldl_cons, List.foldl_cons,
      delete_edge_withNis X v q.2.1 g (hS q (List.mem_cons_self q T)),
      ih (X.delete_edge q.2.1) (fun p hp r hr => hS p (List.mem_cons_of_mem q hp) r hr)]

theorem fold_restore_edge_withNis (S : List (Nat × (Nat × Nat))) (X : Instance)
    (v : Nat) (g : SkipVec → SkipVec)
    (hS : ∀ p ∈ S, ∀ q ∈ (X.ei p.2.1).liveSlots, q.2.1 ≠ v) :
    S.foldl (fun ist p => ist.restore_edge p.2.1)
        (X.withNis (updAt X.node_incidences v g)) =
      (S.foldl (fun ist p => ist.restore_edge p.2.1) X).withNis
        (updAt (S.foldl (fun ist p => ist.restore_edge p.2.1) X).node_incidences v g) := by
  induction S generalizing X with
  | nil => rfl
  | cons q T ih =>
    rw [List.foldl_cons, List.foldl_cons,
      restore_edge_withNis X v q.2.1 g (hS q (List.mem_cons_self q T)),
      ih (X.restore_edge q.2.1) (fun p hp r hr => hS p (List.mem_cons_of_mem q hp) r hr)]

theorem fold_delete_edge_getD_v (S : List (Nat × (Nat × Nat))) (X : Instance)
    (v : Nat) (hS : ∀ p ∈ S, ∀ q ∈ (X.ei p.2.1).liveSlots, q.2.1 ≠ v) :
    (S.foldl (fun ist p => ist.delete_edge p.2.1) X).node_incidences.getD v ⟨[]⟩ =
      X.node_incidences.getD v ⟨[]⟩ := by
  induction S generalizing X with
  | nil => rfl
  | cons q T ih =>
    rw [List.foldl_cons, ih (X.delete_edge q.2.1)
      (fun p hp r hr => hS p (List.mem_cons_of_mem q hp) r hr)]
    show (setFold X.node_incidences (X.ei q.2.1).liveSlots false).getD v ⟨[]⟩ =
      X.node_incidences.getD v ⟨[]⟩
    apply getD_setFold_ne
    intro p hp
    exact hS q (List.mem_cons_self q T) p hp

theorem fold_restore_edge_getD_v (S : List (Nat × (Nat × Nat))) (X : Instance)
    (v : Nat) (hS : ∀ p ∈ S, ∀ q ∈ (X.ei p.2.1).liveSlots, q.2.1 ≠ v) :
    (S.foldl (fun ist p => ist.restore_edge p.2.1) X).node_incidences.getD v ⟨[]⟩ =
      X.node_incidences.getD v ⟨[]⟩ := by
  induction S generalizing X with
  | nil => rfl
  | cons q T ih =>
    rw [List.foldl_cons, ih (X.restore_edge q.2.1)
      (fun p hp r hr => hS p (List.mem_cons_of_mem q hp) r hr)]
    show (setFold X.node_incidences (X.ei q.2.1).liveSlots true).getD v ⟨[]⟩ =
      X.node_incidences.getD v ⟨[]⟩
    apply getD_setFold_ne
    intro p hp
    exact hS q (List.mem_cons_self q T) p hp

theorem delete_incident_edges_eq_fold (inst : Instance) (v : Nat)
    (hS : ∀ p ∈ (inst.ni v).liveSlots, ∀ q ∈ (inst.ei p.2.1).liveSlots, q.2.1 ≠ v) :
    inst.delete_incident_edges v =
      (inst.ni v).liveSlots.foldl (fun ist p => ist.delete_edge p.2.1) inst := by
  have e1 : inst.delete_incident_edges v =
      ((inst.ni v).liveSlots.foldl (fun ist p => ist.delete_edge p.2.1)
          (inst.withNis (updAt inst.node_incidences v (fun _ => ⟨[]⟩)))).withNis
        (updAt ((inst.ni v).liveSlots.foldl (fun ist p => ist.delete_edge p.2.1)
            (inst.withNis (updAt inst.node_incidences v
              (fun _ => ⟨[]⟩)))).node_incidences v (fun _ => inst.ni v)) := rfl
  rw [e1, fold_delete_edge_withNis _ _ _ _ hS]
  show ((inst.ni v).liveSlots.foldl (fun ist p => ist.delete_edge p.2.1) inst).withNis
      (updAt (updAt ((inst.ni v).liveSlots.foldl (fun ist p => ist.delete_edge p.2.1)
        inst).node_incidences v (fun _ => ⟨[]⟩)) v (fun _ => inst.ni v)) =
    (inst.ni v).liveSlots.foldl (fun ist p => ist.delete_edge p.2.1) inst
  rw [updAt_updAt]
  show ((inst.ni v).liveSlots.foldl (fun ist p => ist.delete_edge p.2.1) inst).withNis
      (updAt ((inst.ni v).liveSlots.foldl (fun ist p => ist.delete_edge p.2.1)
        inst).node_incidences v (fun a => inst.ni v)) =
    (inst.ni v).liveSlots.foldl (fun ist p => ist.delete_edge p.2.1) inst
  have e3 : (fun a : SkipVec => inst.ni v) = (fun a : SkipVec =>
      ((inst.ni v).liveSlots.foldl (fun ist p => ist.delete_edge p.2.1)
        inst).node_incidences.getD v ⟨[]⟩) := by
    funext a
    rw [fold_delete_edge_getD_v _ _ _ hS]
    rfl
  rw [e3, updAt_const_getD]
  rfl

theorem restore_incident_edges_eq_fold (inst : Instance) (v : Nat)
    (hS : ∀ p ∈ (inst.ni v).liveSlots, ∀ q ∈ (inst.ei p.2.1).liveSlots, q.2.1 ≠ v) :
    inst.restore_incident_edges v =
      (inst.ni v).liveSlots.reverse.foldl (fun ist p => ist.restore_edge p.2.1) inst := by
  have hS2 : ∀ p ∈ (inst.ni v).liveSlots.reverse,
      ∀ q ∈ (inst.ei p.2.1).liveSlots, q.2.1 ≠ v := by
    intro p hp
    exact hS p (List.mem_reverse.mp hp)
  have e1 : inst.restore_incident_edges v =
      ((inst.ni v).liveSlots.reverse.foldl (fun ist p => ist.restore_edge p.2.1)
          (inst.withNis (updAt inst.node_incidences v (fun _ => ⟨[]⟩)))).withNis
        (updAt ((inst.ni v).liveSlots.reverse.foldl
            (fun ist p => ist.restore_edge p.2.1)
            (inst.withNis (updAt inst.node_incidences v
              (fun _ => ⟨[]⟩)))).node_incidences v (fun _ => inst.ni v)) := rfl
  rw [e1, fold_restore_edge_withNis _ _ _ _ hS2]
  show ((inst.ni v).liveSlots.reverse.foldl (fun ist p => ist.restore_edge p.2.1)
      inst).withNis
      (updAt (updAt ((inst.ni v).liveSlots.reverse.foldl
        (fun ist p => ist.restore_edge p.2.1)
        inst).node_incidences v (fun _ => ⟨[]⟩)) v (fun _ => inst.ni v)) =
    (inst.ni v).liveSlots.reverse.foldl (fun ist p => ist.restore_edge p.2.1) inst
  rw [updAt_updAt]
  show ((inst.ni v).liveSlots.reverse.foldl (fun ist p => ist.restore_edge p.2.1)
      inst).withNis
      (updAt ((inst.ni v).liveSlots.reverse.foldl (fun ist p => ist.restore_edge p.2.1)
        inst).node_incidences v (fun a => inst.ni v)) =
    (inst.ni v).liveSlots.reverse.foldl (fun ist p => ist.restore_edge p.2.1) inst
  have e3 : (fun a : SkipVec => inst.ni v) = (fun a : SkipVec =>
      ((inst.ni v).liveSlots.reverse.foldl (fun ist p => ist.restore_edge p.2.1)
        inst).node_incidences.getD v ⟨[]⟩) := by
    funext a
    rw [fold_restore_edge_getD_v _ _ _ hS2]
    rfl
  rw [e3, updAt_const_getD]
  rfl

end Instance

theorem contains_iff {l : List Nat} {a : Nat} : l.contains a = true ↔ a ∈ l :=
  List.elem_iff

theorem nodup_map_index_inj {α β : Type} {l : List α} {f : α → β}
    (h : (l.map f).Nodup) {i j : Nat} (hi : i < l.length) (hj : j < l.length)
    (he : f l[i] = f l[j]) : i = j := by
  have hi2 : i < (l.map f).length := by simpa using hi
  have hj2 : j < (l.map f).length := by simpa using hj
  have h3 : (l.map f)[i] = (l.map f)[j] := by
    rw [List.getElem_map, List.getElem_map]
    exact he
  exact h.getElem_inj_iff.mp h3

namespace Instance

theorem edge_entry_inj {inst : Instance} (hG : inst.Good) {e : Nat}
    (he : e < inst.num_edges_total) {j1 j2 : Nat}
    (h1 : j1 < slotsOf inst.edge_incidences e) (h2 : j2 < slotsOf inst.edge_incidences e)
    (heq : (valOf inst.edge_incidences e j1).1 = (valOf inst.edge_incidences e j2).1) :
    j1 = j2 := by
  apply nodup_map_index_inj (hG.2.2.2.2.2.2 e he) h1 h2
  unfold valOf SkipVec.valueAt at heq
  rw [List.getD_eq_getElem _ _ h1, List.getD_eq_getElem _ _ h2] at heq
  exact heq

theorem node_entry_inj {inst : Instance} (hG : inst.Good) {v : Nat}
    (hv : v < inst.num_nodes_total) {i1 i2 : Nat}
    (h1 : i1 < slotsOf inst.node_incidences v) (h2 : i2 < slotsOf inst.node_incidences v)
    (heq : (valOf inst.node_incidences v i1).1 = (valOf inst.node_incidences v i2).1) :
    i1 = i2 :=
  edge_entry_inj (Good.transpose hG) hv h1 h2 heq

theorem liveSlots_mem_lt {inst : Instance} {v : Nat} {p : Nat × (Nat × Nat)}
    (hp : p ∈ (inst.ni v).liveSlots) : v < inst.num_nodes_total := by
  by_contra hge
  push_neg at hge
  have he : inst.ni v = ⟨[]⟩ := List.getD_eq_default _ _ hge
  rw [he] at hp
  simp [SkipVec.liveSlots] at hp

/-- The precondition of `delete_incident_edges` implies that no edge about
to be deleted has a live slot pointing at `v`. -/
theorem vsafe_no_live_v {inst : Instance} (hG : inst.Good) {v : Nat}
    (hflags : ∀ p ∈ (inst.ni v).liveSlots,
      flagOf inst.edge_incidences p.2.1 p.2.2 = false) :
    ∀ p ∈ (inst.ni v).liveSlots, ∀ q ∈ (inst.ei p.2.1).liveSlots, q.2.1 ≠ v := by
  intro p hp q hq hqv
  have hvlt : v < inst.num_nodes_total := liveSlots_mem_lt hp
  have hpc := hp
  rw [mem_liveSlots] at hpc
  have hqc := hq
  rw [mem_liveSlots] at hqc
  have hL := hG.2.2.2.1.1 v hvlt p.1 hpc.1
  have hvalp : valOf inst.node_incidences v p.1 = p.2 := hpc.2.2
  rw [hvalp] at hL
  have helt : p.2.1 < inst.num_edges_total := hL.1
  have hND := hG.2.2.2.2.2.2 p.2.1 helt
  have hq1lt : q.1 < slotsOf inst.edge_incidences p.2.1 := hqc.1
  have hj2lt : p.2.2 < slotsOf inst.edge_incidences p.2.1 := hL.2.1
  have hvq : valOf inst.edge_incidences p.2.1 q.1 = q.2 := hqc.2.2
  have heq : q.1 = p.2.2 := by
    apply edge_entry_inj hG helt hq1lt hj2lt
    rw [hvq, hL.2.2]
    exact hqv
  have hff := hflags p hp
  have hft : flagOf inst.edge_incidences p.2.1 p.2.2 = true := by
    rw [← heq]
    exact hqc.2.1
  rw [hff] at hft
  cases hft

/-- The edge ids retained in the incidence list of a vertex are pairwise
distinct. -/
theorem nodeEdges_nodup {inst : Instance} (hG : inst.Good) (v : Nat) :
    (((inst.ni v).liveSlots.map (fun p => p.2.1))).Nodup := by
  apply List.Nodup.map_on ?_ (liveSlots_nodup _)
  intro p hp p2 hp2 heq
  have hvlt : v < inst.num_nodes_total := liveSlots_mem_lt hp
  have hND := hG.2.2.2.2.2.1 v hvlt
  have hpc := hp
  have hp2c := hp2
  rw [mem_liveSlots] at hpc hp2c
  have hidx : p.1 = p2.1 := by
    apply node_entry_inj hG hvlt hpc.1 hp2c.1
    have h1 : valOf inst.node_incidences v p.1 = p.2 := hpc.2.2
    have h2 : valOf inst.node_incidences v p2.1 = p2.2 := hp2c.2.2
    rw [h1, h2]
    exact heq
  have hval : p.2 = p2.2 := by
    have h1 : valOf inst.node_incidences v p.1 = p.2 := hpc.2.2
    have h2 : valOf inst.node_incidences v p2.1 = p2.2 := hp2c.2.2
    rw [← h1, ← h2, hidx]
  exact Prod.ext hidx hval

/-- Telescoping: restoring the deleted edges in reverse order undoes the
deletions. -/
theorem fold_restore_delete_edges {T : List (Nat × (Nat × Nat))} {s : Instance}
    (hG : s.Good) (hlive : ∀ p ∈ T, p.2.1 ∈ s.liveEdges)
    (hnd : (T.map (fun p => p.2.1)).Nodup) :
    T.reverse.foldl (fun ist p => ist.restore_edge p.2.1)
      (T.foldl (fun ist p => ist.delete_edge p.2.1) s) = s := by
  induction T generalizing s with
  | nil => rfl
  | cons q T ih =>
    rw [List.foldl_cons, List.reverse_cons, List.foldl_append]
    have hq := hlive q (List.mem_cons_self q T)
    have hG2 := Good.delete_edge hG hq
    simp only [List.map_cons, List.nodup_cons] at hnd
    have hlive2 : ∀ p ∈ T, p.2.1 ∈ (s.delete_edge q.2.1).liveEdges := by
      intro p hp
      rw [liveEdges_delete_edge hG hq]
      refine ⟨hlive p (List.mem_cons_of_mem q hp), ?_⟩
      intro hc
      apply hnd.1
      rw [← hc]
      exact List.mem_map.mpr ⟨p, hp, rfl⟩
    rw [ih hG2 hlive2 hnd.2]
    show (s.delete_edge q.2.1).restore_edge q.2.1 = s
    exact restore_delete_edge hG hq

theorem Good.fold_delete_edges {T : List (Nat × (Nat × Nat))} {s : Instance}
    (hG : s.Good) (hlive : ∀ p ∈ T, p.2.1 ∈ s.liveEdges)
    (hnd : (T.map (fun p => p.2.1)).Nodup) :
    (T.foldl (fun ist p => ist.delete_edge p.2.1) s).Good := by
  induction T generalizing s with
  | nil => exact hG
  | cons q T ih =>
    rw [List.foldl_cons]
    have hq := hlive q (List.mem_cons_self q T)
    simp only [List.map_cons, List.nodup_cons] at hnd
    refine ih (Good.delete_edge hG hq) ?_ hnd.2
    intro p hp
    rw [liveEdges_delete_edge hG hq]
    refine ⟨hlive p (List.mem_cons_of_mem q hp), ?_⟩
    intro hc
    apply hnd.1
    rw [← hc]
    exact List.mem_map.mpr ⟨p, hp, rfl⟩

theorem liveNodes_fold_delete_edges (T : List (Nat × (Nat × Nat))) (s : Instance) :
    (T.foldl (fun ist p => ist.delete_edge p.2.1) s).liveNodes = s.liveNodes := by
  induction T generalizing s with
  | nil => rfl
  | cons q T ih =>
    rw [List.foldl_cons, ih]
    rfl

theorem edgeNodes_fold_delete_edges (T : List (Nat × (Nat × Nat))) (s : Instance)
    (e : Nat) :
    (T.foldl (fun ist p => ist.delete_edge p.2.1) s).edgeNodes e = s.edgeNodes e := by
  unfold edgeNodes ei
  rw [fold_delete_edge_eis]

theorem liveEdges_fold_delete_edges {T : List (Nat × (Nat × Nat))} {s : Instance}
    (hG : s.Good) (hlive : ∀ p ∈ T, p.2.1 ∈ s.liveEdges)
    (hnd : (T.map (fun p => p.2.1)).Nodup) (x : Nat) :
    x ∈ (T.foldl (fun ist p => ist.delete_edge p.2.1) s).liveEdges ↔
      x ∈ s.liveEdges ∧ x ∉ T.map (fun p => p.2.1) := by
  induction T generalizing s with
  | nil => simp
  | cons q T ih =>
    rw [List.foldl_cons]
    have hq := hlive q (List.mem_cons_self q T)
    simp only [List.map_cons, List.nodup_cons] at hnd
    have hlive2 : ∀ p ∈ T, p.2.1 ∈ (s.delete_edge q.2.1).liveEdges := by
      intro p hp
      rw [liveEdges_delete_edge hG hq]
      refine ⟨hlive p (List.mem_cons_of_mem q hp), ?_⟩
      intro hc
      apply hnd.1
      rw [← hc]
      exact List.mem_map.mpr ⟨p, hp, rfl⟩
    rw [ih (Good.delete_edge hG hq) hlive2 hnd.2,
      liveEdges_delete_edge hG hq]
    simp only [List.map_cons, List.mem_cons]
    constructor
    · rintro ⟨⟨h1, h2⟩, h3⟩
      exact ⟨h1, by tauto⟩
    · rintro ⟨h1, h2⟩
      refine ⟨⟨h1, ?_⟩, ?_⟩ <;> tauto

/-- Pair lemma for `delete_incident_edges`: with the vertex already deleted
(back-slots cleared) and its retained edges live, restoring undoes the
deletion exactly. -/
theorem restore_delete_incident {inst : Instance} {v : Nat} (hG : inst.Good)
    (hflags : ∀ p ∈ (inst.ni v).liveSlots,
      flagOf inst.edge_incidences p.2.1 p.2.2 = false)
    (hlive : ∀ p ∈ (inst.ni v).liveSlots, p.2.1 ∈ inst.liveEdges) :
    (inst.delete_incident_edges v).restore_incident_edges v = inst := by
  have hS := vsafe_no_live_v hG hflags
  rw [delete_incident_edges_eq_fold inst v hS]
  set D := (inst.ni v).liveSlots.foldl (fun ist p => ist.delete_edge p.2.1) inst with hD
  have hDni : D.ni v = inst.ni v := by
    unfold Instance.ni
    rw [hD, fold_delete_edge_getD_v _ _ _ hS]
  have hDeis : D.edge_incidences = inst.edge_incidences := by
    rw [hD]
    exact fold_delete_edge_eis _ _
  have hSD : ∀ p ∈ (D.ni v).liveSlots, ∀ q ∈ (D.ei p.2.1).liveSlots, q.2.1 ≠ v := by
    intro p hp q hq
    rw [hDni] at hp
    have hee : D.ei p.2.1 = inst.ei p.2.1 := by
      unfold Instance.ei
      rw [hDeis]
    rw [hee] at hq
    exact hS p hp q hq
  rw [restore_incident_edges_eq_fold D v hSD, hDni, hD]
  exact fold_restore_delete_edges hG hlive (nodeEdges_nodup hG v)

/-- Deleting the incident edges of an (already deleted) vertex preserves
the invariant. -/
theorem Good.delete_incident_edges {inst : Instance} (hG : inst.Good) {v : Nat}
    (hflags : ∀ p ∈ (inst.ni v).liveSlots,
      flagOf inst.edge_incidences p.2.1 p.2.2 = false)
    (hlive : ∀ p ∈ (inst.ni v).liveSlots, p.2.1 ∈ inst.liveEdges) :
    (inst.delete_incident_edges v).Good := by
  rw [delete_incident_edges_eq_fold inst v (vsafe_no_live_v hG hflags)]
  exact Good.fold_delete_edges hG hlive (nodeEdges_nodup hG v)

end Instance

/-- Reversibility of balanced, LIFO-nested delete/restore sequences: an
applicable balanced sequence is the identity on a well-formed instance. -/
theorem runOps_id : ∀ (o : Ops) (s : Instance), s.Good → applicableB o s = true →
    runOps o s = s := by
  intro o
  induction o with
  | nil =>
    intro s _ _
    rfl
  | seq a b iha ihb =>
    intro s hG happ
    rw [applicableB, Bool.and_eq_true] at happ
    have ha := iha s hG happ.1
    show runOps b (runOps a s) = s
    rw [ha]
    exact ihb s hG (by rw [← ha]; exact happ.2)
  | node v i ih =>
    intro s hG happ
    rw [applicableB, Bool.and_eq_true] at happ
    have hv : v ∈ s.liveNodes := contains_iff.mp happ.1
    show (runOps i (s.delete_node v)).restore_node v = s
    rw [ih _ (Instance.Good.delete_node hG hv) happ.2]
    exact Instance.restore_delete_node hG hv
  | edge e i ih =>
    intro s hG happ
    rw [applicableB, Bool.and_eq_true] at happ
    have he : e ∈ s.liveEdges := contains_iff.mp happ.1
    show (runOps i (s.delete_edge e)).restore_edge e = s
    rw [ih _ (Instance.Good.delete_edge hG he) happ.2]
    exact Instance.restore_delete_edge hG he
  | incident v i ih =>
    intro s hG happ
    rw [applicableB, Bool.and_eq_true] at happ
    have hvs := happ.1
    rw [vSafeB, Bool.and_eq_true, List.all_eq_true] at hvs
    have hflags : ∀ p ∈ (s.ni v).liveSlots,
        flagOf s.edge_incidences p.2.1 p.2.2 = false := by
      intro p hp
      have h2 := hvs.2 p hp
      rw [Bool.and_eq_true] at h2
      simpa using h2.2
    have hlive : ∀ p ∈ (s.ni v).liveSlots, p.2.1 ∈ s.liveEdges := by
      intro p hp
      have h2 := hvs.2 p hp
      rw [Bool.and_eq_true] at h2
      exact contains_iff.mp h2.1
    show (runOps i (s.delete_incident_edges v)).restore_incident_edges v = s
    rw [ih _ (Instance.Good.delete_incident_edges hG hflags hlive) happ.2]
    exact Instance.restore_delete_incident hG hflags hlive

/-! ### Lemmas about `Instance.load` -/

theorem parseVals_map_some (vs : List Nat) :
    parseVals (vs.map some) = Except.ok vs := by
  induction vs with
  | nil => rfl
  | cons v rest ih =>
    show (parseTok (some v) >>= fun a =>
      parseVals (rest.map some) >>= fun b => Except.ok (a :: b)) = _
    rw [show parseTok (some v) = Except.ok v from rfl]
    show parseVals (rest.map some) >>= (fun b => Except.ok (v :: b)) = _
    rw [ih]
    rfl

theorem map_updAt_invariant {α β : Type} (l : List α) (j : Nat) (f : α → α)
    (F : α → β) (h : ∀ a, F (f a) = F a) : (updAt l j f).map F = l.map F := by
  rcases Nat.lt_or_ge j l.length with hj | hj
  · rw [updAt_lt f hj, List.map_set, h]
    apply List.ext_getElem (by simp)
    intro m h1 h2
    rw [List.getElem_set]
    split
    · next heq => subst heq; rw [List.getElem_map]
    · rfl
  · rw [updAt_oor f hj]

theorem eisShape_setEntrySecond (eis : List SkipVec) (e j i e2 : Nat) :
    eisShape (setEntrySecond eis e j i) e2 = eisShape eis e2 := by
  unfold eisShape setEntrySecond
  rcases eq_or_ne e e2 with rfl | hne
  · rcases Nat.lt_or_ge e eis.length with hl | hl
    · rw [getD_updAt_self _ _ hl]
      show (updAt (eis.getD e ⟨[]⟩).entries j _).map entryShape = _
      exact map_updAt_invariant _ _ _ _ (fun a => rfl)
    · rw [updAt_oor _ hl]
  · rw [getD_updAt_ne _ _ hne]

theorem eisShape_foldPatch (L : List (Nat × (Nat × Nat))) (eis : List SkipVec) (e : Nat) :
    eisShape (L.foldl (fun eis p => setEntrySecond eis p.2.1 p.2.2 p.1) eis) e =
      eisShape eis e := by
  induction L generalizing eis with
  | nil => rfl
  | cons p rest ih => rw [List.foldl_cons, ih, eisShape_setEntrySecond]

theorem eisShape_patchRun (eis : List SkipVec) (run : List (Nat × Nat)) (e : Nat) :
    eisShape (patchRun eis run) e = eisShape eis e :=
  eisShape_foldPatch _ _ _

theorem eisShape_buildNodes (ids : List Nat) (rem : List (Nat × Nat))
    (eis : List SkipVec) (e : Nat) :
    eisShape (buildNodes ids rem eis).2 e = eisShape eis e := by
  induction ids generalizing rem eis with
  | nil => rfl
  | cons v rest ih =>
    show eisShape (buildNodes rest _ (patchRun eis _)).2 e = _
    rw [ih, eisShape_patchRun]

theorem loadEdgeLine_ok (d : Nat) (vs : List Nat) (hd : d ≠ 0) (hlen : vs.length ≤ d) :
    loadEdgeLine (some d :: vs.map some) =
      Except.ok ⟨vs.map (fun v => ((v, INVALID), true)) ++
        List.replicate (d - vs.length) ((INVALID, INVALID), true)⟩ := by
  have htake : (vs.map some).take d = vs.map some :=
    List.take_of_length_le (by simpa using hlen)
  have h1 : loadEdgeLine (some d :: vs.map some) =
      (if d = 0 then Except.error "edges may not be empty" else
        parseVals ((vs.map some).take d) >>= fun vals =>
          Except.ok (⟨vals.map (fun v => ((v, INVALID), true)) ++
            List.replicate (d - vals.length) ((INVALID, INVALID), true)⟩ : SkipVec)) := rfl
  rw [h1, if_neg hd, htake, parseVals_map_some]
  rfl

theorem load_fills_invalid (n d : Nat) (vs : List Nat) (hd : d ≠ 0) (hlen : vs.length ≤ d) :
    ∃ inst : Instance, load [[some n, some 1], some d :: vs.map some] = Except.ok inst ∧
      eisShape inst.edge_incidences 0 =
        vs.map (fun v => (v, true)) ++ List.replicate (d - vs.length) (INVALID, true) := by
  have hsv := loadEdgeLine_ok d vs hd hlen
  have h1 : loadEdgesAux [[some n, some 1], some d :: vs.map some] 1 1 [] =
      Except.ok [⟨vs.map (fun v => ((v, INVALID), true)) ++
        List.replicate (d - vs.length) ((INVALID, INVALID), true)⟩] := by
    show (loadEdgeLine (some d :: vs.map some) >>= fun sv =>
        loadEdgesAux [[some n, some 1], some d :: vs.map some] 0 2 [sv]) = _
    rw [hsv]
    rfl
  have h2 : load [[some n, some 1], some d :: vs.map some] =
      (loadEdgesAux [[some n, some 1], some d :: vs.map some] 1 1 [] >>= fun eis0 =>
        Except.ok ⟨Civ.init n, Civ.init 1,
          (buildNodes (List.range n)
            (sortByB (fun a b => keyLe (incKey eis0 a) (incKey eis0 b))
              (eis0.enum.flatMap (fun p => p.2.liveSlots.map (fun q => (p.1, q.1))))) eis0).1,
          (buildNodes (List.range n)
            (sortByB (fun a b => keyLe (incKey eis0 a) (incKey eis0 b))
              (eis0.enum.flatMap (fun p => p.2.liveSlots.map (fun q => (p.1, q.1))))) eis0).2⟩) :=
    rfl
  rw [h1] at h2
  refine ⟨_, h2, ?_⟩
  show eisShape (buildNodes _ _ _).2 0 = _
  rw [eisShape_buildNodes]
  show (⟨vs.map (fun v => ((v, INVALID), true)) ++
      List.replicate (d - vs.length) ((INVALID, INVALID), true)⟩ : SkipVec).entries.map
      entryShape = _
  show (vs.map (fun v => ((v, INVALID), true)) ++
      List.replicate (d - vs.length) ((INVALID, INVALID), true)).map entryShape = _
  rw [List.map_append, List.map_map, List.map_replicate]
  rfl

/-! ### Canonical sorted lists of vertex ids -/

theorem mem_insNat {x v : Nat} : ∀ {l : List Nat}, x ∈ insNat v l ↔ x = v ∨ x ∈ l := by
  intro l
  induction l with
  | nil =>
    show x ∈ [v] ↔ _
    simp
  | cons y l ih =>
    show x ∈ (if v < y then v :: y :: l else if v = y then y :: l else y :: insNat v l) ↔ _
    by_cases h1 : v < y
    · rw [if_pos h1]
      simp [or_assoc]
    · rw [if_neg h1]
      by_cases h2 : v = y
      · rw [if_pos h2]
        subst h2
        simp only [List.mem_cons]
        tauto
      · rw [if_neg h2]
        simp only [List.mem_cons, ih]
        tauto

theorem sorted_insNat {v : Nat} :
    ∀ {l : List Nat}, l.Pairwise (· < ·) → (insNat v l).Pairwise (· < ·) := by
  intro l
  induction l with
  | nil =>
    intro _
    show List.Pairwise _ [v]
    simp
  | cons y l ih =>
    intro h
    rw [List.pairwise_cons] at h
    show List.Pairwise (· < ·)
      (if v < y then v :: y :: l else if v = y then y :: l else y :: insNat v l)
    by_cases h1 : v < y
    · rw [if_pos h1]
      rw [List.pairwise_cons]
      refine ⟨?_, List.pairwise_cons.mpr h⟩
      intro z hz
      rcases List.mem_cons.mp hz with rfl | hz2
      · exact h1
      · exact Nat.lt_trans h1 (h.1 z hz2)
    · rw [if_neg h1]
      by_cases h2 : v = y
      · rw [if_pos h2]
        exact List.pairwise_cons.mpr h
      · rw [if_neg h2]
        rw [List.pairwise_cons]
        refine ⟨?_, ih h.2⟩
        intro z hz
        rcases mem_insNat.mp hz with rfl | hz2
        · omega
        · exact h.1 z hz2

theorem mem_canonList {x : Nat} : ∀ {l : List Nat}, x ∈ canonList l ↔ x ∈ l := by
  intro l
  induction l with
  | nil => simp [canonList]
  | cons y l ih =>
    show x ∈ insNat y (canonList l) ↔ _
    rw [mem_insNat, ih]
    simp

theorem sorted_canonList (l : List Nat) : (canonList l).Pairwise (· < ·) := by
  induction l with
  | nil => simp [canonList]
  | cons y l ih => exact sorted_insNat ih

theorem sorted_head_le {x : Nat} {l : List Nat} (h : (x :: l).Pairwise (· < ·))
    {z : Nat} (hz : z ∈ x :: l) : x ≤ z := by
  rcases List.mem_cons.mp hz with rfl | hz2
  · exact Nat.le_refl z
  · exact Nat.le_of_lt ((List.pairwise_cons.mp h).1 z hz2)

theorem sorted_eq_of_mem_iff :
    ∀ {a b : List Nat}, a.Pairwise (· < ·) → b.Pairwise (· < ·) →
      (∀ x, x ∈ a ↔ x ∈ b) → a = b := by
  intro a
  induction a with
  | nil =>
    intro b _ _ hmem
    cases b with
    | nil => rfl
    | cons y b => exact absurd ((hmem y).mpr (List.mem_cons_self y b)) (List.not_mem_nil y)
  | cons x a ih =>
    intro b ha hb hmem
    cases b with
    | nil => exact absurd ((hmem x).mp (List.mem_cons_self x a)) (List.not_mem_nil x)
    | cons y b =>
      have hxy : x = y := by
        have h1 : y ≤ x := sorted_head_le hb ((hmem x).mp (List.mem_cons_self x a))
        have h2 : x ≤ y := sorted_head_le ha ((hmem y).mpr (List.mem_cons_self y b))
        omega
      subst hxy
      have htail : ∀ z, z ∈ a ↔ z ∈ b := by
        intro z
        constructor
        · intro hz
          have hzx : x < z := (List.pairwise_cons.mp ha).1 z hz
          rcases List.mem_cons.mp ((hmem z).mp (List.mem_cons_of_mem x hz)) with rfl | h2
          · omega
          · exact h2
        · intro hz
          have hzx : x < z := (List.pairwise_cons.mp hb).1 z hz
          rcases List.mem_cons.mp ((hmem z).mpr (List.mem_cons_of_mem x hz)) with rfl | h2
          · omega
          · exact h2
      rw [ih (List.pairwise_cons.mp ha).2 (List.pairwise_cons.mp hb).2 htail]

theorem nodup_of_sorted_lt {l : List Nat} (h : l.Pairwise (· < ·)) : l.Nodup :=
  h.imp (fun hlt => Nat.ne_of_lt hlt)

theorem sorted_erase {l : List Nat} (h : l.Pairwise (· < ·)) (v : Nat) :
    (l.erase v).Pairwise (· < ·) :=
  List.Pairwise.sublist (List.erase_sublist v l) h

theorem mem_foldl_erase {L : List Nat} :
    ∀ {s : List Nat}, s.Nodup →
      ∀ x, x ∈ L.foldl (fun s v => s.erase v) s ↔ x ∈ s ∧ x ∉ L := by
  induction L with
  | nil => intro s _ x; simp
  | cons v L ih =>
    intro s hs x
    rw [List.foldl_cons, ih (hs.erase v), hs.mem_erase_iff]
    simp only [List.mem_cons]
    tauto

theorem sorted_foldl_erase {L : List Nat} :
    ∀ {s : List Nat}, s.Pairwise (· < ·) →
      (L.foldl (fun s v => s.erase v) s).Pairwise (· < ·) := by
  induction L with
  | nil => intro s hs; exact hs
  | cons v L ih =>
    intro s hs
    rw [List.foldl_cons]
    exact ih (sorted_erase hs v)

theorem mem_foldl_insNat {L : List Nat} :
    ∀ {s : List Nat} (x : Nat),
      x ∈ L.foldl (fun s v => insNat v s) s ↔ x ∈ s ∨ x ∈ L := by
  induction L with
  | nil => intro s x; simp
  | cons v L ih =>
    intro s x
    rw [List.foldl_cons, ih, mem_insNat]
    simp only [List.mem_cons]
    tauto

theorem sorted_foldl_insNat {L : List Nat} :
    ∀ {s : List Nat}, s.Pairwise (· < ·) →
      (L.foldl (fun s v => insNat v s) s).Pairwise (· < ·) := by
  induction L with
  | nil => intro s hs; exact hs
  | cons v L ih =>
    intro s hs
    rw [List.foldl_cons]
    exact ih (sorted_insNat hs)

/-! ### Activity bookkeeping -/

theorem live_delete (a : Activities) (v : Nat) : (a.delete v).live = a.live.erase v := rfl

theorem live_restore (a : Activities) (v : Nat) : (a.restore v).live = insNat v a.live := rfl

theorem live_foldl_delete (L : List Nat) :
    ∀ (a : Activities),
      (L.foldl (fun a v => a.delete v) a).live = L.foldl (fun s v => s.erase v) a.live := by
  induction L with
  | nil => intro a; rfl
  | cons v L ih =>
    intro a
    rw [List.foldl_cons, List.foldl_cons, ih]
    rfl

theorem live_foldl_restore (L : List Nat) :
    ∀ (a : Activities),
      (L.foldl (fun a v => a.restore v) a).live = L.foldl (fun s v => insNat v s) a.live := by
  induction L with
  | nil => intro a; rfl
  | cons v L ih =>
    intro a
    rw [List.foldl_cons, List.foldl_cons, ih]
    rfl

theorem live_foldl_bump (L : List Nat) (bi bd : Frac) :
    ∀ (a : Activities), (L.foldl (fun a v => a.bump v bi bd) a).live = a.live := by
  induction L with
  | nil => intro a; rfl
  | cons v L ih =>
    intro a
    rw [List.foldl_cons, ih]
    rfl

theorem live_bumpAndDecay (st : SimState) :
    (bumpAndDecay st).activities.live = st.activities.live := by
  show (Activities.decay _).live = _
  show (List.foldl (fun a v => a.bump v fzero fone) (List.foldl
    (fun a v => a.bump v fone fzero) st.activities st.incomplete_hs) st.discarded).live = _
  rw [live_foldl_bump, live_foldl_bump]

theorem foldl_ite_mem {α : Type} (f : α → α → Bool) :
    ∀ (L : List α) (b : α),
      L.foldl (fun b v => if f b v then v else b) b = b ∨
        L.foldl (fun b v => if f b v then v else b) b ∈ L := by
  intro L
  induction L with
  | nil => intro b; exact Or.inl rfl
  | cons v L ih =>
    intro b
    rw [List.foldl_cons]
    by_cases h : f b v = true
    · rw [if_pos h]
      rcases ih v with h2 | h2
      · exact Or.inr (by rw [h2]; exact List.mem_cons_self v L)
      · exact Or.inr (List.mem_cons_of_mem v h2)
    · rw [if_neg h]
      rcases ih b with h2 | h2
      · exact Or.inl h2
      · exact Or.inr (List.mem_cons_of_mem v h2)

/-! ### The include step: deleting a vertex together with its incident
edges -/

namespace Instance

theorem include_flags {inst : Instance} (hG : inst.Good) {v : Nat}
    (hv : v ∈ inst.liveNodes) :
    ∀ p ∈ ((inst.delete_node v).ni v).liveSlots,
      flagOf (inst.delete_node v).edge_incidences p.2.1 p.2.2 = false := by
  intro p hp
  have hp0 : p ∈ (inst.ni v).liveSlots := hp
  have hvlt : v < inst.num_nodes_total := liveSlots_mem_lt hp0
  have hpc := hp0
  rw [mem_liveSlots] at hpc
  have hL := hG.2.2.2.1.1 v hvlt p.1 hpc.1
  have hval : valOf inst.node_incidences v p.1 = p.2 := hpc.2.2
  rw [hval] at hL
  show flagOf (setFold inst.edge_incidences (inst.ni v).liveSlots false) p.2.1 p.2.2 = false
  rw [flagOf_setFold, if_pos ⟨⟨p, hp0, rfl⟩, hL.2.1⟩]

theorem include_live {inst : Instance} (hG : inst.Good) {v : Nat}
    (hv : v ∈ inst.liveNodes) :
    ∀ p ∈ ((inst.delete_node v).ni v).liveSlots,
      p.2.1 ∈ (inst.delete_node v).liveEdges := by
  intro p hp
  have hp0 : p ∈ (inst.ni v).liveSlots := hp
  have hpc := hp0
  rw [mem_liveSlots] at hpc
  have hK := hG.2.2.2.2.1.2 v hv p.1 hpc.1 hpc.2.1
  have hval : valOf inst.node_incidences v p.1 = p.2 := hpc.2.2
  rw [hval] at hK
  show p.2.1 ∈ inst.liveEdges
  exact hK.1

/-- A live vertex of a live edge records that edge in its own list. -/
theorem mem_nodeEdges_of_mem_edgeNodes {inst : Instance} (hG : inst.Good) {v f : Nat}
    (hf : f ∈ inst.liveEdges) (hvf : v ∈ inst.edgeNodes f) : f ∈ inst.nodeEdges v := by
  rw [mem_edgeNodes] at hvf
  obtain ⟨j, hj, hflag, hval⟩ := hvf
  have helt : f < inst.num_edges_total := mem_liveEdges_lt hG hf
  have hL := hG.2.2.2.1.2 f helt j hj
  have hK := hG.2.2.2.2.1.1 f hf j hj hflag
  rw [hval] at hL hK
  rw [mem_nodeEdges]
  exact ⟨(valOf inst.edge_incidences f j).2, hL.2.1, hK.2, by rw [hL.2.2]⟩

/-- Converse direction, by transposition. -/
theorem mem_edgeNodes_of_mem_nodeEdges {inst : Instance} (hG : inst.Good) {v f : Nat}
    (hv : v ∈ inst.liveNodes) (hvf : f ∈ inst.nodeEdges v) : v ∈ inst.edgeNodes f :=
  mem_nodeEdges_of_mem_edgeNodes (Good.transpose hG) hv hvf

theorem Good.include_step {inst : Instance} (hG : inst.Good) {v : Nat}
    (hv : v ∈ inst.liveNodes) :
    ((inst.delete_node v).delete_incident_edges v).Good :=
  Good.delete_incident_edges (Good.delete_node hG hv) (include_flags hG hv)
    (include_live hG hv)

theorem restore_include_step {inst : Instance} (hG : inst.Good) {v : Nat}
    (hv : v ∈ inst.liveNodes) :
    ((((inst.delete_node v).delete_incident_edges v).restore_incident_edges
      v)).restore_node v = inst := by
  rw [restore_delete_incident (Good.delete_node hG hv) (include_flags hG hv)
    (include_live hG hv)]
  exact restore_delete_node hG hv

theorem include_step_eq_fold {inst : Instance} (hG : inst.Good) {v : Nat}
    (hv : v ∈ inst.liveNodes) :
    (inst.delete_node v).delete_incident_edges v =
      (inst.ni v).liveSlots.foldl (fun ist p => ist.delete_edge p.2.1)
        (inst.delete_node v) :=
  delete_incident_edges_eq_fold (inst.delete_node v) v
    (vsafe_no_live_v (Good.delete_node hG hv) (include_flags hG hv))

theorem liveNodes_include_step {inst : Instance} (hG : inst.Good) {v : Nat}
    (hv : v ∈ inst.liveNodes) (x : Nat) :
    x ∈ ((inst.delete_node v).delete_incident_edges v).liveNodes ↔
      x ∈ inst.liveNodes ∧ x ≠ v := by
  rw [include_step_eq_fold hG hv, liveNodes_fold_delete_edges]
  exact liveNodes_delete_node hG hv x

theorem liveEdges_include_step {inst : Instance} (hG : inst.Good) {v : Nat}
    (hv : v ∈ inst.liveNodes) (x : Nat) :
    x ∈ ((inst.delete_node v).delete_incident_edges v).liveEdges ↔
      x ∈ inst.liveEdges ∧ x ∉ inst.nodeEdges v := by
  rw [include_step_eq_fold hG hv]
  exact liveEdges_fold_delete_edges (Good.delete_node hG hv) (include_live hG hv)
    (nodeEdges_nodup (Good.delete_node hG hv) v) x

theorem edgeNodes_include_step {inst : Instance} (hG : inst.Good) {v : Nat}
    (hv : v ∈ inst.liveNodes) {f : Nat} (hf : f ∈ inst.liveEdges) (x : Nat) :
    x ∈ ((inst.delete_node v).delete_incident_edges v).edgeNodes f ↔
      x ∈ inst.edgeNodes f ∧ x ≠ v := by
  rw [include_step_eq_fold hG hv, edgeNodes_fold_delete_edges]
  exact mem_edgeNodes_delete_node hG hv hf x

theorem LiveNonempty.ne_include_step {inst : Instance} (hG : inst.Good)
    (hNE : inst.LiveNonempty) {v : Nat} (hv : v ∈ inst.liveNodes) :
    ((inst.delete_node v).delete_incident_edges v).LiveNonempty := by
  intro f hf
  have hfc := (liveEdges_include_step hG hv f).mp hf
  obtain ⟨u, hu⟩ := List.exists_mem_of_ne_nil _ (hNE f hfc.1)
  have huv : u ≠ v := by
    intro h
    subst h
    exact hfc.2 (mem_nodeEdges_of_mem_edgeNodes hG hfc.1 hu)
  intro hcon
  have h2 := (edgeNodes_include_step hG hv hfc.1 u).mpr ⟨hu, huv⟩
  rw [hcon] at h2
  exact (List.not_mem_nil u) h2

theorem Covers.cov_include_step {inst : Instance} (hG : inst.Good) {v : Nat}
    (hv : v ∈ inst.liveNodes) {hs : List Nat} {E0 : List (List Nat)}
    (hC : Covers inst hs E0) :
    Covers ((inst.delete_node v).delete_incident_edges v) (hs ++ [v]) E0 := by
  intro C hCmem
  rcases hC C hCmem with ⟨u, hu1, hu2⟩ | ⟨f, hf, hsub⟩
  · exact Or.inl ⟨u, List.mem_append_left _ hu1, hu2⟩
  · by_cases hfv : f ∈ inst.nodeEdges v
    · refine Or.inl ⟨v, List.mem_append_right _ (List.mem_singleton_self v), ?_⟩
      exact hsub v (mem_edgeNodes_of_mem_nodeEdges hG hv hfv)
    · refine Or.inr ⟨f, (liveEdges_include_step hG hv f).mpr ⟨hf, hfv⟩, ?_⟩
      intro u hu
      exact hsub u ((edgeNodes_include_step hG hv hf u).mp hu).1

theorem liveNodes_include_list {inst : Instance} (hG : inst.Good) {v : Nat}
    (hv : v ∈ inst.liveNodes) :
    ((inst.delete_node v).delete_incident_edges v).liveNodes =
      (inst.nodes.delete v).liveList := by
  rw [include_step_eq_fold hG hv, liveNodes_fold_delete_edges]
  rfl

theorem liveNodes_length_include_step {inst : Instance} (hG : inst.Good) {v : Nat}
    (hv : v ∈ inst.liveNodes) :
    ((inst.delete_node v).delete_incident_edges v).liveNodes.length + 1 =
      inst.liveNodes.length := by
  rw [liveNodes_include_list hG hv,
    Civ.liveList_length (Civ.valid_delete hG.1 hv), Civ.delete_liveLen]
  have h1 : inst.liveNodes.length = inst.nodes.liveLen := Civ.liveList_length hG.1
  have h2 : 0 < inst.nodes.liveLen := by
    rw [← h1]
    exact List.length_pos.mpr (List.ne_nil_of_mem hv)
  omega

end Instance

/-! ### The subset-superset reducer -/

theorem subListB_iff {a b : List Nat} : subListB a b = true ↔ ∀ x ∈ a, x ∈ b := by
  unfold subListB
  rw [List.all_eq_true]
  exact ⟨fun h x hx => contains_iff.mp (h x hx), fun h x hx => contains_iff.mpr (h x hx)⟩

theorem findSupersetEdge_spec {inst : Instance} {e2 : Nat}
    (h : findSupersetEdge inst = some e2) :
    e2 ∈ inst.liveEdges ∧ ∃ e1 ∈ inst.liveEdges, e1 ≠ e2 ∧
      ∀ x ∈ inst.edgeNodes e1, x ∈ inst.edgeNodes e2 := by
  unfold findSupersetEdge at h
  have hmem := List.mem_of_find?_eq_some h
  have hp := List.find?_some h
  rw [List.any_eq_true] at hp
  obtain ⟨e1, he1, hcond⟩ := hp
  rw [Bool.and_eq_true] at hcond
  have hstr := hcond.2
  rw [strictSubListB, Bool.and_eq_true] at hstr
  exact ⟨hmem, e1, he1, bne_iff_ne.mp hcond.1, subListB_iff.mp hstr.1⟩

theorem findDominatedNode_spec {inst : Instance} {v1 : Nat}
    (h : findDominatedNode inst = some v1) :
    v1 ∈ inst.liveNodes ∧ ∃ v2 ∈ inst.liveNodes, v2 ≠ v1 ∧
      ∀ f ∈ inst.nodeEdges v1, f ∈ inst.nodeEdges v2 := by
  unfold findDominatedNode at h
  have hmem := List.mem_of_find?_eq_some h
  have hp := List.find?_some h
  rw [List.any_eq_true] at hp
  obtain ⟨v2, hv2, hcond⟩ := hp
  rw [Bool.and_eq_true] at hcond
  exact ⟨hmem, v2, hv2, bne_iff_ne.mp hcond.1, subListB_iff.mp hcond.2⟩

namespace Instance

theorem LiveNonempty.del_edge {inst : Instance} (hG : inst.Good)
    (hNE : inst.LiveNonempty) {e : Nat} (he : e ∈ inst.liveEdges) :
    (inst.delete_edge e).LiveNonempty := by
  intro f hf
  have hfc := (liveEdges_delete_edge hG he f).mp hf
  rw [edgeNodes_delete_edge]
  exact hNE f hfc.1

theorem LiveNonempty.delete_node_dominated {inst : Instance} (hG : inst.Good)
    (hNE : inst.LiveNonempty) {v1 v2 : Nat} (hv1 : v1 ∈ inst.liveNodes)
    (hv2 : v2 ∈ inst.liveNodes) (hne : v2 ≠ v1)
    (hsub : ∀ f ∈ inst.nodeEdges v1, f ∈ inst.nodeEdges v2) :
    (inst.delete_node v1).LiveNonempty := by
  intro f hf
  have hfl : f ∈ inst.liveEdges := hf
  by_cases hvf : v1 ∈ inst.edgeNodes f
  · have hf2 : f ∈ inst.nodeEdges v2 :=
      hsub f (mem_nodeEdges_of_mem_edgeNodes hG hfl hvf)
    have hv2f : v2 ∈ inst.edgeNodes f := mem_edgeNodes_of_mem_nodeEdges hG hv2 hf2
    intro hcon
    have h2 := (mem_edgeNodes_delete_node hG hv1 hfl v2).mpr ⟨hv2f, hne⟩
    rw [hcon] at h2
    exact (List.not_mem_nil v2) h2
  · obtain ⟨u, hu⟩ := List.exists_mem_of_ne_nil _ (hNE f hfl)
    have huv : u ≠ v1 := fun h => hvf (h ▸ hu)
    intro hcon
    have h2 := (mem_edgeNodes_delete_node hG hv1 hfl u).mpr ⟨hu, huv⟩
    rw [hcon] at h2
    exact (List.not_mem_nil u) h2

theorem Covers.del_node {inst : Instance} (hG : inst.Good) {v : Nat}
    (hv : v ∈ inst.liveNodes) {hs : List Nat} {E0 : List (List Nat)}
    (hC : Covers inst hs E0) : Covers (inst.delete_node v) hs E0 := by
  intro C hCm
  rcases hC C hCm with h | ⟨f, hf, hsub⟩
  · exact Or.inl h
  · refine Or.inr ⟨f, hf, ?_⟩
    intro u hu
    exact hsub u ((mem_edgeNodes_delete_node hG hv hf u).mp hu).1

theorem Covers.delete_superset_edge {inst : Instance} (hG : inst.Good) {e1 e2 : Nat}
    (he1 : e1 ∈ inst.liveEdges) (he2 : e2 ∈ inst.liveEdges) (hne : e1 ≠ e2)
    (hsub : ∀ x ∈ inst.edgeNodes e1, x ∈ inst.edgeNodes e2) {hs : List Nat}
    {E0 : List (List Nat)} (hC : Covers inst hs E0) :
    Covers (inst.delete_edge e2) hs E0 := by
  intro C hCm
  rcases hC C hCm with h | ⟨f, hf, hsubC⟩
  · exact Or.inl h
  · by_cases hfe : f = e2
    · subst hfe
      refine Or.inr ⟨e1, (liveEdges_delete_edge hG he2 e1).mpr ⟨he1, hne⟩, ?_⟩
      rw [edgeNodes_delete_edge]
      intro u hu
      exact hsubC u (hsub u hu)
    · refine Or.inr ⟨f, (liveEdges_delete_edge hG he2 f).mpr ⟨hf, hfe⟩, ?_⟩
      rw [edgeNodes_delete_edge]
      exact hsubC

end Instance

theorem mem_nodeList {x : Nat} {r : Reduction} :
    x ∈ r.nodeList ↔ RedEvent.node x ∈ r.events := by
  unfold Reduction.nodeList
  rw [List.mem_filterMap]
  constructor
  · rintro ⟨ev, hev, hex⟩
    cases ev with
    | node v =>
      have : v = x := Option.some.inj hex
      subst this
      exact hev
    | edge e => cases hex
  · intro h
    exact ⟨RedEvent.node x, h, rfl⟩

/-- One reduction step preserves well-formedness, nonempty live edge
contents, coverage and the live edge set being nonempty; it deletes a live
target and is undone exactly by the matching restore. -/
theorem pruneStep_spec {inst : Instance} (hG : inst.Good) (hNE : inst.LiveNonempty)
    {ev : RedEvent} {inst2 : Instance} (h : pruneStep inst = some (ev, inst2)) :
    inst2.Good ∧ inst2.LiveNonempty ∧ redRestore1 inst2 ev = inst ∧
    (∀ x, x ∈ inst2.liveNodes ↔ x ∈ inst.liveNodes ∧ ev ≠ RedEvent.node x) ∧
    (∀ hs E0, Covers inst hs E0 → Covers inst2 hs E0) ∧
    (inst.liveEdges ≠ [] → inst2.liveEdges ≠ []) ∧
    (∀ w, ev = RedEvent.node w → w ∈ inst.liveNodes) := by
  cases hfs : findSupersetEdge inst with
  | some e2 =>
    have h2 : (RedEvent.edge e2, inst.delete_edge e2) = (ev, inst2) := by
      have he : pruneStep inst = some (RedEvent.edge e2, inst.delete_edge e2) := by
        unfold pruneStep
        rw [hfs]
      rw [he] at h
      exact Option.some.inj h
    obtain ⟨he1mem, e1, he1, hne, hsub⟩ := findSupersetEdge_spec hfs
    have hev : RedEvent.edge e2 = ev := congrArg Prod.fst h2
    have hi : inst.delete_edge e2 = inst2 := congrArg Prod.snd h2
    subst hev
    subst hi
    refine ⟨Instance.Good.delete_edge hG he1mem,
      Instance.LiveNonempty.del_edge hG hNE he1mem, ?_, ?_, ?_, ?_, ?_⟩
    · exact Instance.restore_delete_edge hG he1mem
    · intro x
      show x ∈ inst.liveNodes ↔ _
      exact ⟨fun hx => ⟨hx, fun hc => RedEvent.noConfusion hc⟩, fun hx => hx.1⟩
    · intro hs E0 hC
      exact Instance.Covers.delete_superset_edge hG he1 he1mem hne hsub hC
    · intro _
      intro hcon
      have h3 := (Instance.liveEdges_delete_edge hG he1mem e1).mpr ⟨he1, hne⟩
      rw [hcon] at h3
      exact (List.not_mem_nil e1) h3
    · intro w hw
      exact RedEvent.noConfusion hw
  | none =>
    cases hfd : findDominatedNode inst with
    | some v1 =>
      have h2 : (RedEvent.node v1, inst.delete_node v1) = (ev, inst2) := by
        have he : pruneStep inst = some (RedEvent.node v1, inst.delete_node v1) := by
          unfold pruneStep
          rw [hfs, hfd]
        rw [he] at h
        exact Option.some.inj h
      obtain ⟨hv1mem, v2, hv2, hne, hsub⟩ := findDominatedNode_spec hfd
      have hev : RedEvent.node v1 = ev := congrArg Prod.fst h2
      have hi : inst.delete_node v1 = inst2 := congrArg Prod.snd h2
      subst hev
      subst hi
      refine ⟨Instance.Good.delete_node hG hv1mem,
        Instance.LiveNonempty.delete_node_dominated hG hNE hv1mem hv2 hne hsub,
        ?_, ?_, ?_, ?_, ?_⟩
      · exact Instance.restore_delete_node hG hv1mem
      · intro x
        rw [Instance.liveNodes_delete_node hG hv1mem x]
        constructor
        · rintro ⟨hx, hxv⟩
          exact ⟨hx, fun hc => hxv (RedEvent.node.inj hc).symm⟩
        · rintro ⟨hx, hxv⟩
          exact ⟨hx, fun hc => hxv (by rw [hc])⟩
      · intro hs E0 hC
        exact Instance.Covers.del_node hG hv1mem hC
      · intro hle
        exact hle
      · intro w hw
        rw [← RedEvent.node.inj hw]
        exact hv1mem
    | none =>
      have he : pruneStep inst = none := by
        unfold pruneStep
        rw [hfs, hfd]
      rw [he] at h
      cases h

/-- The reducer loop: well-formedness, nonempty contents, coverage and a
nonempty live edge set are preserved; the recorded events undo the loop
exactly, delete only vertices that were live, and determine the new live
vertex set. -/
theorem pruneAux_spec : ∀ (fuel : Nat) (inst : Instance) (acc : List RedEvent),
    inst.Good → inst.LiveNonempty →
    ∃ new : List RedEvent,
      (pruneAux fuel inst acc).2.events = new ++ acc ∧
      (pruneAux fuel inst acc).1.Good ∧
      (pruneAux fuel inst acc).1.LiveNonempty ∧
      new.foldl redRestore1 (pruneAux fuel inst acc).1 = inst ∧
      (∀ x, x ∈ (pruneAux fuel inst acc).1.liveNodes ↔
        x ∈ inst.liveNodes ∧ RedEvent.node x ∉ new) ∧
      (∀ hs E0, Covers inst hs E0 → Covers (pruneAux fuel inst acc).1 hs E0) ∧
      (inst.liveEdges ≠ [] → (pruneAux fuel inst acc).1.liveEdges ≠ []) ∧
      (∀ v, RedEvent.node v ∈ new → v ∈ inst.liveNodes) := by
  intro fuel
  induction fuel with
  | zero =>
    intro inst acc hG hNE
    refine ⟨[], rfl, hG, hNE, rfl, ?_, ?_, ?_, ?_⟩
    · intro x
      show x ∈ inst.liveNodes ↔ _
      simp
    · intro hs E0 hC
      exact hC
    · intro h
      exact h
    · intro v hv
      cases hv
  | succ fuel ih =>
    intro inst acc hG hNE
    cases hps : pruneStep inst with
    | none =>
      have hr : pruneAux (fuel + 1) inst acc = (inst, ⟨acc⟩) := by
        show (match pruneStep inst with
          | none => (inst, ({ events := acc } : Reduction))
          | some (ev, inst2) => pruneAux fuel inst2 (ev :: acc)) = _
        rw [hps]
      rw [hr]
      refine ⟨[], rfl, hG, hNE, rfl, ?_, ?_, ?_, ?_⟩
      · intro x
        simp
      · intro hs E0 hC
        exact hC
      · intro h
        exact h
      · intro v hv
        cases hv
    | some p =>
      obtain ⟨ev, inst2⟩ := p
      have hr : pruneAux (fuel + 1) inst acc = pruneAux fuel inst2 (ev :: acc) := by
        show (match pruneStep inst with
          | none => (inst, ({ events := acc } : Reduction))
          | some (ev, inst2) => pruneAux fuel inst2 (ev :: acc)) = _
        rw [hps]
      obtain ⟨hG2, hNE2, hres, hln, hcov, hle, hlv⟩ := pruneStep_spec hG hNE hps
      obtain ⟨new2, hev2, hG3, hNE3, hres3, hln3, hcov3, hle3, hlv3⟩ :=
        ih inst2 (ev :: acc) hG2 hNE2
      rw [hr]
      refine ⟨new2 ++ [ev], ?_, hG3, hNE3, ?_, ?_, ?_, ?_, ?_⟩
      · rw [hev2, List.append_assoc]
        rfl
      · rw [List.foldl_append, hres3, List.foldl_cons, List.foldl_nil]
        exact hres
      · intro x
        rw [hln3 x, hln x]
        simp only [List.mem_append, List.mem_singleton]
        constructor
        · rintro ⟨⟨hx, hxe⟩, hn2⟩
          refine ⟨hx, ?_⟩
          rintro (hn | hn)
          · exact hn2 hn
          · exact hxe hn.symm
        · rintro ⟨hx, hn⟩
          refine ⟨⟨hx, fun hc => hn (Or.inr hc.symm)⟩, fun hc => hn (Or.inl hc)⟩
      · intro hs E0 hC
        exact hcov3 hs E0 (hcov hs E0 hC)
      · intro h
        exact hle3 (hle h)
      · intro v hv
        rcases List.mem_append.mp hv with hv2 | hv2
        · exact ((hln v).mp (hlv3 v hv2)).1
        · rw [List.mem_singleton] at hv2
          exact hlv v hv2.symm

/-- The bundle of `pruneAux_spec` at the call site of the solver. -/
theorem subsuperset_prune_spec {inst : Instance} (hG : inst.Good)
    (hNE : inst.LiveNonempty) :
    (subsuperset_prune inst).1.Good ∧
    (subsuperset_prune inst).1.LiveNonempty ∧
    (subsuperset_prune inst).2.restore (subsuperset_prune inst).1 = inst ∧
    (∀ x, x ∈ (subsuperset_prune inst).1.liveNodes ↔
      x ∈ inst.liveNodes ∧
        RedEvent.node x ∉ (subsuperset_prune inst).2.events) ∧
    (∀ hs E0, Covers inst hs E0 → Covers (subsuperset_prune inst).1 hs E0) ∧
    (inst.liveEdges ≠ [] → (subsuperset_prune inst).1.liveEdges ≠ []) ∧
    (∀ v, RedEvent.node v ∈ (subsuperset_prune inst).2.events →
      v ∈ inst.liveNodes) := by
  obtain ⟨new, hev, hG2, hNE2, hres, hln, hcov, hle, hlv⟩ :=
    pruneAux_spec (inst.num_nodes_total + inst.num_edges_total) inst [] hG hNE
  rw [List.append_nil] at hev
  have hevents : (subsuperset_prune inst).2.events = new := hev
  refine ⟨hG2, hNE2, ?_, ?_, hcov, hle, ?_⟩
  · show (subsuperset_prune inst).2.events.foldl redRestore1 (subsuperset_prune inst).1
      = inst
    rw [hevents]
    exact hres
  · intro x
    rw [hevents]
    exact hln x
  · intro v hv
    rw [hevents] at hv
    exact hlv v hv

/-! ### The greedy warm start -/

namespace Instance

theorem edgeNodes_subset_liveNodes {inst : Instance} (hG : inst.Good) {e : Nat}
    (he : e ∈ inst.liveEdges) : ∀ u ∈ inst.edgeNodes e, u ∈ inst.liveNodes := by
  intro u hu
  rw [mem_edgeNodes] at hu
  obtain ⟨j, hj, hflag, hval⟩ := hu
  have hK := hG.2.2.2.2.1.1 e he j hj hflag
  rw [hval] at hK
  exact hK.1

theorem node_degree_pos {inst : Instance} (hG : inst.Good) {e u : Nat}
    (he : e ∈ inst.liveEdges) (hu : u ∈ inst.edgeNodes e) :
    0 < inst.node_degree u := by
  have hf : e ∈ inst.nodeEdges u := mem_nodeEdges_of_mem_edgeNodes hG he hu
  have hne : inst.nodeEdges u ≠ [] := List.ne_nil_of_mem hf
  have hlen : (inst.nodeEdges u).length = (inst.ni u).liveSlots.length := by
    unfold nodeEdges
    rw [List.length_map]
  have hpos := List.length_pos.mpr hne
  show 0 < (inst.ni u).liveSlots.length
  omega

end Instance

theorem gfold_mem (f : Nat → Nat) :
    ∀ (L : List Nat) (md : Nat × Nat),
      (L.foldl (fun md v =>
        if decide (md.1 < f v) || (decide (md.1 = f v) && decide (md.2 ≤ v))
        then (f v, v) else md) md) = md ∨
      ∃ v ∈ L, (L.foldl (fun md v =>
        if decide (md.1 < f v) || (decide (md.1 = f v) && decide (md.2 ≤ v))
        then (f v, v) else md) md) = (f v, v) := by
  intro L
  induction L with
  | nil => intro md; exact Or.inl rfl
  | cons v L ih =>
    intro md
    rw [List.foldl_cons]
    by_cases h :
        (decide (md.1 < f v) || (decide (md.1 = f v) && decide (md.2 ≤ v))) = true
    · rw [if_pos h]
      rcases ih (f v, v) with h2 | ⟨w, hw, h2⟩
      · exact Or.inr ⟨v, List.mem_cons_self v L, h2⟩
      · exact Or.inr ⟨w, List.mem_cons_of_mem v hw, h2⟩
    · rw [if_neg h]
      rcases ih md with h2 | ⟨w, hw, h2⟩
      · exact Or.inl h2
      · exact Or.inr ⟨w, List.mem_cons_of_mem v hw, h2⟩

theorem gfold_ge (f : Nat → Nat) :
    ∀ (L : List Nat) (md : Nat × Nat),
      md.1 ≤ (L.foldl (fun md v =>
        if decide (md.1 < f v) || (decide (md.1 = f v) && decide (md.2 ≤ v))
        then (f v, v) else md) md).1 ∧
      ∀ v ∈ L, f v ≤ (L.foldl (fun md v =>
        if decide (md.1 < f v) || (decide (md.1 = f v) && decide (md.2 ≤ v))
        then (f v, v) else md) md).1 := by
  intro L
  induction L with
  | nil =>
    intro md
    refine ⟨Nat.le_refl _, ?_⟩
    intro v hv
    cases hv
  | cons v L ih =>
    intro md
    rw [List.foldl_cons]
    by_cases h :
        (decide (md.1 < f v) || (decide (md.1 = f v) && decide (md.2 ≤ v))) = true
    · rw [if_pos h]
      have hstep : md.1 ≤ f v := by
        rw [Bool.or_eq_true, decide_eq_true_iff, Bool.and_eq_true,
          decide_eq_true_iff] at h
        rcases h with h | ⟨h, _⟩
        · exact Nat.le_of_lt h
        · exact Nat.le_of_eq h
      have hih := ih (f v, v)
      refine ⟨Nat.le_trans hstep hih.1, ?_⟩
      intro w hw
      rcases List.mem_cons.mp hw with rfl | hw2
      · exact hih.1
      · exact hih.2 w hw2
    · rw [if_neg h]
      have hstep : f v ≤ md.1 := by
        rw [Bool.or_eq_true, decide_eq_true_iff] at h
        push_neg at h
        exact h.1
      have hih := ih md
      refine ⟨hih.1, ?_⟩
      intro w hw
      rcases List.mem_cons.mp hw with rfl | hw2
      · exact Nat.le_trans hstep hih.1
      · exact hih.2 w hw2

theorem greedyPick_mem {inst : Instance} (hG : inst.Good) (hNE : inst.LiveNonempty)
    (hle : inst.liveEdges ≠ []) : greedyPick inst ∈ inst.liveNodes := by
  obtain ⟨e, he⟩ := List.exists_mem_of_ne_nil _ hle
  obtain ⟨u, hu⟩ := List.exists_mem_of_ne_nil _ (hNE e he)
  have hul : u ∈ inst.liveNodes := Instance.edgeNodes_subset_liveNodes hG he u hu
  have hdeg : 0 < inst.node_degree u := Instance.node_degree_pos hG he hu
  have h1 := gfold_mem inst.node_degree inst.liveNodes (0, INVALID)
  have h2 := (gfold_ge inst.node_degree inst.liveNodes (0, INVALID)).2 u hul
  rcases h1 with h1 | ⟨v, hv, h1⟩
  · rw [h1] at h2
    omega
  · show (inst.liveNodes.foldl (fun md v =>
      if decide (md.1 < inst.node_degree v) ||
        (decide (md.1 = inst.node_degree v) && decide (md.2 ≤ v))
      then (inst.node_degree v, v) else md) (0, INVALID)).2 ∈ inst.liveNodes
    rw [h1]
    exact hv

theorem covers_self (inst : Instance) :
    Covers inst [] (inst.liveEdges.map inst.edgeNodes) := by
  intro C hC
  rw [List.mem_map] at hC
  obtain ⟨f, hf, rfl⟩ := hC
  exact Or.inr ⟨f, hf, fun u hu => hu⟩

/-- The greedy loop: the produced vertices extend the accumulator, hit every
covered original edge once no live edge remains, and the loop's deletions
are undone exactly by the restore pass. -/
theorem greedyAux_spec : ∀ (fuel : Nat) (inst : Instance) (hs : List Nat)
    (E0 : List (List Nat)), inst.Good → inst.LiveNonempty →
    inst.liveNodes.length < fuel → Covers inst hs E0 →
    ∃ L : List Nat,
      (greedyAux fuel inst hs).1 = hs ++ L ∧
      IsHS (greedyAux fuel inst hs).1 E0 ∧
      L.reverse.foldl (fun ist v => (ist.restore_incident_edges v).restore_node v)
        (greedyAux fuel inst hs).2 = inst := by
  intro fuel
  induction fuel with
  | zero =>
    intro inst hs E0 _ _ hlen _
    omega
  | succ fuel ih =>
    intro inst hs E0 hG hNE hlen hC
    by_cases hE : inst.liveEdges.isEmpty = true
    · have hr : greedyAux (fuel + 1) inst hs = (hs, inst) := by
        unfold greedyAux
        rw [if_pos hE]
      rw [hr]
      refine ⟨[], by simp, ?_, rfl⟩
      intro C hCm
      rcases hC C hCm with h | ⟨f, hf, _⟩
      · exact h
      · rw [List.isEmpty_iff] at hE
        rw [hE] at hf
        cases hf
    · have hle : inst.liveEdges ≠ [] := by
        intro h
        rw [List.isEmpty_iff] at hE
        exact hE h
      have hvl : greedyPick inst ∈ inst.liveNodes := greedyPick_mem hG hNE hle
      have hr0 : greedyAux (fuel + 1) inst hs =
          if inst.liveEdges.isEmpty then (hs, inst)
          else greedyAux fuel ((inst.delete_node (greedyPick inst)).delete_incident_edges
            (greedyPick inst)) (hs ++ [greedyPick inst]) := rfl
      have hr : greedyAux (fuel + 1) inst hs =
          greedyAux fuel ((inst.delete_node (greedyPick inst)).delete_incident_edges
            (greedyPick inst)) (hs ++ [greedyPick inst]) := by
        rw [hr0, if_neg hE]
      have hlen2 : ((inst.delete_node (greedyPick inst)).delete_incident_edges
          (greedyPick inst)).liveNodes.length < fuel := by
        have := Instance.liveNodes_length_include_step hG hvl
        omega
      obtain ⟨L2, hL2, hHS2, hres2⟩ := ih
        ((inst.delete_node (greedyPick inst)).delete_incident_edges (greedyPick inst))
        (hs ++ [greedyPick inst]) E0 (Instance.Good.include_step hG hvl)
        (Instance.LiveNonempty.ne_include_step hG hNE hvl) hlen2
        (Instance.Covers.cov_include_step hG hvl hC)
      rw [hr]
      refine ⟨greedyPick inst :: L2, ?_, hHS2, ?_⟩
      · rw [hL2, List.append_assoc]
        rfl
      · rw [List.reverse_cons, List.foldl_append, hres2, List.foldl_cons,
          List.foldl_nil]
        exact Instance.restore_include_step hG hvl

/-- Source-level greedy: the result is a hitting set of the covered original
edges, and the instance is restored exactly. -/
theorem greedy_approx_spec {inst : Instance} (hG : inst.Good)
    (hNE : inst.LiveNonempty) {E0 : List (List Nat)} (hC : Covers inst [] E0) :
    IsHS (greedy_approx inst).1 E0 ∧ (greedy_approx inst).2 = inst := by
  have hlen : inst.liveNodes.length < inst.nodes.liveLen + 1 := by
    show inst.nodes.liveList.length < _
    rw [Civ.liveList_length hG.1]
    omega
  obtain ⟨L, hL, hHS, hres⟩ :=
    greedyAux_spec (inst.nodes.liveLen + 1) inst [] E0 hG hNE hlen hC
  rw [List.nil_append] at hL
  refine ⟨hHS, ?_⟩
  show ((greedyAux (inst.nodes.liveLen + 1) inst []).1).reverse.foldl
    (fun ist v => (ist.restore_incident_edges v).restore_node v)
    (greedyAux (inst.nodes.liveLen + 1) inst []).2 = inst
  rw [hL]
  exact hres

/-! ### Preparation for the search induction -/

theorem insNat_erase_canon {l : List Nat} {v : Nat} (hv : v ∈ l) :
    insNat v ((canonList l).erase v) = canonList l := by
  apply sorted_eq_of_mem_iff
    (sorted_insNat (sorted_erase (sorted_canonList _) v)) (sorted_canonList _)
  intro x
  rw [mem_insNat, (nodup_of_sorted_lt (sorted_canonList _)).mem_erase_iff,
    mem_canonList]
  by_cases hxv : x = v
  · subst hxv
    tauto
  · tauto

theorem erase_canon_delete {inst : Instance} (hG : inst.Good) {v : Nat}
    (hv : v ∈ inst.liveNodes) :
    (canonList inst.liveNodes).erase v = canonList (inst.delete_node v).liveNodes := by
  apply sorted_eq_of_mem_iff (sorted_erase (sorted_canonList _) v) (sorted_canonList _)
  intro x
  rw [(nodup_of_sorted_lt (sorted_canonList _)).mem_erase_iff, mem_canonList,
    mem_canonList, Instance.liveNodes_delete_node hG hv x]
  tauto

theorem erase_canon_include {inst : Instance} (hG : inst.Good) {v : Nat}
    (hv : v ∈ inst.liveNodes) :
    (canonList inst.liveNodes).erase v =
      canonList ((inst.delete_node v).delete_incident_edges v).liveNodes := by
  apply sorted_eq_of_mem_iff (sorted_erase (sorted_canonList _) v) (sorted_canonList _)
  intro x
  rw [(nodup_of_sorted_lt (sorted_canonList _)).mem_erase_iff, mem_canonList,
    mem_canonList, Instance.liveNodes_include_step hG hv x]
  tauto

namespace Instance

theorem edgeNodes_nodup {inst : Instance} (hG : inst.Good) (e : Nat) :
    (inst.edgeNodes e).Nodup :=
  nodeEdges_nodup (Good.transpose hG) e

theorem edge_degree_eq_length (inst : Instance) (e : Nat) :
    inst.edge_degree e = (inst.edgeNodes e).length := by
  show (inst.ei e).liveSlots.length = _
  unfold edgeNodes
  rw [List.length_map]

theorem liveNodes_length_delete_node {inst : Instance} (hG : inst.Good) {v : Nat}
    (hv : v ∈ inst.liveNodes) :
    (inst.delete_node v).liveNodes.length + 1 = inst.liveNodes.length := by
  show (inst.nodes.delete v).liveList.length + 1 = _
  rw [Civ.liveList_length (Civ.valid_delete hG.1 hv), Civ.delete_liveLen]
  have h1 : inst.liveNodes.length = inst.nodes.liveLen := Civ.liveList_length hG.1
  have h2 : 0 < inst.nodes.liveLen := by
    rw [← h1]
    exact List.length_pos.mpr (List.ne_nil_of_mem hv)
  omega

end Instance

theorem exists_ne_of_nodup_two {l : List Nat} (hnd : l.Nodup) (hlen : 2 ≤ l.length)
    (v : Nat) : ∃ u ∈ l, u ≠ v := by
  cases l with
  | nil => simp at hlen
  | cons a t =>
    cases t with
    | nil => simp at hlen
    | cons b t2 =>
      have hab : a ≠ b := by
        rw [List.nodup_cons] at hnd
        intro h
        exact hnd.1 (h ▸ List.mem_cons_self b t2)
      by_cases hav : a = v
      · refine ⟨b, List.mem_cons_of_mem a (List.mem_cons_self b t2), ?_⟩
        intro h
        exact hab (by rw [hav, h])
      · exact ⟨a, List.mem_cons_self a (b :: t2), hav⟩

namespace Instance

/-- When no live edge has degree 1, deleting any live vertex keeps every
live edge content nonempty. -/
theorem LiveNonempty.delete_node_deg2 {inst : Instance} (hG : inst.Good)
    (hNE : inst.LiveNonempty) (hdeg : ∀ e ∈ inst.liveEdges, inst.edge_degree e ≠ 1)
    {v : Nat} (hv : v ∈ inst.liveNodes) : (inst.delete_node v).LiveNonempty := by
  intro f hf
  have hfl : f ∈ inst.liveEdges := hf
  have hlen2 : 2 ≤ (inst.edgeNodes f).length := by
    have h1 := List.length_pos.mpr (hNE f hfl)
    have h2 := hdeg f hfl
    rw [edge_degree_eq_length] at h2
    omega
  obtain ⟨u, hu, huv⟩ := exists_ne_of_nodup_two (edgeNodes_nodup hG f) hlen2 v
  intro hcon
  have h2 := (mem_edgeNodes_delete_node hG hv hfl u).mpr ⟨hu, huv⟩
  rw [hcon] at h2
  exact (List.not_mem_nil u) h2

end Instance

theorem degree_1_edge_none {inst : Instance} (h : inst.degree_1_edge = none) :
    ∀ e ∈ inst.liveEdges, inst.edge_degree e ≠ 1 := by
  intro e he hdeg
  unfold Instance.degree_1_edge at h
  rw [Option.map_eq_none'] at h
  rw [List.find?_eq_none] at h
  have h2 := h e he
  rw [hdeg] at h2
  simp at h2

theorem degree_1_edge_some {inst : Instance} (hNE : inst.LiveNonempty) {e v : Nat}
    (h : inst.degree_1_edge = some (e, v)) :
    e ∈ inst.liveEdges ∧ v ∈ inst.edgeNodes e := by
  unfold Instance.degree_1_edge at h
  cases hf : inst.liveEdges.find? (fun e => inst.edge_degree e == 1) with
  | none =>
    rw [hf] at h
    simp at h
  | some e0 =>
    rw [hf] at h
    simp only [Option.map_some'] at h
    rw [Option.some.injEq, Prod.mk.injEq] at h
    obtain ⟨he0, hv0⟩ := h
    rw [← he0]
    have hmem := List.mem_of_find?_eq_some hf
    refine ⟨hmem, ?_⟩
    have hnn := hNE e0 hmem
    cases hc : inst.edgeNodes e0 with
    | nil => exact absurd hc hnn
    | cons a t =>
      have ha : (inst.edgeNodes e0).headD INVALID = a := by
        rw [hc]
        rfl
      rw [ha] at hv0
      have hvm : v ∈ a :: t := by
        rw [← hv0]
        exact List.mem_cons_self a t
      exact hvm

theorem genBool_fields (st : SimState) :
    (genBool st).2.incomplete_hs = st.incomplete_hs ∧
    (genBool st).2.discarded = st.discarded ∧
    (genBool st).2.best_known = st.best_known ∧
    (genBool st).2.activities = st.activities := by
  unfold genBool
  cases hr : st.rng with
  | nil => exact ⟨rfl, rfl, rfl, rfl⟩
  | cons b r => exact ⟨rfl, rfl, rfl, rfl⟩

theorem nodup_length_le {a b : List Nat} (hnd : a.Nodup) (hsub : a ⊆ b) :
    a.length ≤ b.length :=
  (hnd.subperm hsub).length_le

theorem highest_mem {a : Activities} (h : a.live ≠ []) : a.highest ∈ a.live := by
  unfold Activities.highest
  cases hl : a.live with
  | nil => exact absurd hl h
  | cons x rest =>
    show List.foldl (fun b v => if fltB (a.combined b) (a.combined v) then v else b)
      x rest ∈ x :: rest
    rcases foldl_ite_mem (fun b v => fltB (a.combined b) (a.combined v)) rest x with h2 | h2
    · rw [h2]
      exact List.mem_cons_self x rest
    · exact List.mem_cons_of_mem x h2

/-- Frame-and-progress of `branch_on` under either child order, given the
same property for the recursive calls. -/
theorem branch_on_spec {fuel : Nat}
    (hrec : ∀ (inst2 : Instance) (st2 : SimState) (E2 : List (List Nat)),
      SolveHyp inst2 st2 E2 → inst2.liveNodes.length < fuel →
      SolveFrame inst2 st2 E2 (solve_recursive fuel inst2 st2))
    {inst : Instance} {st : SimState} {E0 : List (List Nat)} {v : Nat}
    (hh : SolveHyp inst st E0) (hv : v ∈ inst.liveNodes)
    (hdeg : ∀ e ∈ inst.liveEdges, inst.edge_degree e ≠ 1)
    (hfuel : inst.liveNodes.length ≤ fuel) :
    SolveFrame inst st E0 (branch_on (solve_recursive fuel) v inst st) := by
  obtain ⟨hG, hNE, hact, hcov, hbest⟩ := hh
  obtain ⟨hfi, hfd, hfb, hfa⟩ := genBool_fields st
  rcases hgen : genBool st with ⟨b, st2⟩
  rw [hgen] at hfi hfd hfb hfa
  have hfi2 : st2.incomplete_hs = st.incomplete_hs := hfi
  have hfd2 : st2.discarded = st.discarded := hfd
  have hfb2 : st2.best_known = st.best_known := hfb
  have hfa2 : st2.activities = st.activities := hfa
  have hpos : 0 < inst.liveNodes.length := List.length_pos.mpr (List.ne_nil_of_mem hv)
  have hlen1 : (inst.delete_node v).liveNodes.length < fuel := by
    have := Instance.liveNodes_length_delete_node hG hv
    omega
  have hlen2 :
      ((inst.delete_node v).delete_incident_edges v).liveNodes.length < fuel := by
    have := Instance.liveNodes_length_include_step hG hv
    omega
  have hGd : (inst.delete_node v).Good := Instance.Good.delete_node hG hv
  have hNEd : (inst.delete_node v).LiveNonempty :=
    Instance.LiveNonempty.delete_node_deg2 hG hNE hdeg hv
  have hGi := Instance.Good.include_step hG hv
  have hNEi := Instance.LiveNonempty.ne_include_step hG hNE hv
  have hcanD := erase_canon_delete hG hv
  have hcanI := erase_canon_include hG hv
  have hrestI : ((inst.delete_node v).delete_incident_edges v).restore_incident_edges
      v = inst.delete_node v :=
    Instance.restore_delete_incident hGd (Instance.include_flags hG hv)
      (Instance.include_live hG hv)
  cases b with
  | true =>
    set stA : SimState := ({ st2 with
      activities := st2.activities.delete v,
      discarded := st2.discarded ++ [v] } : SimState) with hstA
    set rA := solve_recursive fuel (inst.delete_node v) stA with hrA
    set stB : SimState := ({ rA.2 with
      discarded := rA.2.discarded.dropLast,
      incomplete_hs := rA.2.incomplete_hs ++ [v] } : SimState) with hstB
    set rB := solve_recursive fuel (rA.1.delete_incident_edges v) stB with hrB
    have hb : branch_on (solve_recursive fuel) v inst st =
        ((rB.1.restore_incident_edges v).restore_node v,
         { rB.2 with incomplete_hs := rB.2.incomplete_hs.dropLast,
                     activities := rB.2.activities.restore v }) := by
      unfold branch_on
      rw [hgen]
      rfl
    have hypA : SolveHyp (inst.delete_node v) stA E0 := by
      refine ⟨hGd, hNEd, ?_, ?_, ?_⟩
      · show (st2.activities.delete v).live = canonList (inst.delete_node v).liveNodes
        rw [live_delete, hfa2, hact, hcanD]
      · show Covers (inst.delete_node v) st2.incomplete_hs E0
        rw [hfi2]
        exact Instance.Covers.del_node hG hv hcov
      · show IsHS st2.best_known E0
        rw [hfb2]
        exact hbest
    obtain ⟨hA1, hA2, hA3, hA4, hA5, hA6⟩ :=
      hrec (inst.delete_node v) stA E0 hypA hlen1
    rw [← hrA] at hA1 hA2 hA3 hA4 hA5 hA6
    have hGB : (rA.1.delete_incident_edges v).Good := by
      rw [hA1]
      exact hGi
    have hNEB : (rA.1.delete_incident_edges v).LiveNonempty := by
      rw [hA1]
      exact hNEi
    have hlenB : (rA.1.delete_incident_edges v).liveNodes.length < fuel := by
      rw [hA1]
      exact hlen2
    have hypB : SolveHyp (rA.1.delete_incident_edges v) stB E0 := by
      refine ⟨hGB, hNEB, ?_, ?_, ?_⟩
      · show rA.2.activities.live =
          canonList (rA.1.delete_incident_edges v).liveNodes
        rw [hA1, hA4]
        show (st2.activities.delete v).live = _
        rw [live_delete, hfa2, hact, hcanI]
      · show Covers (rA.1.delete_incident_edges v) (rA.2.incomplete_hs ++ [v]) E0
        rw [hA1, hA2]
        show Covers _ (st2.incomplete_hs ++ [v]) _
        rw [hfi2]
        exact Instance.Covers.cov_include_step hG hv hcov
      · show IsHS rA.2.best_known E0
        exact hA5
    obtain ⟨hB1, hB2, hB3, hB4, hB5, hB6⟩ :=
      hrec (rA.1.delete_incident_edges v) stB E0 hypB hlenB
    rw [← hrB] at hB1 hB2 hB3 hB4 hB5 hB6
    rw [hb]
    refine ⟨?_, ?_, ?_, ?_, ?_, ?_⟩
    · show (rB.1.restore_incident_edges v).restore_node v = inst
      rw [hB1, hA1, hrestI]
      exact Instance.restore_delete_node hG hv
    · show rB.2.incomplete_hs.dropLast = st.incomplete_hs
      rw [hB2]
      show (rA.2.incomplete_hs ++ [v]).dropLast = _
      rw [List.dropLast_concat, hA2]
      show st2.incomplete_hs = _
      exact hfi2
    · show rB.2.discarded = st.discarded
      rw [hB3]
      show rA.2.discarded.dropLast = _
      rw [hA3]
      show (st2.discarded ++ [v]).dropLast = _
      rw [List.dropLast_concat]
      exact hfd2
    · show (rB.2.activities.restore v).live = st.activities.live
      rw [live_restore, hB4]
      show insNat v rA.2.activities.live = _
      rw [hA4]
      show insNat v (st2.activities.delete v).live = _
      rw [live_delete, hfa2, hact, insNat_erase_canon hv]
    · exact hB5
    · show rB.2.best_known.length ≤ st.best_known.length
      have h3 : stA.best_known = st.best_known := hfb2
      rw [h3] at hA6
      have hB6b : rB.2.best_known.length ≤ rA.2.best_known.length := hB6
      exact le_trans hB6b hA6
  | false =>
    set stA : SimState := ({ st2 with
      activities := st2.activities.delete v,
      incomplete_hs := st2.incomplete_hs ++ [v] } : SimState) with hstA
    set rA := solve_recursive fuel ((inst.delete_node v).delete_incident_edges v) stA
      with hrA
    set stB : SimState := ({ rA.2 with
      incomplete_hs := rA.2.incomplete_hs.dropLast,
      discarded := rA.2.discarded ++ [v] } : SimState) with hstB
    set rB := solve_recursive fuel (rA.1.restore_incident_edges v) stB with hrB
    have hb : branch_on (solve_recursive fuel) v inst st =
        (rB.1.restore_node v,
         { rB.2 with discarded := rB.2.discarded.dropLast,
                     activities := rB.2.activities.restore v }) := by
      unfold branch_on
      rw [hgen]
      rfl
    have hypA : SolveHyp ((inst.delete_node v).delete_incident_edges v) stA E0 := by
      refine ⟨hGi, hNEi, ?_, ?_, ?_⟩
      · show (st2.activities.delete v).live =
          canonList ((inst.delete_node v).delete_incident_edges v).liveNodes
        rw [live_delete, hfa2, hact, hcanI]
      · show Covers _ (st2.incomplete_hs ++ [v]) E0
        rw [hfi2]
        exact Instance.Covers.cov_include_step hG hv hcov
      · show IsHS st2.best_known E0
        rw [hfb2]
        exact hbest
    obtain ⟨hA1, hA2, hA3, hA4, hA5, hA6⟩ :=
      hrec ((inst.delete_node v).delete_incident_edges v) stA E0 hypA hlen2
    rw [← hrA] at hA1 hA2 hA3 hA4 hA5 hA6
    have hreA : rA.1.restore_incident_edges v = inst.delete_node v := by
      rw [hA1]
      exact hrestI
    have hypB : SolveHyp (rA.1.restore_incident_edges v) stB E0 := by
      refine ⟨?_, ?_, ?_, ?_, ?_⟩
      · rw [hreA]
        exact hGd
      · rw [hreA]
        exact hNEd
      · show rA.2.activities.live =
          canonList (rA.1.restore_incident_edges v).liveNodes
        rw [hreA, hA4]
        show (st2.activities.delete v).live = _
        rw [live_delete, hfa2, hact, hcanD]
      · show Covers (rA.1.restore_incident_edges v) (rA.2.incomplete_hs.dropLast) E0
        rw [hreA, hA2]
        show Covers _ ((st2.incomplete_hs ++ [v]).dropLast) E0
        rw [List.dropLast_concat, hfi2]
        exact Instance.Covers.del_node hG hv hcov
      · exact hA5
    have hlenB : (rA.1.restore_incident_edges v).liveNodes.length < fuel := by
      rw [hreA]
      exact hlen1
    obtain ⟨hB1, hB2, hB3, hB4, hB5, hB6⟩ :=
      hrec (rA.1.restore_incident_edges v) stB E0 hypB hlenB
    rw [← hrB] at hB1 hB2 hB3 hB4 hB5 hB6
    rw [hb]
    refine ⟨?_, ?_, ?_, ?_, ?_, ?_⟩
    · show rB.1.restore_node v = inst
      rw [hB1, hreA]
      exact Instance.restore_delete_node hG hv
    · show rB.2.incomplete_hs = st.incomplete_hs
      rw [hB2]
      show rA.2.incomplete_hs.dropLast = _
      rw [hA2]
      show (st2.incomplete_hs ++ [v]).dropLast = _
      rw [List.dropLast_concat]
      exact hfi2
    · show rB.2.discarded.dropLast = st.discarded
      rw [hB3]
      show (rA.2.discarded ++ [v]).dropLast = _
      rw [List.dropLast_concat, hA3]
      show st2.discarded = _
      exact hfd2
    · show (rB.2.activities.restore v).live = st.activities.live
      rw [live_restore, hB4]
      show insNat v rA.2.activities.live = _
      rw [hA4]
      show insNat v (st2.activities.delete v).live = _
      rw [live_delete, hfa2, hact, insNat_erase_canon hv]
    · exact hB5
    · show rB.2.best_known.length ≤ st.best_known.length
      have h3 : stA.best_known = st.best_known := hfb2
      rw [h3] at hA6
      have hB6b : rB.2.best_known.length ≤ rA.2.best_known.length := hB6
      exact le_trans hB6b hA6

/-- The master induction on `solve_recursive`: the call restores the
instance and the stacks exactly, keeps the incumbent a hitting set of the
covered original edges and never lets it grow. -/
theorem solve_rec_spec : ∀ (fuel : Nat) (inst : Instance) (st : SimState)
    (E0 : List (List Nat)), SolveHyp inst st E0 → inst.liveNodes.length < fuel →
    SolveFrame inst st E0 (solve_recursive fuel inst st) := by
  intro fuel
  induction fuel with
  | zero =>
    intro inst st E0 _ hlen
    omega
  | succ fuel ih =>
    intro inst st E0 hh hlen
    obtain ⟨hG, hNE, hact, hcov, hbest⟩ := hh
    by_cases hE : inst.liveEdges.isEmpty = true
    · unfold solve_recursive
      rw [if_pos hE]
      have hHSinc : IsHS st.incomplete_hs E0 := by
        intro C hC
        rcases hcov C hC with h | ⟨f, hf, _⟩
        · exact h
        · rw [List.isEmpty_iff] at hE
          rw [hE] at hf
          cases hf
      by_cases hlt : st.incomplete_hs.length < st.best_known.length
      · rw [if_pos hlt]
        refine ⟨rfl, rfl, rfl, rfl, hHSinc, ?_⟩
        show st.incomplete_hs.length ≤ st.best_known.length
        omega
      · rw [if_neg hlt]
        exact ⟨rfl, rfl, rfl, rfl, hbest, Nat.le_refl _⟩
    · have hEne : inst.liveEdges ≠ [] := by
        intro h
        exact hE (by rw [h]; rfl)
      set pr := (if 1 < st.iterations + 1 then subsuperset_prune inst
        else (inst, (⟨[]⟩ : Reduction))) with hpr
      have hprB : pr.1.Good ∧ pr.1.LiveNonempty ∧ pr.2.restore pr.1 = inst ∧
          (∀ x, x ∈ pr.1.liveNodes ↔
            x ∈ inst.liveNodes ∧ RedEvent.node x ∉ pr.2.events) ∧
          (∀ hs E2, Covers inst hs E2 → Covers pr.1 hs E2) ∧
          (inst.liveEdges ≠ [] → pr.1.liveEdges ≠ []) ∧
          (∀ w, RedEvent.node w ∈ pr.2.events → w ∈ inst.liveNodes) := by
        rw [hpr]
        by_cases hit : 1 < st.iterations + 1
        · rw [if_pos hit]
          exact subsuperset_prune_spec hG hNE
        · rw [if_neg hit]
          refine ⟨hG, hNE, rfl, ?_, ?_, ?_, ?_⟩
          · intro x
            show x ∈ inst.liveNodes ↔ _
            simp
          · intro hs E2 h
            exact h
          · intro h
            exact h
          · intro w hw
            exact absurd hw (List.not_mem_nil _)
      obtain ⟨hprG, hprNE, hprRes, hprLN, hprCov, hprLE, hprNodes⟩ := hprB
      have hprSub : pr.1.liveNodes ⊆ inst.liveNodes := by
        intro x hx
        exact ((hprLN x).mp hx).1
      have hprLenLe : pr.1.liveNodes.length ≤ inst.liveNodes.length :=
        nodup_length_le (Civ.liveList_nodup hprG.1) hprSub
      set st2' : SimState := ({ st with
        iterations := st.iterations + 1,
        activities := pr.2.nodeList.foldl (fun a v => a.delete v) st.activities } :
          SimState) with hst2
      have hact2' : st2'.activities.live = canonList pr.1.liveNodes := by
        show (pr.2.nodeList.foldl (fun a v => a.delete v) st.activities).live = _
        rw [live_foldl_delete, hact]
        apply sorted_eq_of_mem_iff (sorted_foldl_erase (sorted_canonList _))
          (sorted_canonList _)
        intro x
        rw [mem_foldl_erase (nodup_of_sorted_lt (sorted_canonList _)) x,
          mem_canonList, mem_canonList, hprLN x, mem_nodeList]
      have hactRestore : ∀ (a : Activities), a.live = canonList pr.1.liveNodes →
          (pr.2.nodeList.foldl (fun a v => a.restore v) a).live =
            st.activities.live := by
        intro a ha
        rw [live_foldl_restore, ha, hact]
        apply sorted_eq_of_mem_iff (sorted_foldl_insNat (sorted_canonList _))
          (sorted_canonList _)
        intro x
        rw [mem_foldl_insNat, mem_canonList, mem_canonList, hprLN x, mem_nodeList]
        constructor
        · rintro (⟨hx, _⟩ | hx)
          · exact hx
          · exact hprNodes x hx
        · intro hx
          by_cases hev : RedEvent.node x ∈ pr.2.events
          · exact Or.inr hev
          · exact Or.inl ⟨hx, hev⟩
      set mid := (if can_prune pr.1 st2' then (pr.1, bumpAndDecay st2')
        else
          match pr.1.degree_1_edge with
          | some de =>
            let node := de.2
            let inst2 := (pr.1.delete_node node).delete_incident_edges node
            let stf := { st2' with activities := st2'.activities.delete node,
                                   incomplete_hs := st2'.incomplete_hs ++ [node] }
            let r := solve_recursive fuel inst2 stf
            ((r.1.restore_incident_edges node).restore_node node,
             { r.2 with incomplete_hs := r.2.incomplete_hs.dropLast,
                        activities := r.2.activities.restore node })
          | none =>
            branch_on (solve_recursive fuel) st2'.activities.highest pr.1 st2')
        with hmid
      have hr0 : solve_recursive (fuel + 1) inst st =
          (if inst.liveEdges.isEmpty then
            (inst,
              if st.incomplete_hs.length < st.best_known.length then
                { st with best_known := st.incomplete_hs }
              else st)
          else
            (pr.2.restore mid.1,
             { mid.2 with activities :=
                pr.2.nodeList.foldl (fun a v => a.restore v) mid.2.activities })) :=
        rfl
      have hr : solve_recursive (fuel + 1) inst st =
          (pr.2.restore mid.1,
           { mid.2 with activities :=
              pr.2.nodeList.foldl (fun a v => a.restore v) mid.2.activities }) := by
        rw [hr0, if_neg hE]
      have hMid : SolveFrame pr.1 st2' E0 mid := by
        by_cases hprune : can_prune pr.1 st2' = true
        · have hmid2 : mid = (pr.1, bumpAndDecay st2') := by
            rw [hmid, if_pos hprune]
          rw [hmid2]
          exact ⟨rfl, rfl, rfl, live_bumpAndDecay st2', hbest, Nat.le_refl _⟩
        · cases hdeg1 : pr.1.degree_1_edge with
          | some de =>
            obtain ⟨hde_e, hde_v⟩ := degree_1_edge_some hprNE hdeg1
            have hvl : de.2 ∈ pr.1.liveNodes :=
              Instance.edgeNodes_subset_liveNodes hprG hde_e de.2 hde_v
            set stf : SimState := ({ st2' with
              activities := st2'.activities.delete de.2,
              incomplete_hs := st2'.incomplete_hs ++ [de.2] } : SimState) with hstf
            set rF := solve_recursive fuel
              ((pr.1.delete_node de.2).delete_incident_edges de.2) stf with hrF
            have hmid2 : mid =
                ((rF.1.restore_incident_edges de.2).restore_node de.2,
                 { rF.2 with incomplete_hs := rF.2.incomplete_hs.dropLast,
                             activities := rF.2.activities.restore de.2 }) := by
              rw [hmid, if_neg hprune, hdeg1]
            have hypF : SolveHyp
                ((pr.1.delete_node de.2).delete_incident_edges de.2) stf E0 := by
              refine ⟨Instance.Good.include_step hprG hvl,
                Instance.LiveNonempty.ne_include_step hprG hprNE hvl, ?_, ?_, ?_⟩
              · show (st2'.activities.delete de.2).live = _
                rw [live_delete, hact2', erase_canon_include hprG hvl]
              · show Covers _ (st2'.incomplete_hs ++ [de.2]) E0
                show Covers _ (st.incomplete_hs ++ [de.2]) E0
                exact Instance.Covers.cov_include_step hprG hvl (hprCov _ E0 hcov)
              · show IsHS st.best_known E0
                exact hbest
            have hlenF :
                ((pr.1.delete_node de.2).delete_incident_edges
                  de.2).liveNodes.length < fuel := by
              have := Instance.liveNodes_length_include_step hprG hvl
              omega
            obtain ⟨hF1, hF2, hF3, hF4, hF5, hF6⟩ :=
              ih ((pr.1.delete_node de.2).delete_incident_edges de.2) stf E0
                hypF hlenF
            rw [← hrF] at hF1 hF2 hF3 hF4 hF5 hF6
            rw [hmid2]
            refine ⟨?_, ?_, ?_, ?_, ?_, ?_⟩
            · show (rF.1.restore_incident_edges de.2).restore_node de.2 = pr.1
              rw [hF1]
              exact Instance.restore_include_step hprG hvl
            · show rF.2.incomplete_hs.dropLast = st2'.incomplete_hs
              rw [hF2]
              show (st2'.incomplete_hs ++ [de.2]).dropLast = _
              rw [List.dropLast_concat]
            · show rF.2.discarded = st2'.discarded
              exact hF3
            · show (rF.2.activities.restore de.2).live = st2'.activities.live
              rw [live_restore, hF4]
              show insNat de.2 (st2'.activities.delete de.2).live = _
              rw [live_delete, hact2', insNat_erase_canon hvl]
            · exact hF5
            · show rF.2.best_known.length ≤ st2'.best_known.length
              exact hF6
          | none =>
            have hmid2 : mid =
                branch_on (solve_recursive fuel) st2'.activities.highest pr.1
                  st2' := by
              rw [hmid, if_neg hprune, hdeg1]
            rw [hmid2]
            have hlneNE : pr.1.liveNodes ≠ [] := by
              obtain ⟨e, he⟩ := List.exists_mem_of_ne_nil _ (hprLE hEne)
              obtain ⟨u, hu⟩ := List.exists_mem_of_ne_nil _ (hprNE e he)
              exact List.ne_nil_of_mem
                (Instance.edgeNodes_subset_liveNodes hprG he u hu)
            have hhi : st2'.activities.highest ∈ pr.1.liveNodes := by
              have h1 : st2'.activities.live ≠ [] := by
                rw [hact2']
                intro h
                obtain ⟨x, hx⟩ := List.exists_mem_of_ne_nil _ hlneNE
                have h2 : x ∈ canonList pr.1.liveNodes := mem_canonList.mpr hx
                rw [h] at h2
                cases h2
              have h2 := highest_mem h1
              rw [hact2'] at h2
              exact mem_canonList.mp h2
            have hfuelB : pr.1.liveNodes.length ≤ fuel := by
              omega
            refine branch_on_spec ih ⟨hprG, hprNE, hact2', ?_, ?_⟩ hhi
              (degree_1_edge_none hdeg1) hfuelB
            · show Covers pr.1 st.incomplete_hs E0
              exact hprCov _ E0 hcov
            · show IsHS st.best_known E0
              exact hbest
      obtain ⟨hM1, hM2, hM3, hM4, hM5, hM6⟩ := hMid
      rw [hr]
      refine ⟨?_, ?_, ?_, ?_, ?_, ?_⟩
      · show pr.2.restore mid.1 = inst
        rw [hM1]
        exact hprRes
      · show mid.2.incomplete_hs = st.incomplete_hs
        rw [hM2]
      · show mid.2.discarded = st.discarded
        rw [hM3]
      · show (pr.2.nodeList.foldl (fun a v => a.restore v) mid.2.activities).live =
          st.activities.live
        apply hactRestore
        rw [hM4]
        exact hact2'
      · exact hM5
      · show mid.2.best_known.length ≤ st.best_known.length
        exact hM6


/-- The driver `solve`: the final incumbent hits every original live edge
content and is no larger than the greedy warm start. -/
theorem solve_spec {inst : Instance} (hG : inst.Good) (hNE : inst.LiveNonempty)
    (rng : List Bool) :
    IsHS (solve inst rng).2.1.best_known (inst.liveEdges.map inst.edgeNodes) ∧
    (solve inst rng).2.2.hs_size = (solve inst rng).2.1.best_known.length ∧
    (solve inst rng).2.2.greedy_size = (greedy_approx (subsuperset_prune inst).1).1.length ∧
    (solve inst rng).2.2.hs_size ≤ (solve inst rng).2.2.greedy_size := by
  set prS := subsuperset_prune inst with hprS
  set gaS := greedy_approx prS.1 with hgaS
  set stS : SimState := (⟨rng, [], [], gaS.1, Activities.init gaS.2, 0⟩ : SimState)
    with hstS
  set resS := solve_recursive (gaS.2.nodes.liveLen + 1) gaS.2 stS with hresS
  have hsolve : solve inst rng =
      (resS.1, resS.2,
       ⟨resS.2.best_known.length, gaS.1.length, resS.2.iterations⟩) := rfl
  obtain ⟨hpG, hpNE, _, _, hpCov, _, _⟩ := subsuperset_prune_spec hG hNE
  rw [← hprS] at hpG hpNE hpCov
  have hcovp : Covers prS.1 [] (inst.liveEdges.map inst.edgeNodes) :=
    hpCov [] _ (covers_self inst)
  obtain ⟨hgaHS, hga2⟩ := greedy_approx_spec hpG hpNE hcovp
  rw [← hgaS] at hgaHS hga2
  have hGg : gaS.2.Good := by
    rw [hga2]
    exact hpG
  have hhyp : SolveHyp gaS.2 stS (inst.liveEdges.map inst.edgeNodes) := by
    refine ⟨hGg, ?_, rfl, ?_, hgaHS⟩
    · rw [hga2]
      exact hpNE
    · show Covers gaS.2 [] _
      rw [hga2]
      exact hcovp
  have hfuel : gaS.2.liveNodes.length < gaS.2.nodes.liveLen + 1 := by
    have h1 : gaS.2.liveNodes.length = gaS.2.nodes.liveLen :=
      Civ.liveList_length hGg.1
    omega
  obtain ⟨_, _, _, _, hHS, hlen⟩ :=
    solve_rec_spec (gaS.2.nodes.liveLen + 1) gaS.2 stS
      (inst.liveEdges.map inst.edgeNodes) hhyp hfuel
  rw [← hresS] at hHS hlen
  rw [hsolve]
  exact ⟨hHS, rfl, rfl, hlen⟩

/-! ### The greedy packing (`pack_edges`) -/

theorem perm_insSorted {α : Type} (le : α → α → Bool) (a : α) :
    ∀ (l : List α), List.Perm (insSorted le a l) (a :: l) := by
  intro l
  induction l with
  | nil => exact List.Perm.refl _
  | cons b l ih =>
    show List.Perm (if le a b then a :: b :: l else b :: insSorted le a l) _
    by_cases h : le a b = true
    · rw [if_pos h]
    · rw [if_neg h]
      exact ((ih.cons b).trans (List.Perm.swap a b l))

theorem perm_sortByB {α : Type} (le : α → α → Bool) (l : List α) :
    List.Perm (sortByB le l) l := by
  induction l with
  | nil => exact List.Perm.refl _
  | cons a l ih =>
    show List.Perm (insSorted le a (sortByB le l)) (a :: l)
    exact (perm_insSorted le a (sortByB le l)).trans (ih.cons a)

theorem mem_sortByB {α : Type} {le : α → α → Bool} {l : List α} {x : α} :
    x ∈ sortByB le l ↔ x ∈ l :=
  (perm_sortByB le l).mem_iff

theorem nodeEdges_lt {inst : Instance} (hG : inst.Good) {v f : Nat}
    (hv : v ∈ inst.liveNodes) (hf : f ∈ inst.nodeEdges v) :
    f < inst.num_edges_total := by
  rw [Instance.mem_nodeEdges] at hf
  obtain ⟨i, hi, _, hval⟩ := hf
  have hL := hG.2.2.2.1.1 v (Instance.mem_liveNodes_lt hG hv) i hi
  rw [hval] at hL
  exact hL.1

theorem bfold_length (L : List Nat) :
    ∀ (fr : List Bool), (L.foldl (fun fr x => fr.set x false) fr).length =
      fr.length := by
  induction L with
  | nil => intro fr; rfl
  | cons x L ih =>
    intro fr
    rw [List.foldl_cons, ih, List.length_set]

theorem getD_set_false {fr : List Bool} {f : Nat} (x : Nat)
    (h : fr.getD f true = false) : (fr.set x false).getD f true = false := by
  rcases Nat.lt_or_ge x fr.length with hx | hx
  · rcases eq_or_ne x f with rfl | hne
    · rw [getD_set_self _ _ hx]
    · rw [getD_set_ne _ _ hne]
      exact h
  · rw [List.set_eq_of_length_le hx]
    exact h

theorem bfold_mono (L : List Nat) :
    ∀ {fr : List Bool} {f : Nat}, fr.getD f true = false →
      (L.foldl (fun fr x => fr.set x false) fr).getD f true = false := by
  induction L with
  | nil => intro fr f h; exact h
  | cons x L ih =>
    intro fr f h
    rw [List.foldl_cons]
    exact ih (getD_set_false x h)

theorem bfold_sets (L : List Nat) :
    ∀ {fr : List Bool} {f : Nat}, f ∈ L → f < fr.length →
      (L.foldl (fun fr x => fr.set x false) fr).getD f true = false := by
  induction L with
  | nil => intro fr f h; cases h
  | cons x L ih =>
    intro fr f hf hlt
    rw [List.foldl_cons]
    rcases List.mem_cons.mp hf with rfl | hf2
    · exact bfold_mono L (getD_set_self _ _ hlt)
    · exact ih hf2 (by rw [List.length_set]; exact hlt)

theorem b2fold_length (inst : Instance) (L2 : List Nat) :
    ∀ (fr : List Bool),
      (L2.foldl (fun fr v =>
        (inst.nodeEdges v).foldl (fun fr f => fr.set f false) fr) fr).length =
      fr.length := by
  induction L2 with
  | nil => intro fr; rfl
  | cons v L2 ih =>
    intro fr
    rw [List.foldl_cons, ih, bfold_length]

theorem b2fold_mono (inst : Instance) (L2 : List Nat) :
    ∀ {fr : List Bool} {f : Nat}, fr.getD f true = false →
      (L2.foldl (fun fr v =>
        (inst.nodeEdges v).foldl (fun fr f => fr.set f false) fr) fr).getD f true =
        false := by
  induction L2 with
  | nil => intro fr f h; exact h
  | cons v L2 ih =>
    intro fr f h
    rw [List.foldl_cons]
    exact ih (bfold_mono _ h)

theorem b2fold_sets (inst : Instance) (L2 : List Nat) :
    ∀ {fr : List Bool} {v f : Nat}, v ∈ L2 → f ∈ inst.nodeEdges v →
      f < fr.length →
      (L2.foldl (fun fr v =>
        (inst.nodeEdges v).foldl (fun fr f => fr.set f false) fr) fr).getD f true =
        false := by
  induction L2 with
  | nil => intro fr v f h; cases h
  | cons w L2 ih =>
    intro fr v f hv hf hlt
    rw [List.foldl_cons]
    rcases List.mem_cons.mp hv with rfl | hv2
    · exact b2fold_mono inst L2 (bfold_sets _ hf hlt)
    · exact ih hv2 hf (by rw [bfold_length]; exact hlt)

/-- Invariant of the `retain` fold of `pack_edges_without_local_search`:
the accepted edges are live and pairwise vertex-disjoint, and every edge
touching an accepted edge has its free flag cleared. -/
theorem pack_fold_inv {inst : Instance} (hG : inst.Good) :
    ∀ (S : List Nat) (acc : List Nat × List Bool),
      (∀ e ∈ S, e ∈ inst.liveEdges) →
      (∀ e1 ∈ acc.1, e1 ∈ inst.liveEdges) →
      List.Pairwise (fun e1 e2 => ∀ v ∈ inst.edgeNodes e1, v ∉ inst.edgeNodes e2)
        acc.1 →
      (∀ e1 ∈ acc.1, ∀ v ∈ inst.edgeNodes e1, ∀ f ∈ inst.nodeEdges v,
        acc.2.getD f true = false) →
      acc.2.length = inst.num_edges_total →
      (∀ e1 ∈ (S.foldl (fun acc e =>
          if acc.2.getD e true then
            (acc.1 ++ [e],
              (inst.edgeNodes e).foldl
                (fun fr v => (inst.nodeEdges v).foldl (fun fr f => fr.set f false) fr)
                acc.2)
          else acc) acc).1, e1 ∈ inst.liveEdges) ∧
      List.Pairwise (fun e1 e2 => ∀ v ∈ inst.edgeNodes e1, v ∉ inst.edgeNodes e2)
        (S.foldl (fun acc e =>
          if acc.2.getD e true then
            (acc.1 ++ [e],
              (inst.edgeNodes e).foldl
                (fun fr v => (inst.nodeEdges v).foldl (fun fr f => fr.set f false) fr)
                acc.2)
          else acc) acc).1 := by
  intro S
  induction S with
  | nil =>
    intro acc _ h1 h2 _ _
    exact ⟨h1, h2⟩
  | cons e S ih =>
    intro acc hS h1 h2 h3 h4
    have heL : e ∈ inst.liveEdges := hS e (List.mem_cons_self e S)
    have hS2 : ∀ x ∈ S, x ∈ inst.liveEdges := fun x hx =>
      hS x (List.mem_cons_of_mem e hx)
    rw [List.foldl_cons]
    by_cases hflag : acc.2.getD e true = true
    · rw [if_pos hflag]
      apply ih _ hS2
      · intro e1 he1
        rcases List.mem_append.mp he1 with h | h
        · exact h1 e1 h
        · rw [List.mem_singleton] at h
          rw [h]
          exact heL
      · rw [List.pairwise_append]
        refine ⟨h2, List.pairwise_singleton _ _, ?_⟩
        intro e1 he1 b hb
        rw [List.mem_singleton] at hb
        intro v hv hvb
        rw [hb] at hvb
        have hvl : v ∈ inst.liveNodes :=
          Instance.edgeNodes_subset_liveNodes hG (h1 e1 he1) v hv
        have hen : e ∈ inst.nodeEdges v :=
          Instance.mem_nodeEdges_of_mem_edgeNodes hG heL hvb
        have := h3 e1 he1 v hv e hen
        rw [this] at hflag
        cases hflag
      · intro e1 he1 v hv f hf
        rcases List.mem_append.mp he1 with h | h
        · exact b2fold_mono inst _ (h3 e1 h v hv f hf)
        · rw [List.mem_singleton] at h
          subst h
          have hvl : v ∈ inst.liveNodes :=
            Instance.edgeNodes_subset_liveNodes hG heL v hv
          have hflt : f < acc.2.length := by
            rw [h4]
            exact nodeEdges_lt hG hvl hf
          exact b2fold_sets inst _ hv hf hflt
      · rw [b2fold_length]
        exact h4
    · rw [if_neg hflag]
      exact ih acc hS2 h1 h2 h3 h4

/-- Pairwise vertex-disjoint edges are hit by pairwise distinct vertices, so
a packing never outnumbers a hitting set. -/
theorem disjoint_packing_le (inst : Instance) :
    ∀ (P H : List Nat),
      (∀ e ∈ P, ∃ v ∈ H, v ∈ inst.edgeNodes e) →
      List.Pairwise (fun e1 e2 => ∀ v ∈ inst.edgeNodes e1, v ∉ inst.edgeNodes e2)
        P →
      P.length ≤ H.length := by
  intro P
  induction P with
  | nil =>
    intro H _ _
    simp
  | cons e P ih =>
    intro H hhit hdisj
    obtain ⟨v, hvH, hve⟩ := hhit e (List.mem_cons_self e P)
    rw [List.pairwise_cons] at hdisj
    have hstep : ∀ e2 ∈ P, ∃ u ∈ H.erase v, u ∈ inst.edgeNodes e2 := by
      intro e2 he2
      obtain ⟨u, huH, hue⟩ := hhit e2 (List.mem_cons_of_mem e he2)
      have hne : u ≠ v := by
        intro h
        subst h
        exact (hdisj.1 e2 he2 u hve) hue
      exact ⟨u, (List.mem_erase_of_ne hne).mpr huH, hue⟩
    have hlen := ih (H.erase v) hstep hdisj.2
    have herase : (H.erase v).length = H.length - 1 := List.length_erase_of_mem hvH
    have hpos : 0 < H.length := List.length_pos.mpr (List.ne_nil_of_mem hvH)
    rw [List.length_cons]
    omega

/-- `pack_edges` yields live, pairwise vertex-disjoint edges, so its size
bounds every hitting set of the live sub-instance from below. -/
theorem pack_edges_spec {inst : Instance} (hG : inst.Good) :
    (∀ e ∈ (pack_edges inst).1, e ∈ inst.liveEdges) ∧
    List.Pairwise (fun e1 e2 => ∀ v ∈ inst.edgeNodes e1, v ∉ inst.edgeNodes e2)
      (pack_edges inst).1 ∧
    (∀ H : List Nat, (∀ e ∈ inst.liveEdges, ∃ v ∈ H, v ∈ inst.edgeNodes e) →
      (pack_edges inst).1.length ≤ H.length) := by
  have hmain := pack_fold_inv hG
    (sortByB (fun a b => pairLe
      ((inst.liveEdges.foldl (fun ks e =>
        ks.set e ((inst.edgeNodes e).foldl (fun sm v =>
          (sm.1 + inst.node_degree v, max sm.2 (inst.node_degree v))) (0, 0)))
        (List.replicate inst.num_edges_total (0, 0))).getD a (0, 0))
      ((inst.liveEdges.foldl (fun ks e =>
        ks.set e ((inst.edgeNodes e).foldl (fun sm v =>
          (sm.1 + inst.node_degree v, max sm.2 (inst.node_degree v))) (0, 0)))
        (List.replicate inst.num_edges_total (0, 0))).getD b (0, 0)))
      inst.liveEdges)
    (([] : List Nat), List.replicate inst.num_edges_total true)
    (fun e he => mem_sortByB.mp he)
    (fun e1 he1 => absurd he1 (List.not_mem_nil e1))
    (List.Pairwise.nil)
    (fun e1 he1 => absurd he1 (List.not_mem_nil e1))
    (List.length_replicate _ _)
  have hP1 : ∀ e ∈ (pack_edges inst).1, e ∈ inst.liveEdges := hmain.1
  have hP2 : List.Pairwise
      (fun e1 e2 => ∀ v ∈ inst.edgeNodes e1, v ∉ inst.edgeNodes e2)
      (pack_edges inst).1 := hmain.2
  refine ⟨hP1, hP2, ?_⟩
  intro H hH
  exact disjoint_packing_le inst _ H
    (fun e he => hH e (hP1 e he)) hP2

/-! ### The degree-sum refinement (`calculate`) -/

theorem sorted_insSorted {α : Type} {le : α → α → Bool}
    (htot : ∀ a b, le a b = true ∨ le b a = true)
    (htrans : ∀ a b c, le a b = true → le b c = true → le a c = true) (a : α) :
    ∀ {l : List α}, l.Pairwise (fun x y => le x y = true) →
      (insSorted le a l).Pairwise (fun x y => le x y = true) := by
  intro l
  induction l with
  | nil =>
    intro _
    show List.Pairwise _ [a]
    exact List.pairwise_singleton _ _
  | cons b l ih =>
    intro h
    rw [List.pairwise_cons] at h
    show List.Pairwise _ (if le a b then a :: b :: l else b :: insSorted le a l)
    by_cases hab : le a b = true
    · rw [if_pos hab]
      rw [List.pairwise_cons]
      refine ⟨?_, List.pairwise_cons.mpr h⟩
      intro z hz
      rcases List.mem_cons.mp hz with rfl | hz2
      · exact hab
      · exact htrans a b z hab (h.1 z hz2)
    · rw [if_neg hab]
      rw [List.pairwise_cons]
      refine ⟨?_, ih h.2⟩
      intro z hz
      have hz2 : z ∈ a :: l := (perm_insSorted le a l).mem_iff.mp hz
      rcases List.mem_cons.mp hz2 with rfl | h2
      · rcases htot z b with h3 | h3
        · exact absurd h3 hab
        · exact h3
      · exact h.1 z h2

theorem sorted_sortByB {α : Type} {le : α → α → Bool}
    (htot : ∀ a b, le a b = true ∨ le b a = true)
    (htrans : ∀ a b c, le a b = true → le b c = true → le a c = true)
    (l : List α) :
    (sortByB le l).Pairwise (fun x y => le x y = true) := by
  induction l with
  | nil => exact List.Pairwise.nil
  | cons a l ih =>
    show List.Pairwise _ (insSorted le a (sortByB le l))
    exact sorted_insSorted htot htrans a ih

/-- Reversing the ascending insertion sort of the degrees yields exactly the
descending insertion sort. -/
theorem reverse_sortAsc_eq_sortDesc (L : List Nat) :
    (sortByB (fun a b => decide (a ≤ b)) L).reverse =
      sortByB (fun a b => decide (b ≤ a)) L := by
  haveI : IsAntisymm Nat (fun a b : Nat => b ≤ a) :=
    ⟨fun a b h1 h2 => Nat.le_antisymm h2 h1⟩
  have hperm : List.Perm (sortByB (fun a b => decide (a ≤ b)) L).reverse
      (sortByB (fun a b => decide (b ≤ a)) L) :=
    ((List.reverse_perm _).trans
      (perm_sortByB _ L)).trans (perm_sortByB _ L).symm
  have hs1 : List.Sorted (fun a b : Nat => b ≤ a)
      (sortByB (fun a b => decide (a ≤ b)) L).reverse := by
    rw [List.Sorted, List.pairwise_reverse]
    have := @sorted_sortByB Nat (fun a b : Nat => decide (a ≤ b))
      (fun a b => by rcases Nat.le_total a b with h | h
                     · exact Or.inl (decide_eq_true h)
                     · exact Or.inr (decide_eq_true h))
      (fun a b c h1 h2 => decide_eq_true
        (Nat.le_trans (of_decide_eq_true h1) (of_decide_eq_true h2))) L
    exact this.imp (fun h => of_decide_eq_true h)
  have hs2 : List.Sorted (fun a b : Nat => b ≤ a)
      (sortByB (fun a b => decide (b ≤ a)) L) := by
    have := @sorted_sortByB Nat (fun a b : Nat => decide (b ≤ a))
      (fun a b => by rcases Nat.le_total b a with h | h
                     · exact Or.inl (decide_eq_true h)
                     · exact Or.inr (decide_eq_true h))
      (fun a b c h1 h2 => decide_eq_true
        (Nat.le_trans (of_decide_eq_true h2) (of_decide_eq_true h1))) L
    exact this.imp (fun h => of_decide_eq_true h)
  exact List.eq_of_perm_of_sorted hperm hs1 hs2

theorem getD_replicate_zero (n v : Nat) :
    (List.replicate n (0 : Nat)).getD v 0 = 0 := by
  rcases Nat.lt_or_ge v n with h | h
  · rw [List.getD_eq_getElem _ _ (by simpa using h), List.getElem_replicate]
  · rw [List.getD_eq_default _ _ (by simpa using h)]

theorem fold_set_getD (g : Nat → Nat) :
    ∀ (L : List Nat) (arr : List Nat) (v : Nat), L.Nodup →
      (∀ x ∈ L, x < arr.length) →
      (L.foldl (fun a x => a.set x (g x)) arr).getD v 0 =
        if v ∈ L then g v else arr.getD v 0 := by
  intro L
  induction L with
  | nil =>
    intro arr v _ _
    rw [if_neg (List.not_mem_nil v)]
    rfl
  | cons x L ih =>
    intro arr v hnd hb
    rw [List.nodup_cons] at hnd
    rw [List.foldl_cons, ih _ v hnd.2 (fun y hy => by
      rw [List.length_set]
      exact hb y (List.mem_cons_of_mem x hy))]
    have hxlt : x < arr.length := hb x (List.mem_cons_self x L)
    by_cases hvL : v ∈ L
    · rw [if_pos hvL, if_pos (List.mem_cons_of_mem x hvL)]
    · rw [if_neg hvL]
      rcases eq_or_ne v x with rfl | hne
      · rw [if_pos (List.mem_cons_self v L), getD_set_self _ _ hxlt]
      · rw [if_neg (fun h => by
          rcases List.mem_cons.mp h with h2 | h2
          · exact hne h2
          · exact hvL h2), getD_set_ne _ _ (Ne.symm hne)]

theorem fold_dec_getD :
    ∀ (L : List Nat) (arr : List Nat) (v : Nat), L.Nodup →
      (L.foldl (fun d v => d.set v (d.getD v 0 - 1)) arr).getD v 0 =
        if v ∈ L then arr.getD v 0 - 1 else arr.getD v 0 := by
  intro L
  induction L with
  | nil =>
    intro arr v _
    rw [if_neg (List.not_mem_nil v)]
    rfl
  | cons x L ih =>
    intro arr v hnd
    rw [List.nodup_cons] at hnd
    rw [List.foldl_cons, ih _ v hnd.2]
    by_cases hvL : v ∈ L
    · rw [if_pos hvL, if_pos (List.mem_cons_of_mem x hvL),
        getD_set_ne _ _ (fun h => hnd.1 (by rw [h]; exact hvL))]
    · rw [if_neg hvL]
      rcases eq_or_ne v x with rfl | hne
      · rw [if_pos (List.mem_cons_self v L)]
        rcases Nat.lt_or_ge v arr.length with hlt | hge
        · rw [getD_set_self _ _ hlt]
        · rw [List.set_eq_of_length_le hge]
          rw [List.getD_eq_default _ _ (by simpa using hge)]
      · rw [if_neg (fun h => by
          rcases List.mem_cons.mp h with h2 | h2
          · exact hne h2
          · exact hvL h2), getD_set_ne _ _ (Ne.symm hne)]

theorem fold_dec_length (L : List Nat) :
    ∀ (arr : List Nat),
      (L.foldl (fun d v => d.set v (d.getD v 0 - 1)) arr).length = arr.length := by
  induction L with
  | nil => intro arr; rfl
  | cons x L ih =>
    intro arr
    rw [List.foldl_cons, ih, List.length_set]

/-- Running value of the covered-edges counter of `lower_bound::calculate`. -/
theorem calc_fold_snd (inst : Instance) :
    ∀ (P : List Nat) (arr : List Nat) (c : Nat),
      (P.foldl (fun acc pe =>
        let mdn := maxByKeyLast (inst.edgeNodes pe) inst.node_degree
        let deg := (inst.edgeNodes pe).foldl
          (fun d v => d.set v (d.getD v 0 - 1)) acc.1
        (deg.set mdn 0, acc.2 + inst.node_degree mdn)) (arr, c)).2 =
      c + (P.map (fun p =>
        inst.node_degree (maxByKeyLast (inst.edgeNodes p) inst.node_degree))).sum := by
  intro P
  induction P with
  | nil =>
    intro arr c
    show c = c + 0
    omega
  | cons pe P ih =>
    intro arr c
    rw [List.foldl_cons, ih, List.map_cons, List.sum_cons]
    omega

/-- Running length of the residual-degree array. -/
theorem calc_fold_len (inst : Instance) :
    ∀ (P : List Nat) (arr : List Nat) (c : Nat),
      (P.foldl (fun acc pe =>
        let mdn := maxByKeyLast (inst.edgeNodes pe) inst.node_degree
        let deg := (inst.edgeNodes pe).foldl
          (fun d v => d.set v (d.getD v 0 - 1)) acc.1
        (deg.set mdn 0, acc.2 + inst.node_degree mdn)) (arr, c)).1.length =
      arr.length := by
  intro P
  induction P with
  | nil => intro arr c; rfl
  | cons pe P ih =>
    intro arr c
    rw [List.foldl_cons, ih, List.length_set, fold_dec_length]

/-- Pointwise value of the residual-degree array after the packing pass. -/
theorem calc_fold_getD (inst : Instance) :
    ∀ (P : List Nat), (∀ p ∈ P, (inst.edgeNodes p).Nodup) →
      ∀ (arr : List Nat) (c : Nat) (v : Nat),
      (P.foldl (fun acc pe =>
        let mdn := maxByKeyLast (inst.edgeNodes pe) inst.node_degree
        let deg := (inst.edgeNodes pe).foldl
          (fun d v => d.set v (d.getD v 0 - 1)) acc.1
        (deg.set mdn 0, acc.2 + inst.node_degree mdn)) (arr, c)).1.getD v 0 =
      if ∃ p ∈ P, maxByKeyLast (inst.edgeNodes p) inst.node_degree = v then 0
      else arr.getD v 0 - P.countP (fun p => (inst.edgeNodes p).contains v) := by
  intro P
  induction P with
  | nil =>
    intro _ arr c v
    rw [if_neg (by rintro ⟨p, hp, _⟩; cases hp)]
    show arr.getD v 0 = arr.getD v 0 - 0
    omega
  | cons pe P ih =>
    intro hnd arr c v
    have hndpe := hnd pe (List.mem_cons_self pe P)
    have hndP : ∀ p ∈ P, (inst.edgeNodes p).Nodup := fun p hp =>
      hnd p (List.mem_cons_of_mem pe hp)
    rw [List.foldl_cons]
    rw [ih hndP _ _ v]
    have hcount : (pe :: P).countP (fun p => (inst.edgeNodes p).contains v) =
        P.countP (fun p => (inst.edgeNodes p).contains v) +
          (if v ∈ inst.edgeNodes pe then 1 else 0) := by
      rw [List.countP_cons]
      by_cases hv : v ∈ inst.edgeNodes pe
      · rw [if_pos hv, if_pos (by simpa using contains_iff.mpr hv)]
      · rw [if_neg hv, if_neg (by
          intro h
          exact hv (contains_iff.mp (by simpa using h)))]
    have hnew : (((inst.edgeNodes pe).foldl (fun d v => d.set v (d.getD v 0 - 1))
        arr).set (maxByKeyLast (inst.edgeNodes pe) inst.node_degree) 0).getD v 0 =
        if maxByKeyLast (inst.edgeNodes pe) inst.node_degree = v then 0
        else arr.getD v 0 - (if v ∈ inst.edgeNodes pe then 1 else 0) := by
      rcases eq_or_ne (maxByKeyLast (inst.edgeNodes pe) inst.node_degree) v with
        heq | hne
      · rw [if_pos heq, heq]
        rcases Nat.lt_or_ge v (((inst.edgeNodes pe).foldl
            (fun d v => d.set v (d.getD v 0 - 1)) arr).length) with hlt | hge
        · rw [getD_set_self _ _ hlt]
        · rw [List.set_eq_of_length_le hge,
            List.getD_eq_default _ _ (by simpa using hge)]
      · rw [if_neg hne, getD_set_ne _ _ hne, fold_dec_getD _ _ _ hndpe]
        by_cases hv : v ∈ inst.edgeNodes pe
        · rw [if_pos hv, if_pos hv]
        · rw [if_neg hv, if_neg hv]
          omega
    by_cases hex : ∃ p ∈ P, maxByKeyLast (inst.edgeNodes p) inst.node_degree = v
    · rw [if_pos hex, if_pos ?_]
      · obtain ⟨p, hp, hpv⟩ := hex
        exact ⟨p, List.mem_cons_of_mem pe hp, hpv⟩
    · rw [if_neg hex, hnew]
      rcases eq_or_ne (maxByKeyLast (inst.edgeNodes pe) inst.node_degree) v with
        heq | hne
      · rw [if_pos heq,
          if_pos ⟨pe, List.mem_cons_self pe P, heq⟩]
        omega
      · have hnotex : ¬ ∃ p ∈ pe :: P,
            maxByKeyLast (inst.edgeNodes p) inst.node_degree = v := by
          rintro ⟨p, hp, hpv⟩
          rcases List.mem_cons.mp hp with rfl | hp2
          · exact hne hpv
          · exact hex ⟨p, hp2, hpv⟩
        rw [if_neg hne, if_neg hnotex, hcount]
        by_cases hv : v ∈ inst.edgeNodes pe
        · rw [if_pos hv]
          omega
        · rw [if_neg hv]
          omega

theorem getD_map_range (f : Nat → Nat) {n v : Nat} (h : v < n) :
    ((List.range n).map f).getD v 0 = f v := by
  rw [List.getD_eq_getElem _ _ (by simpa using h), List.getElem_map,
    List.getElem_range]

theorem fold_set_length (g : Nat → Nat) (L : List Nat) :
    ∀ (arr : List Nat),
      (L.foldl (fun a x => a.set x (g x)) arr).length = arr.length := by
  induction L with
  | nil => intro arr; rfl
  | cons x L ih =>
    intro arr
    rw [List.foldl_cons, ih, List.length_set]

/-- `lower_bound::calculate` computes exactly the phase-C bound written in
the specification. -/
theorem calculate_eq_spec {inst : Instance} (hG : inst.Good) (packing : List Nat)
    (part_size : Nat) :
    calculate inst packing part_size = calculateSpec inst packing part_size := by
  set degree0 := inst.liveNodes.foldl (fun deg v => deg.set v (inst.node_degree v))
    (List.replicate inst.num_nodes_total 0) with hd0
  set res := packing.foldl (fun acc pe =>
      let mdn := maxByKeyLast (inst.edgeNodes pe) inst.node_degree
      let deg := (inst.edgeNodes pe).foldl (fun d v => d.set v (d.getD v 0 - 1)) acc.1
      (deg.set mdn 0, acc.2 + inst.node_degree mdn)) (degree0, 0) with hres
  have hcal : calculate inst packing part_size =
      part_size + packing.length +
        consumeCount (sortByB (fun a b => decide (a ≤ b)) res.1).reverse res.2
          inst.num_edges := rfl
  set covered := (packing.map (fun p =>
    inst.node_degree (maxByKeyLast (inst.edgeNodes p) inst.node_degree))).sum
    with hcov
  set residuals := (List.range inst.num_nodes_total).map (residualSpec inst packing)
    with hresid
  have hspec : calculateSpec inst packing part_size =
      part_size + packing.length +
        consumeCount (sortByB (fun a b => decide (b ≤ a)) residuals) covered
          inst.num_edges := rfl
  have hsnd : res.2 = covered := by
    rw [hres, calc_fold_snd]
    omega
  have hl0 : degree0.length = inst.num_nodes_total := by
    rw [hd0, fold_set_length, List.length_replicate]
  have hd0v : ∀ v, degree0.getD v 0 =
      if v ∈ inst.liveNodes then inst.node_degree v else 0 := by
    intro v
    rw [hd0, fold_set_getD inst.node_degree inst.liveNodes _ v
      (Civ.liveList_nodup hG.1) (fun x hx => by
        rw [List.length_replicate]
        exact Instance.mem_liveNodes_lt hG hx)]
    by_cases hv : v ∈ inst.liveNodes
    · rw [if_pos hv, if_pos hv]
    · rw [if_neg hv, if_neg hv, getD_replicate_zero]
  have hlen1 : res.1.length = inst.num_nodes_total := by
    rw [hres, calc_fold_len]
    exact hl0
  have hlenr : residuals.length = inst.num_nodes_total := by
    rw [hresid, List.length_map, List.length_range]
  have hfst : res.1 = residuals := by
    apply ext_getD 0 (by rw [hlen1, hlenr])
    intro v
    rcases Nat.lt_or_ge v inst.num_nodes_total with hv | hv
    · rw [hres, calc_fold_getD inst packing
        (fun p _ => Instance.edgeNodes_nodup hG p) degree0 0 v,
        hresid, getD_map_range _ hv]
      unfold residualSpec
      have hany : (packing.any (fun p =>
          maxByKeyLast (inst.edgeNodes p) inst.node_degree == v)) = true ↔
          (∃ p ∈ packing,
            maxByKeyLast (inst.edgeNodes p) inst.node_degree = v) := by
        rw [List.any_eq_true]
        constructor
        · rintro ⟨p, hp, hbe⟩
          exact ⟨p, hp, by simpa using hbe⟩
        · rintro ⟨p, hp, he⟩
          exact ⟨p, hp, by simpa using he⟩
      by_cases hex : ∃ p ∈ packing,
          maxByKeyLast (inst.edgeNodes p) inst.node_degree = v
      · rw [if_pos hex, if_pos (hany.mpr hex)]
      · rw [if_neg hex, if_neg (fun h => hex (hany.mp h)), hd0v v]
        by_cases hvl : v ∈ inst.liveNodes
        · rw [if_pos hvl, if_pos (contains_iff.mpr hvl)]
        · rw [if_neg hvl, if_neg (fun h => hvl (contains_iff.mp h))]
    · rw [List.getD_eq_default _ _ (by rw [hlen1]; exact hv),
        List.getD_eq_default _ _ (by rw [hlenr]; exact hv)]
  rw [hcal, hspec, hsnd, hfst, reverse_sortAsc_eq_sortDesc]

/-! ### The claims -/

theorem ceil_div_le (n d : Nat) (hd : 0 < d) : n ≤ ((n + d - 1) / d) * d := by
  have h1 := Nat.div_add_mod (n + d - 1) d
  have h2 : (n + d - 1) % d < d := Nat.mod_lt _ hd
  rw [Nat.mul_comm]
  omega

theorem ceil_div_least (n d k : Nat) (hd : 0 < d) (hk : n ≤ k * d) :
    (n + d - 1) / d ≤ k := by
  have h1 := Nat.div_add_mod (n + d - 1) d
  have h2 : (n + d - 1) % d < d := Nat.mod_lt _ hd
  by_contra hcon
  push_neg at hcon
  have h3 : d * (k + 1) ≤ d * ((n + d - 1) / d) := Nat.mul_le_mul_left d hcon
  rw [Nat.mul_comm] at hk
  rw [Nat.mul_succ] at h3
  omega

/-- C1 (corrected): the pruning test of `solve_recursive` does not evaluate
the packing bound of section 4.6; `can_prune` compares the incumbent against
`|incomplete_hs|` plus the max-degree covering bound
`⌈num_edges / max_node_degree⌉`: it prunes exactly when every number of
vertices that suffices to cover the live edges by maximal degree already
reaches the incumbent. -/
theorem c1_can_prune_max_degree_bound {inst : Instance} {st : SimState}
    (hpos : 0 < inst.max_node_degree) :
    can_prune inst st = true ↔
      ∀ k, inst.num_edges ≤ k * inst.max_node_degree →
        st.best_known.length ≤ st.incomplete_hs.length + k := by
  unfold can_prune
  rw [decide_eq_true_iff]
  constructor
  · intro h k hk
    have h2 := ceil_div_least inst.num_edges inst.max_node_degree k hpos hk
    omega
  · intro h
    exact h _ (ceil_div_le _ _ hpos)

theorem c1_witness : 0 < c1Inst.max_node_degree ∧
    (can_prune c1Inst c1State = true ↔
      ∀ k, c1Inst.num_edges ≤ k * c1Inst.max_node_degree →
        c1State.best_known.length ≤ c1State.incomplete_hs.length + k) :=
  ⟨by decide, c1_can_prune_max_degree_bound (by decide)⟩

/-- C1 counterexample: on the hub-plus-singletons instance the section-4.6
bound `partial_size + |P| + k` evaluated by `pack_edges` and `calculate`
reaches the incumbent size 4, so the claimed test would prune, yet
`can_prune` answers false — the pruning test is not the section-4.6 bound. -/
theorem c1_counterexample :
    c1State.best_known.length ≤
      calculate c1Inst (pack_edges c1Inst).1 c1State.incomplete_hs.length ∧
    can_prune c1Inst c1State = false :=
  ⟨by decide, by decide⟩

/-- C2: on a well-formed instance whose live edges all have a live vertex,
`solve` always returns; its incumbent `best_known` hits every live edge
content of the original instance, `hs_size` is its length, and it is at most
`greedy_size`, the greedy warm start's size. -/
theorem c2_solver_correctness {inst : Instance} (hG : inst.Good)
    (hNE : inst.LiveNonempty) (rng : List Bool) :
    IsHS (solve inst rng).2.1.best_known (inst.liveEdges.map inst.edgeNodes) ∧
    (solve inst rng).2.2.hs_size = (solve inst rng).2.1.best_known.length ∧
    (solve inst rng).2.2.hs_size ≤ (solve inst rng).2.2.greedy_size := by
  obtain ⟨h1, h2, _, h4⟩ := solve_spec hG hNE rng
  exact ⟨h1, h2, h4⟩

theorem c2_witness : triInst.Good ∧ triInst.LiveNonempty ∧
    (IsHS (solve triInst []).2.1.best_known
        (triInst.liveEdges.map triInst.edgeNodes) ∧
      (solve triInst []).2.2.hs_size = (solve triInst []).2.1.best_known.length ∧
      (solve triInst []).2.2.hs_size ≤ (solve triInst []).2.2.greedy_size) :=
  ⟨by decide, by decide, c2_solver_correctness (by decide) (by decide) []⟩

/-- C3 (refuted): `load` keeps each edge line's vertex order and never
sorts, so on the edge line "2 1 0" the iteration `instance.edge(0)` of the
freshly loaded instance yields [1, 0], which is not strictly ascending. -/
theorem c3_counterexample : ∃ inst : Instance,
    load [[some 2, some 1], [some 2, some 1, some 0]] = Except.ok inst ∧
    inst.edgeNodes 0 = [1, 0] ∧
    ¬ List.Pairwise (fun a b => a < b) (inst.edgeNodes 0) :=
  ⟨_, rfl, rfl, by decide⟩

/-- C4 (refuted): with 2 declared vertices the edge line "1 5" mentions
vertex id 5 > n−1 = 1, yet `load` succeeds and stores the id — the loader
has no range check on vertex ids. -/
theorem c4_counterexample : ∃ inst : Instance,
    load [[some 2, some 1], [some 1, some 5]] = Except.ok inst ∧
    inst.num_nodes_total = 2 ∧ 5 ∈ inst.edgeNodes 0 :=
  ⟨_, rfl, rfl, by decide⟩

/-- C5: any applicable balanced, LIFO-nested sequence of matched
delete/restore pairs (node, edge, or incident-edges) is the identity on a
well-formed instance: live vertex and edge sets, incidence contents and
cross-side links all return to the initial state exactly. -/
theorem c5_reversibility (o : Ops) (s : Instance) (hG : s.Good)
    (happ : applicableB o s = true) : runOps o s = s :=
  runOps_id o s hG happ

theorem c5_witness : triInst.Good ∧
    applicableB (Ops.node 0 (Ops.incident 0 Ops.nil)) triInst = true ∧
    runOps (Ops.node 0 (Ops.incident 0 Ops.nil)) triInst = triInst :=
  ⟨by decide, by decide,
    c5_reversibility (Ops.node 0 (Ops.incident 0 Ops.nil)) triInst
      (by decide) (by decide)⟩

/-- C6: the edges accepted by `pack_edges` are live and pairwise
vertex-disjoint, so the packing is no larger than any hitting set of the
live sub-instance. -/
theorem c6_packing_disjoint_bound {inst : Instance} (hG : inst.Good) :
    (∀ e ∈ (pack_edges inst).1, e ∈ inst.liveEdges) ∧
    List.Pairwise (fun e1 e2 => ∀ v ∈ inst.edgeNodes e1, v ∉ inst.edgeNodes e2)
      (pack_edges inst).1 ∧
    (∀ H : List Nat, (∀ e ∈ inst.liveEdges, ∃ v ∈ H, v ∈ inst.edgeNodes e) →
      (pack_edges inst).1.length ≤ H.length) :=
  pack_edges_spec hG

theorem c6_witness : triInst.Good ∧
    ((∀ e ∈ (pack_edges triInst).1, e ∈ triInst.liveEdges) ∧
      List.Pairwise
        (fun e1 e2 => ∀ v ∈ triInst.edgeNodes e1, v ∉ triInst.edgeNodes e2)
        (pack_edges triInst).1 ∧
      (∀ H : List Nat,
        (∀ e ∈ triInst.liveEdges, ∃ v ∈ H, v ∈ triInst.edgeNodes e) →
        (pack_edges triInst).1.length ≤ H.length)) :=
  ⟨by decide, c6_packing_disjoint_bound (by decide)⟩

/-- C7: on a well-formed live sub-instance, for a packing of pairwise
vertex-disjoint live edges and any partial size, `lower_bound::calculate`
returns exactly the phase-C value of section 4.6: partial_size + |P| + the
number of largest residual degrees consumed until the covered count reaches
the live edge count. -/
theorem c7_calculate_phase_c {inst : Instance} (hG : inst.Good)
    {packing : List Nat} (hsub : ∀ p ∈ packing, p ∈ inst.liveEdges)
    (hdisj : List.Pairwise
      (fun e1 e2 => ∀ v ∈ inst.edgeNodes e1, v ∉ inst.edgeNodes e2) packing)
    (part_size : Nat) :
    calculate inst packing part_size = calculateSpec inst packing part_size :=
  calculate_eq_spec hG packing part_size

theorem c7_witness : triInst.Good ∧ (∀ p ∈ ([0] : List Nat), p ∈ triInst.liveEdges) ∧
    List.Pairwise
      (fun e1 e2 => ∀ v ∈ triInst.edgeNodes e1, v ∉ triInst.edgeNodes e2)
      ([0] : List Nat) ∧
    calculate triInst [0] 2 = calculateSpec triInst [0] 2 :=
  ⟨by decide, by decide, by decide,
    c7_calculate_phase_c (by decide) (by decide) (by decide) 2⟩

/-- C8: `greedy_approx` returns a hitting set of every live edge content,
and after the restore pass the instance equals its state before the call
exactly. -/
theorem c8_greedy_approx {inst : Instance} (hG : inst.Good)
    (hNE : inst.LiveNonempty) :
    IsHS (greedy_approx inst).1 (inst.liveEdges.map inst.edgeNodes) ∧
    (greedy_approx inst).2 = inst :=
  greedy_approx_spec hG hNE (covers_self inst)

theorem c8_witness : triInst.Good ∧ triInst.LiveNonempty ∧
    (IsHS (greedy_approx triInst).1 (triInst.liveEdges.map triInst.edgeNodes) ∧
      (greedy_approx triInst).2 = triInst) :=
  ⟨by decide, by decide, c8_greedy_approx (by decide) (by decide)⟩

/-- C9: under either child order drawn from the generator, `branch_on`
restores the instance (hence the live vertex and edge sets), the
`incomplete_hs` and `discarded` stacks, and the activity tracker's live set
to their values before the call. -/
theorem c9_branch_on_frame {fuel : Nat} {inst : Instance} {st : SimState}
    {E0 : List (List Nat)} {v : Nat}
    (hh : SolveHyp inst st E0) (hv : v ∈ inst.liveNodes)
    (hdeg : ∀ e ∈ inst.liveEdges, inst.edge_degree e ≠ 1)
    (hfuel : inst.liveNodes.length ≤ fuel) :
    (branch_on (solve_recursive fuel) v inst st).1 = inst ∧
    (branch_on (solve_recursive fuel) v inst st).2.incomplete_hs =
      st.incomplete_hs ∧
    (branch_on (solve_recursive fuel) v inst st).2.discarded = st.discarded ∧
    (branch_on (solve_recursive fuel) v inst st).2.activities.live =
      st.activities.live := by
  obtain ⟨h1, h2, h3, h4, _, _⟩ :=
    branch_on_spec (fun i s E hh2 hl => solve_rec_spec fuel i s E hh2 hl)
      hh hv hdeg hfuel
  exact ⟨h1, h2, h3, h4⟩

theorem c9_witness :
    SolveHyp triInst (⟨[], [], [], [0, 1], Activities.init triInst, 0⟩ : SimState)
      (triInst.liveEdges.map triInst.edgeNodes) ∧
    0 ∈ triInst.liveNodes ∧
    (∀ e ∈ triInst.liveEdges, triInst.edge_degree e ≠ 1) ∧
    triInst.liveNodes.length ≤ 3 ∧
    ((branch_on (solve_recursive 3) 0 triInst
        (⟨[], [], [], [0, 1], Activities.init triInst, 0⟩ : SimState)).1 =
          triInst ∧
      (branch_on (solve_recursive 3) 0 triInst
        (⟨[], [], [], [0, 1], Activities.init triInst, 0⟩ : SimState)).2.incomplete_hs =
        (⟨[], [], [], [0, 1], Activities.init triInst, 0⟩ : SimState).incomplete_hs ∧
      (branch_on (solve_recursive 3) 0 triInst
        (⟨[], [], [], [0, 1], Activities.init triInst, 0⟩ : SimState)).2.discarded =
        (⟨[], [], [], [0, 1], Activities.init triInst, 0⟩ : SimState).discarded ∧
      (branch_on (solve_recursive 3) 0 triInst
        (⟨[], [], [], [0, 1], Activities.init triInst, 0⟩ : SimState)).2.activities.live =
        (⟨[], [], [], [0, 1], Activities.init triInst, 0⟩ : SimState).activities.live) :=
  ⟨by decide, by decide, by decide, by decide,
    @c9_branch_on_frame 3 triInst
      (⟨[], [], [], [0, 1], Activities.init triInst, 0⟩ : SimState)
      (triInst.liveEdges.map triInst.edgeNodes) 0
      (by decide) (by decide) (by decide) (by decide)⟩

/-- C10: `load` succeeds on an edge line with fewer vertex ids than its
declared degree d ≥ 1 (when the present tokens parse): no error is reported
and, in `edge_incidences`, the present slots hold the given ids while every
missing slot keeps the INVALID sentinel id, all slots live. -/
theorem c10_short_edge_line (n d : Nat) (vs : List Nat) (hd : d ≠ 0)
    (hlen : vs.length ≤ d) :
    ∃ inst : Instance, load [[some n, some 1], some d :: vs.map some] =
        Except.ok inst ∧
      eisShape inst.edge_incidences 0 =
        vs.map (fun v => (v, true)) ++
          List.replicate (d - vs.length) (INVALID, true) :=
  load_fills_invalid n d vs hd hlen

theorem c10_witness : (3 : Nat) ≠ 0 ∧ ([1] : List Nat).length ≤ 3 ∧
    (∃ inst : Instance,
      load [[some 4, some 1], some 3 :: ([1] : List Nat).map some] =
        Except.ok inst ∧
      eisShape inst.edge_incidences 0 =
        ([1] : List Nat).map (fun v => (v, true)) ++
          List.replicate (3 - ([1] : List Nat).length) (INVALID, true)) :=
  ⟨by decide, by decide, c10_short_edge_line 4 3 [1] (by decide) (by decide)⟩

end FindMinHS
